import Mathlib

/-! # mytrade order book: a shallow embedding

The definitions below embed package `orderbook` (files `types.go`, `order.go`,
`orderbook.go`) together with the part of Go's `container/heap` that the package calls.

Conventions of the embedding:

* Go `int` values (prices, quantities, `idx`, `MaxQueueSize`) are `Int`; positions inside a
  slice are `Nat`.  No operation of the package can overflow 64 bits on quantities that
  were accepted by `NewOrder`: quantities only shrink during matching and a Done record
  accumulates at most the original quantity of its order.
* `uuid.New()` and `time.Now()` are inputs of the environment: every function that calls
  them receives the fresh identifier and the current instant as explicit arguments.
* A pointer `*Order` is modelled by the value it points to.  Wherever the source reads an
  order again after the queue has written its `idx` through the pointer, the embedding
  propagates the written `idx` explicitly.
* The reader-writer lock is not modelled: every operation runs alone.
-/

namespace orderbook

/-! ## types.go -/

/-- Go `type Side int`; any integer is a value of the type. -/
abbrev Side := Int

/-- Constant `Buy Side = iota`. -/
def Buy : Side := 0

/-- Constant `Sell`. -/
def Sell : Side := 1

/-- Go `type PriceMode int` with its three constants. -/
inductive PriceMode where
  | Limit
  | Market
  | Unknown
  deriving DecidableEq, Repr

/-- Go `type OrderStatus int` with its five constants. -/
inductive OrderStatus where
  | StatusDone
  | StatusCompleted
  | StatusPending
  | StatusCanceled
  | StatusUnknown
  deriving DecidableEq, Repr

/-- The error values of the package: the four sentinels of `types.go` and the ad-hoc
error `errors.New("order is nil")` of `GetOrder`. -/
inductive Error where
  | ErrBadOrderPrice
  | ErrBadOrderQty
  | ErrTooLargeSizeOfQueue
  | ErrDataNotFound
  | ErrOrderIsNil
  deriving DecidableEq, Repr

/-! ## order.go -/

/-- A `uuid.UUID`, represented by its canonical text form, the 36 characters returned by
`ID.String()`. -/
structure UUID where
  text : String
  len36 : text.length = 36
  deriving DecidableEq

/-- Method `uuid.UUID.String`. -/
def UUID.String (u : UUID) : String := u.text

/-- A `time.Time`, represented by the integer that `Time.UTC().UnixNano()` returns. -/
abbrev Time := Int

/-- Go `type Order struct`; the field `Time` holds the value of `Time.UTC().UnixNano()`. -/
structure Order where
  ID : UUID
  Price : Int
  PriceMode : PriceMode
  Qty : Int
  Side : Side
  Time : Int
  idx : Int
  deriving DecidableEq

/-- Function `NewOrder`; `id` is the result of `uuid.New()` and `now` of `time.Now()`.
The field `idx` is left at Go's zero value. -/
def NewOrder (id : UUID) (now : Time) (side : Side) (price qty : Int) : Except Error Order :=
  if qty < 1 then
    .error .ErrBadOrderQty
  else if price < 1 then
    .error .ErrBadOrderPrice
  else
    .ok { ID := id, Side := side, Price := price, Qty := qty, Time := now,
          PriceMode := .Unknown, idx := 0 }

/-- Go `type Orders []*Order`. -/
abbrev Orders := List Order

/-- Method `Orders.Len`. -/
def Orders.Len (o : Orders) : Nat := o.length

/-- The comparison that `Orders.Less` performs on the two orders it has fetched. -/
def Order.less (a b : Order) : Bool :=
  if a.Price = b.Price then
    decide (a.Time < b.Time)
  else if a.Side = Buy then
    decide (a.Price > b.Price)
  else
    decide (a.Price < b.Price)

/-- Method `Orders.Less`.  Go panics on an index outside the slice; every call made by
`container/heap` is inside, and outside the embedding answers `false`. -/
def Orders.Less (o : Orders) (i j : Nat) : Bool :=
  match o[i]?, o[j]? with
  | some a, some b => a.less b
  | _, _ => false

/-- Method `Orders.Push`: writes the new order's `idx` and appends it. -/
def Orders.Push (o : Orders) (x : Order) : Orders :=
  o ++ [{ x with idx := (o.Len : Int) }]

/-- Method `Orders.Swap`: exchanges positions `i` and `j` and rewrites both `idx` fields.
Go panics on an index outside the slice; the embedding then leaves the slice alone. -/
def Orders.Swap (o : Orders) (i j : Nat) : Orders :=
  match o[i]?, o[j]? with
  | some a, some b => (o.set i { b with idx := (i : Int) }).set j { a with idx := (j : Int) }
  | _, _ => o

/-- Method `Orders.Pop`: removes the last order and returns it with `idx = -1`.
`none` stands for the panic of Go on an empty slice. -/
def Orders.Pop (o : Orders) : Option (Order × Orders) :=
  match o.getLast? with
  | none => none
  | some x => some ({ x with idx := -1 }, o.dropLast)

/-! ## container/heap, specialised to `Orders` -/

namespace heap

/-- The loop of `heap.up`; `fuel` bounds the number of iterations.  Returns the slice and
the final position `j` of the order that was moved up. -/
def upLoop : Nat → Orders → Nat → Orders × Nat
  | 0, h, j => (h, j)
  | fuel + 1, h, j =>
    let i := (j - 1) / 2
    if i = j ∨ !h.Less j i then (h, j)
    else upLoop fuel (h.Swap i j) i

/-- Function `heap.up`.  The position at least halves in each iteration, so `j` iterations
are enough. -/
def up (h : Orders) (j : Nat) : Orders × Nat := upLoop j h j

/-- The child that `heap.down` compares with the parent: the left child `j1`, or the
right child `j2 = j1 + 1` when it exists and is less than the left one. -/
def downChild (h : Orders) (j1 n : Nat) : Nat :=
  if j1 + 1 < n ∧ h.Less (j1 + 1) j1 then j1 + 1 else j1

/-- The loop of `heap.down`; `fuel` bounds the number of iterations.  Returns the slice and
the final position `i`.  The test `j1 < 0` of the source guards against an overflow of
`2*i + 1` and is never true for a slice that fits in memory. -/
def downLoop : Nat → Orders → Nat → Nat → Orders × Nat
  | 0, h, i, _ => (h, i)
  | fuel + 1, h, i, n =>
    let j1 := 2 * i + 1
    if j1 ≥ n then (h, i)
    else
      let j := downChild h j1 n
      if !h.Less j i then (h, i)
      else downLoop fuel (h.Swap i j) j n

/-- Function `heap.down`: the position grows in each iteration and stays below `n`, so `n`
iterations are enough.  The Boolean is Go's result `i > i0`. -/
def down (h : Orders) (i0 n : Nat) : Orders × Bool :=
  let r := downLoop n h i0 n
  (r.1, decide (r.2 > i0))

/-- The loop `for i := n/2 - 1; i >= 0; i--` of `heap.Init`, with `k = i + 1`. -/
def initLoop (n : Nat) : Nat → Orders → Orders
  | 0, h => h
  | k + 1, h => initLoop n k (down h k n).1

/-- Function `heap.Init`. -/
def Init (h : Orders) : Orders := initLoop h.Len (h.Len / 2) h

/-- Function `heap.Push`, returning also the position at which the pushed order settles
(the value that the queue has written into its `idx`). -/
def PushAt (h : Orders) (x : Order) : Orders × Nat :=
  let h1 := h.Push x
  up h1 (h1.Len - 1)

/-- Function `heap.Push`. -/
def Push (h : Orders) (x : Order) : Orders := (PushAt h x).1

/-- Function `heap.Pop`; `none` stands for the panic of Go on an empty heap. -/
def Pop (h : Orders) : Option (Order × Orders) :=
  if h.Len = 0 then none
  else
    let n := h.Len - 1
    let h1 := h.Swap 0 n
    let h2 := (down h1 0 n).1
    h2.Pop

/-- Function `heap.Fix`. -/
def Fix (h : Orders) (i : Nat) : Orders :=
  let r := down h i h.Len
  if !r.2 then (up r.1 i).1 else r.1

end heap

/-- Method `Orders.Fix`. -/
def Orders.Fix (o : Orders) (i : Nat) : Orders := heap.Fix o i

/-! ## orderbook.go -/

/-- The Go map `map[string]Order`, kept as an association list in order of insertion.
A key occurs once in every map built by `put` from the empty map. -/
abbrev DoneMap := List (String × Order)

/-- Map lookup `v, exist := m[id]`. -/
def DoneMap.get? : DoneMap → String → Option Order
  | [], _ => none
  | (k, v) :: d, id => if k = id then some v else DoneMap.get? d id

/-- Map assignment `m[id] = v`. -/
def DoneMap.put : DoneMap → String → Order → DoneMap
  | [], id, v => [(id, v)]
  | (k, w) :: d, id, v => if k = id then (k, v) :: d else (k, w) :: DoneMap.put d id v

/-- Go `type OrderBook struct` without its lock.  `cleanTimeFreq` is a `time.Duration`,
an integer number of nanoseconds. -/
structure OrderBook where
  Done : DoneMap
  Bids : Orders
  Asks : Orders
  cleanTimeFreq : Int
  deriving DecidableEq

/-- Go `type Option func(ob *OrderBook) error`. -/
abbrev Option_ := OrderBook → Except Error OrderBook

/-- Function `WithCleanTimeFrequecy`. -/
def WithCleanTimeFrequecy (duration : Int) : Option_ :=
  fun ob => .ok { ob with cleanTimeFreq := duration }

/-- The loop over the options in `New`. -/
def applyOpts : List Option_ → OrderBook → Except Error OrderBook
  | [], ob => .ok ob
  | opt :: opts, ob =>
    match opt ob with
    | .error err => .error err
    | .ok ob1 => applyOpts opts ob1

/-- Function `New`: empty queues, empty Done, cleaning period of ten seconds. -/
def New (opts : List Option_) : Except Error OrderBook :=
  applyOpts opts { Done := [], Bids := [], Asks := [], cleanTimeFreq := 10 * 1000000000 }

namespace OrderBook

/-- Method `GetBids`. -/
def GetBids (ob : OrderBook) : Orders := ob.Bids

/-- Method `GetAsks`. -/
def GetAsks (ob : OrderBook) : Orders := ob.Asks

/-- Method `CheckQueueSize`; `MaxQueueSize` is the package variable of that name, read at
the time of the call.  `none` is Go's `nil` error. -/
def CheckQueueSize (MaxQueueSize : Int) (ob : OrderBook) (side : Side) : Option Error :=
  if side = Buy then
    if (ob.GetBids.length : Int) ≥ MaxQueueSize then some .ErrTooLargeSizeOfQueue else none
  else if side = Sell then
    if (ob.GetAsks.length : Int) ≥ MaxQueueSize then some .ErrTooLargeSizeOfQueue else none
  else
    none

/-- Method `PushOrder`, returning also the position that the queue has written into the
`idx` of the pushed order. -/
def PushOrderAt (ob : OrderBook) (o : Order) : OrderBook × Nat :=
  if o.Side = Buy then
    let r := heap.PushAt ob.Bids o
    ({ ob with Bids := r.1 }, r.2)
  else
    let r := heap.PushAt ob.Asks o
    ({ ob with Asks := r.1 }, r.2)

/-- Method `PushOrder`. -/
def PushOrder (ob : OrderBook) (o : Order) : OrderBook := (ob.PushOrderAt o).1

/-- Method `PushOrderSync`. -/
def PushOrderSync (ob : OrderBook) (o : Order) : OrderBook := ob.PushOrder o

/-- Method `PopBySide`: a Buy pops from `Asks`, every other side from `Bids`.  `none` is
the panic of `heap.Pop` on an empty queue. -/
def PopBySide (ob : OrderBook) (side : Side) : Option (Order × OrderBook) :=
  if side = Buy then
    match heap.Pop ob.Asks with
    | none => none
    | some (x, q) => some (x, { ob with Asks := q })
  else
    match heap.Pop ob.Bids with
    | none => none
    | some (x, q) => some (x, { ob with Bids := q })

/-- Method `GetSideQueueLen`. -/
def GetSideQueueLen (ob : OrderBook) (side : Side) : Nat :=
  if side = Buy then ob.Asks.Len else ob.Bids.Len

/-- Method `GetSideQueueLenSync`. -/
def GetSideQueueLenSync (ob : OrderBook) (side : Side) : Nat := ob.GetSideQueueLen side

/-- Method `cmp`. -/
def cmp (side : Side) (i j : Int) : Bool :=
  if i = j then true
  else if side = Buy then decide (i < j)
  else decide (i > j)

/-- One record of `save`, with the exact sum for `v.Qty += order.Qty`; `saveOne64` below
has the addition as the machine computes it. -/
def saveOne (d : DoneMap) (order : Order) : DoneMap :=
  let oid := order.ID.String
  match d.get? oid with
  | some v => d.put oid { v with Price := order.Price, Qty := v.Qty + order.Qty }
  | none => d.put oid order

/-- Method `save`. -/
def save (ob : OrderBook) (orders : List Order) : OrderBook :=
  { ob with Done := orders.foldl saveOne ob.Done }

/-- The value that a Go `int` of 64 bits holds for an arithmetic result whose exact value
is `x`: the result wraps around in two's complement. -/
def wrap64 (x : Int) : Int :=
  (x + 9223372036854775808) % 18446744073709551616 - 9223372036854775808

/-- One record of `save`, with the statement `v.Qty += order.Qty` as the machine computes
it on 64-bit integers.  `saveOne` takes the exact sum; the two agree whenever that sum
fits in 64 bits. -/
def saveOne64 (d : DoneMap) (order : Order) : DoneMap :=
  let oid := order.ID.String
  match d.get? oid with
  | some v => d.put oid { v with Price := order.Price, Qty := wrap64 (v.Qty + order.Qty) }
  | none => d.put oid order

/-- Method `save`, with the machine addition of `saveOne64`. -/
def save64 (ob : OrderBook) (orders : List Order) : OrderBook :=
  { ob with Done := orders.foldl saveOne64 ob.Done }

/-- The variables of the loop of `Trade`. -/
structure TradeState where
  ob : OrderBook
  order : Order
  skips : List Order
  completes : List Order
  deriving DecidableEq

/-- The quantity exchange of `Trade`: the new `(pop.Qty, order.Qty)`. -/
def exchangeQty (popQty orderQty : Int) : Int × Int :=
  if popQty = orderQty then (0, 0)
  else if popQty > orderQty then (popQty - orderQty, 0)
  else (0, orderQty - popQty)

/-- The price resolution at the head of the loop of `Trade`: the incoming order follows
the price of `pop` if its own mode is Market; then `pop` follows the price of the incoming
order if the mode of `pop` is Market.  Returns the new `(order, pop)`. -/
def resolvePrice (order pop : Order) : Order × Order :=
  let order := if order.PriceMode = .Market then { order with Price := pop.Price } else order
  let pop := if pop.PriceMode = .Market then { pop with Price := order.Price } else pop
  (order, pop)

/-- The statement `if pop.Qty > 1 { ob.PushOrder(pop) }` of `Trade`: the new book and
`pop` as the source reads it afterwards, with the `idx` that the queue has written. -/
def pushBack (ob1 : OrderBook) (pop : Order) : OrderBook × Order :=
  if pop.Qty > 1 then
    let p := ob1.PushOrderAt pop
    (p.1, { pop with idx := (p.2 : Int) })
  else (ob1, pop)

/-- The statement `if popQty != pop.Qty { ... }` of `Trade`: appends to `completes` a
copy of `pop` whose quantity is the part filled in this crossing. -/
def collect (completes : List Order) (popQty : Int) (pop : Order) : List Order :=
  if popQty ≠ pop.Qty then completes ++ [{ pop with Qty := popQty - pop.Qty }]
  else completes

/-- The branch of the loop body of `Trade` taken when `cmp` accepts the prices. -/
def tradeCross (s : TradeState) (popQty : Int) (order pop : Order) (ob1 : OrderBook) :
    TradeState :=
  let q := exchangeQty pop.Qty order.Qty
  let r := pushBack ob1 { pop with Qty := q.1 }
  { ob := r.1, order := { order with Qty := q.2 }, skips := s.skips,
    completes := collect s.completes popQty r.2 }

/-- The body of the loop of `Trade`, after `pop` has been taken from the queue and the
book without it is `ob1`. -/
def tradeBody (s : TradeState) (pop : Order) (ob1 : OrderBook) : TradeState :=
  let popQty := pop.Qty
  let rp := resolvePrice s.order pop
  if cmp rp.1.Side rp.2.Price rp.1.Price then
    tradeCross s popQty rp.1 rp.2 ob1
  else
    { ob := ob1, order := rp.1, skips := s.skips ++ [rp.2], completes := s.completes }

/-- The loop `for ob.GetSideQueueLen(order.Side) > 0 && order.Qty > 0` of `Trade`; `fuel`
bounds the number of iterations. -/
def tradeLoop : Nat → TradeState → TradeState
  | 0, s => s
  | fuel + 1, s =>
    if s.ob.GetSideQueueLen s.order.Side > 0 ∧ s.order.Qty > 0 then
      match s.ob.PopBySide s.order.Side with
      | none => s
      | some (pop, ob1) => tradeLoop fuel (tradeBody s pop ob1)
    else s

/-- Method `Trade`: the error it returns, the incoming order as the method leaves it, and
the new book.  An iteration that does not end the loop shortens the opposite queue, so
its initial length bounds the number of iterations. -/
def Trade (ob : OrderBook) (order : Order) : Option Error × Order × OrderBook :=
  if ob.GetSideQueueLenSync order.Side = 0 then (none, order, ob)
  else
    let s := tradeLoop (ob.GetSideQueueLen order.Side)
      { ob := ob, order := order, skips := [], completes := [] }
    let ob1 := s.skips.foldl (fun b skip => b.PushOrder skip) s.ob
    (none, s.order, ob1.save s.completes)

/-- Method `process`. -/
def process (ob : OrderBook) (o : Order) : Option Error × OrderBook :=
  let copyQty := o.Qty
  match ob.Trade o with
  | (some err, _, ob1) => (some err, ob1)
  | (none, o1, ob1) =>
    if o1.Qty = 0 then (none, ob1.save [{ o1 with Qty := copyQty }])
    else (none, ob1.PushOrderSync o1)

/-- Method `ProcessLimitOrder`: the returned pair `(string, error)` and the new book. -/
def ProcessLimitOrder (MaxQueueSize : Int) (ob : OrderBook) (id : UUID) (now : Time)
    (side : Side) (price qty : Int) : (String × Option Error) × OrderBook :=
  match ob.CheckQueueSize MaxQueueSize side with
  | some err => (("", some err), ob)
  | none =>
    match NewOrder id now side price qty with
    | .error err => (("", some err), ob)
    | .ok newOrder =>
      let newOrder := { newOrder with PriceMode := .Limit }
      match ob.process newOrder with
      | (some _, ob1) => (("", none), ob1)
      | (none, ob1) => ((newOrder.ID.String, none), ob1)

/-- Method `ProcessMarketOrder`: the returned pair `(string, error)` and the new book. -/
def ProcessMarketOrder (MaxQueueSize : Int) (ob : OrderBook) (id : UUID) (now : Time)
    (side : Side) (qty : Int) : (String × Option Error) × OrderBook :=
  match ob.CheckQueueSize MaxQueueSize side with
  | some err => (("", some err), ob)
  | none =>
    match NewOrder id now side 1 qty with
    | .error err => (("", some err), ob)
    | .ok newOrder =>
      let newOrder := { newOrder with PriceMode := .Market }
      match ob.process newOrder with
      | (some _, ob1) => (("", none), ob1)
      | (none, ob1) => ((newOrder.ID.String, none), ob1)

/-- Method `GetOrder`.  The argument `order` is the pointer `out`: `none` for `nil`,
otherwise the value it points to; the third component of the result is that value after
the call. -/
def GetOrder (ob : OrderBook) (id : String) (order : Option Order) :
    OrderStatus × Option Error × Option Order :=
  match order with
  | none => (.StatusUnknown, some .ErrOrderIsNil, none)
  | some out =>
    match ob.Bids.find? (fun bid => decide (bid.ID.String = id)) with
    | some bid => (.StatusPending, none, some bid)
    | none =>
      match ob.Asks.find? (fun bid => decide (bid.ID.String = id)) with
      | some bid => (.StatusPending, none, some bid)
      | none =>
        match ob.Done.get? id with
        | some v => (.StatusCompleted, none, some v)
        | none => (.StatusCanceled, none, some out)

/-- Method `GetCompleteOrders`. -/
def GetCompleteOrders (ob : OrderBook) : DoneMap := ob.Done

/-- Method `GetCompleteOrder`, called with a non-nil `order`: the error and the value
that `order` points to after the call. -/
def GetCompleteOrder (ob : OrderBook) (id : String) (order : Order) : Option Error × Order :=
  match ob.Done.get? id with
  | none => (some .ErrDataNotFound, order)
  | some v => (none, v)

/-- The test `time.Since(bid.Time) > OrderExpiration` of `cleanOldOrder`; `now` is the
instant that the clock shows and `OrderExpiration` the package variable of that name, both
in nanoseconds. -/
def expired (now OrderExpiration : Int) (o : Order) : Bool :=
  decide (now - o.Time > OrderExpiration)

/-- The loop `for i, bid := range q { if expired { q = append(q[:i], q[i+1:]...) } }` of
`cleanOldOrder`.  Go evaluates the range expression once: the loop visits every position
below the initial length and reads `bid` from the backing array, which `append` rewrites
in place.  `arr` holds the cells of the backing array below the initial length, `m` is
the current length of `q`, `i` the position and the first argument the number of
positions still to visit.  The statement moves the cells `i+1 .. m-1` one place down and
leaves the cells from `m-1` on as they are.  `none` is the panic of `q[i+1:]` when `i + 1`
exceeds the current length. -/
def sweepLoop (now OrderExpiration : Int) :
    Nat → Nat → List Order → Nat → Option (List Order × Nat)
  | 0, _, arr, m => some (arr, m)
  | k + 1, i, arr, m =>
    match arr[i]? with
    | none => none
    | some bid =>
      if expired now OrderExpiration bid then
        if i + 1 > m then none
        else
          sweepLoop now OrderExpiration k (i + 1)
            (arr.take i ++ (arr.drop (i + 1)).take (m - (i + 1)) ++ arr.drop (m - 1)) (m - 1)
      else sweepLoop now OrderExpiration k (i + 1) arr m

/-- One of the two queue loops of `cleanOldOrder`: the queue it leaves. -/
def sweep (now OrderExpiration : Int) (q : Orders) : Option Orders :=
  match sweepLoop now OrderExpiration q.length 0 q q.length with
  | none => none
  | some (arr, m) => some (arr.take m)

/-- Method `cleanOldOrder`, run at the instant `now`; `none` is a panic.  Deleting from a
map while ranging over it is allowed in Go, so the loop over `Done` is a filter. -/
def cleanOldOrder (now OrderExpiration : Int) (o : OrderBook) : Option OrderBook :=
  match sweep now OrderExpiration o.Bids with
  | none => none
  | some bids =>
    match sweep now OrderExpiration o.Asks with
    | none => none
    | some asks =>
      some { o with
        Bids := bids, Asks := asks,
        Done := o.Done.filter (fun kv => !expired now OrderExpiration kv.2) }

end OrderBook

/-! ## Vocabulary of the statements -/

/-- An order without the position that a queue has written into it: two values of one
Go order taken at different moments of its stay in a queue agree on `strip` exactly when
they agree on every field but `idx`. -/
def Order.strip (o : Order) : Order := { o with idx := 0 }

/-- The transposition of the positions `i` and `j`. -/
def swapIdx (i j a : Nat) : Nat := if a = i then j else if a = j then i else a

/-- The orders of a queue agree on being a Buy or not: `Less` then compares all of them
in the same direction. -/
def Orders.uniform (h : Orders) : Prop :=
  ∀ x ∈ h, ∀ y ∈ h, (x.Side = Buy ↔ y.Side = Buy)

/-- The heap order of `container/heap` on the first `n` positions, for the edges whose
parent is at position `lo` or later: no child is less than its parent. -/
def Orders.heapFrom (h : Orders) (lo n : Nat) : Prop :=
  ∀ c, c < n → 0 < c → lo ≤ (c - 1) / 2 → h.Less c ((c - 1) / 2) = false

/-- The heap order on the whole queue. -/
def Orders.isHeap (h : Orders) : Prop := h.heapFrom 0 h.length

/-- The predicate `uniform` can be evaluated. -/
instance Orders.decidableUniform (h : Orders) : Decidable h.uniform := by
  unfold Orders.uniform; infer_instance

/-- The predicate `heapFrom` can be evaluated. -/
instance Orders.decidableHeapFrom (h : Orders) (lo n : Nat) : Decidable (h.heapFrom lo n) := by
  unfold Orders.heapFrom; infer_instance

/-- The predicate `isHeap` can be evaluated. -/
instance Orders.decidableIsHeap (h : Orders) : Decidable h.isHeap := by
  unfold Orders.isHeap; infer_instance

/-- The order that `ProcessLimitOrder` creates and hands to `process`. -/
def limitOrder (id : UUID) (now : Time) (side : Side) (price qty : Int) : Order :=
  { ID := id, Side := side, Price := price, Qty := qty, Time := now,
    PriceMode := .Limit, idx := 0 }

/-- The order that `ProcessMarketOrder` creates and hands to `process`. -/
def marketOrder (id : UUID) (now : Time) (side : Side) (qty : Int) : Order :=
  { ID := id, Side := side, Price := 1, Qty := qty, Time := now,
    PriceMode := .Market, idx := 0 }

/-- The variables of the loop of `Trade` when the loop is left. -/
def OrderBook.tradeFinal (ob : OrderBook) (order : Order) : OrderBook.TradeState :=
  OrderBook.tradeLoop (ob.GetSideQueueLen order.Side)
    { ob := ob, order := order, skips := [], completes := [] }

/-- The completion records that one call of `Trade` collects in its variable
`completes`, one for every crossing that filled a counterparty. -/
def OrderBook.tradeCompletes (ob : OrderBook) (order : Order) : List Order :=
  (ob.tradeFinal order).completes

/-- The sum of the quantities of a list of orders. -/
def sumQty (l : List Order) : Int := (l.map (fun o => o.Qty)).sum

/-- One crossing of the loop of `Trade`, an iteration in which `cmp` accepts the prices:
the identifier of the popped counterparty and the quantities of the counterparty and of
the incoming order when the iteration starts. -/
structure Crossing where
  popID : UUID
  popQty : Int
  orderQty : Int
  deriving DecidableEq

/-- The quantity filled in a crossing. -/
def Crossing.filled (c : Crossing) : Int := min c.popQty c.orderQty

/-- The crossings of the loop of `Trade`, in the order of the iterations; the function
follows `tradeLoop` step by step. -/
def OrderBook.crossingLog : Nat → OrderBook.TradeState → List Crossing
  | 0, _ => []
  | fuel + 1, s =>
    if s.ob.GetSideQueueLen s.order.Side > 0 ∧ s.order.Qty > 0 then
      match s.ob.PopBySide s.order.Side with
      | none => []
      | some (pop, ob1) =>
        let rp := OrderBook.resolvePrice s.order pop
        (if OrderBook.cmp rp.1.Side rp.2.Price rp.1.Price then
          [{ popID := pop.ID, popQty := pop.Qty, orderQty := s.order.Qty }]
        else []) ++ OrderBook.crossingLog fuel (OrderBook.tradeBody s pop ob1)
    else []

/-- The crossings of one call of `Trade`. -/
def OrderBook.crossings (ob : OrderBook) (order : Order) : List Crossing :=
  OrderBook.crossingLog (ob.GetSideQueueLen order.Side)
    { ob := ob, order := order, skips := [], completes := [] }

/-- The orders resting in the two queues, without their positions. -/
def OrderBook.resting (ob : OrderBook) : List Order := (ob.Bids ++ ob.Asks).map Order.strip

/-- One call of a submission method, with the identifier and the instant that the
environment supplies to it. -/
inductive Request where
  | limit (id : UUID) (now : Time) (side : Side) (price qty : Int)
  | market (id : UUID) (now : Time) (side : Side) (qty : Int)

/-- The call that a request stands for. -/
def OrderBook.submit (MaxQueueSize : Int) (ob : OrderBook) :
    Request → (String × Option Error) × OrderBook
  | .limit id now side price qty => ob.ProcessLimitOrder MaxQueueSize id now side price qty
  | .market id now side qty => ob.ProcessMarketOrder MaxQueueSize id now side qty

/-- The order that the call of a request creates when the call passes validation. -/
def Request.order : Request → Order
  | .limit id now side price qty => limitOrder id now side price qty
  | .market id now side qty => marketOrder id now side qty

/-- Consecutive calls: the list of the returned pairs and the final book. -/
def OrderBook.submitAll (MaxQueueSize : Int) :
    OrderBook → List Request → List (String × Option Error) × OrderBook
  | ob, [] => ([], ob)
  | ob, r :: rs =>
    let a := ob.submit MaxQueueSize r
    let b := OrderBook.submitAll MaxQueueSize a.2 rs
    (a.1 :: b.1, b.2)

/-- The crossings of consecutive calls, in order; a call that returns an error does not
reach `Trade` and crosses nothing. -/
def OrderBook.crossingsAll (MaxQueueSize : Int) : OrderBook → List Request → List Crossing
  | _, [] => []
  | ob, r :: rs =>
    (if (ob.submit MaxQueueSize r).1.2 = none then ob.crossings r.order else []) ++
      OrderBook.crossingsAll MaxQueueSize (ob.submit MaxQueueSize r).2 rs

/-- The quantity recorded in Done under a key, 0 when there is no record. -/
def DoneMap.qty (d : DoneMap) (k : String) : Int :=
  match d.get? k with
  | some v => v.Qty
  | none => 0

/-- The sum of the quantities of all Done records. -/
def DoneMap.total (d : DoneMap) : Int := sumQty (d.map Prod.snd)

/-- The sum of the quantities of the orders resting in Bids and Asks plus the sum of the
quantities of the Done records. -/
def OrderBook.totalQty (ob : OrderBook) : Int :=
  sumQty ob.Bids + sumQty ob.Asks + ob.Done.total

/-- The sum of the quantities submitted by the calls that return no error. -/
def OrderBook.submitted (MaxQueueSize : Int) : OrderBook → List Request → Int
  | _, [] => 0
  | ob, r :: rs =>
    (if (ob.submit MaxQueueSize r).1.2 = none then r.order.Qty else 0) +
      OrderBook.submitted MaxQueueSize (ob.submit MaxQueueSize r).2 rs

/-- The quantity that consecutive calls leave unrecorded: for every call whose order comes
to rest after it has been filled in part, the part filled at the submission. -/
def OrderBook.unrecorded (MaxQueueSize : Int) : OrderBook → List Request → Int
  | _, [] => 0
  | ob, r :: rs =>
    (if (ob.submit MaxQueueSize r).1.2 = none ∧ (ob.Trade r.order).2.1.Qty ≠ 0 then
      r.order.Qty - (ob.Trade r.order).2.1.Qty
    else 0) + OrderBook.unrecorded MaxQueueSize (ob.submit MaxQueueSize r).2 rs

/-- The queue that an incoming order of the given side is matched against, the one that
`PopBySide` pops from. -/
def OrderBook.oppQ (ob : OrderBook) (side : Side) : Orders :=
  if side = Buy then ob.Asks else ob.Bids

/-- The queue in which `PushOrder` puts an order of the given side. -/
def OrderBook.ownQ (ob : OrderBook) (side : Side) : Orders :=
  if side = Buy then ob.Bids else ob.Asks

/-- The two queues hold orders of their own side: Buy orders in Bids, others in Asks. -/
def OrderBook.sidesOk (ob : OrderBook) : Prop :=
  (∀ x ∈ ob.Bids, x.Side = Buy) ∧ (∀ x ∈ ob.Asks, x.Side ≠ Buy)

/-- The two queues satisfy the heap order. -/
def OrderBook.heapsOk (ob : OrderBook) : Prop := ob.Bids.isHeap ∧ ob.Asks.isHeap

/-- The number of iterations that the loop of `Trade` performs; the function follows
`tradeLoop` step by step. -/
def OrderBook.tradeIters : Nat → OrderBook.TradeState → Nat
  | 0, _ => 0
  | fuel + 1, s =>
    if s.ob.GetSideQueueLen s.order.Side > 0 ∧ s.order.Qty > 0 then
      match s.ob.PopBySide s.order.Side with
      | none => 0
      | some (pop, ob1) => 1 + OrderBook.tradeIters fuel (OrderBook.tradeBody s pop ob1)
    else 0

/-- Every order of the queue has its position in its `idx`. -/
def Orders.idxOk (h : Orders) : Prop :=
  ∀ i, i < h.length → (h[i]?).map Order.idx = some (i : Int)

/-- The predicate `idxOk` can be evaluated. -/
instance Orders.decidableIdxOk (h : Orders) : Decidable h.idxOk := by
  unfold Orders.idxOk; infer_instance

/-- The price test of `Trade`, after the price resolution, rejects the counterparty `pop`
for the incoming `order`. -/
def OrderBook.rejects (order pop : Order) : Prop :=
  OrderBook.cmp (OrderBook.resolvePrice order pop).1.Side
    (OrderBook.resolvePrice order pop).2.Price (OrderBook.resolvePrice order pop).1.Price = false

/-- The loop of the variant of `Trade` that the spec sets beside the code: it runs like
`tradeLoop`, but at the first counterparty that the price test rejects it pushes this
counterparty back and stops.  The variant is not code of the repository. -/
def OrderBook.tradeLoopShort : Nat → OrderBook.TradeState → OrderBook.TradeState
  | 0, s => s
  | fuel + 1, s =>
    if s.ob.GetSideQueueLen s.order.Side > 0 ∧ s.order.Qty > 0 then
      match s.ob.PopBySide s.order.Side with
      | none => s
      | some (pop, ob1) =>
        let rp := OrderBook.resolvePrice s.order pop
        if OrderBook.cmp rp.1.Side rp.2.Price rp.1.Price then
          OrderBook.tradeLoopShort fuel (OrderBook.tradeCross s pop.Qty rp.1 rp.2 ob1)
        else
          { ob := ob1.PushOrder rp.2, order := rp.1, skips := s.skips,
            completes := s.completes }
    else s

/-- The variant of `Trade` that stops at the first rejected counterparty. -/
def OrderBook.TradeShort (ob : OrderBook) (order : Order) : Option Error × Order × OrderBook :=
  if ob.GetSideQueueLenSync order.Side = 0 then (none, order, ob)
  else
    let s := OrderBook.tradeLoopShort (ob.GetSideQueueLen order.Side)
      { ob := ob, order := order, skips := [], completes := [] }
    (none, s.order, s.ob.save s.completes)

/-- The book is not crossed: every resting bid and every resting ask are Limit orders and
the price of the bid is below the price of the ask. -/
def OrderBook.uncrossed (ob : OrderBook) : Prop :=
  ∀ b ∈ ob.Bids, ∀ a ∈ ob.Asks,
    b.PriceMode = .Limit ∧ a.PriceMode = .Limit ∧ b.Price < a.Price

/-- Every resting order has the price mode Limit or Market. -/
def OrderBook.modesOk (ob : OrderBook) : Prop :=
  ∀ x ∈ ob.Bids ++ ob.Asks, x.PriceMode ≠ .Unknown

/-- The empty book that `New` returns when it is given no option. -/
def emptyBook : OrderBook := { Done := [], Bids := [], Asks := [], cleanTimeFreq := 10 * 1000000000 }

/-! ## Sample values -/

/-- A first identifier. -/
def sampleId1 : UUID := ⟨"00000000-0000-0000-0000-000000000001", by decide⟩

/-- A second identifier. -/
def sampleId2 : UUID := ⟨"00000000-0000-0000-0000-000000000002", by decide⟩

/-- A third identifier. -/
def sampleId3 : UUID := ⟨"00000000-0000-0000-0000-000000000003", by decide⟩

/-- A fourth identifier. -/
def sampleId4 : UUID := ⟨"00000000-0000-0000-0000-000000000004", by decide⟩

/-- A book with one resting ask: a Sell of 10 at price 100. -/
def sampleBookAsk : OrderBook :=
  (emptyBook.ProcessLimitOrder 100 sampleId2 1 Sell 100 10).2

/-- A heap of three bids: 10 at price 100 and two of 10 at price 200. -/
def sampleBids : Orders :=
  heap.Init ([limitOrder sampleId1 1 Buy 100 10, limitOrder sampleId2 2 Buy 200 10,
    limitOrder sampleId3 3 Buy 200 10].foldl Orders.Push [])

/-- A book with one resting bid, 10 at price 90, and one resting ask, 10 at price 100. -/
def sampleBookBoth : OrderBook :=
  (emptyBook.submitAll 100
    [Request.limit sampleId1 1 Buy 90 10, Request.limit sampleId2 2 Sell 100 10]).2

/-- Three bids of 10 at price 100 submitted at the instants 0, 1 and 100. -/
def sampleBookStale : OrderBook :=
  (emptyBook.submitAll 100
    [Request.limit sampleId1 0 Buy 100 10, Request.limit sampleId2 1 Buy 100 10,
      Request.limit sampleId3 100 Buy 100 10]).2

/-- A book whose Asks hold a limit Sell of 5 at price 50 and, behind it, the remaining 7
of a market Sell that was filled in part at price 100. -/
def sampleBookMixed : OrderBook :=
  (emptyBook.submitAll 100
    [Request.market sampleId1 1 Sell 10, Request.limit sampleId2 2 Buy 100 3,
      Request.limit sampleId3 3 Sell 50 5]).2

/-! # Theorems -/

/-! ## Queue operations keep the orders -/

theorem Order.strip_idx (o : Order) (k : Int) :
    ({ o with idx := k } : Order).strip = o.strip := rfl

theorem list_swap_perm {α : Type} [DecidableEq α] (L : List α) (i j : Nat) (a b : α)
    (hi : L[i]? = some a) (hj : L[j]? = some b) : ((L.set i b).set j a).Perm L := by
  obtain ⟨hil, hia⟩ := List.getElem?_eq_some.1 hi
  obtain ⟨hjl, hjb⟩ := List.getElem?_eq_some.1 hj
  by_cases hij : i = j
  · subst hij
    have hab : a = b := by rw [← hia, ← hjb]
    subst hab
    rw [List.set_set]
    have : L.set i a = L := by
      apply List.ext_getElem? ; intro k
      rw [List.getElem?_set]
      split
      · next h => subst h; simp [hil, hi]
      · rfl
    rw [this]
  · rw [List.perm_iff_count]
    intro c
    have hjl2 : j < (L.set i b).length := by simpa using hjl
    rw [List.count_set _ _ _ _ hjl2, List.count_set _ _ _ _ hil]
    have h1 : (L.set i b)[j] = b := by
      rw [List.getElem_set]; simp [hij, hjb]
    rw [h1, hia]
    have ha : a ∈ L := List.mem_iff_getElem?.2 ⟨i, hi⟩
    have hb : b ∈ L := List.mem_iff_getElem?.2 ⟨j, hj⟩
    by_cases hac : a = c
    · subst hac
      have := List.count_pos_iff.2 ha
      by_cases hbc : b = a
      · simp [hbc]; omega
      · simp [hbc]; omega
    · by_cases hbc : b = c
      · subst hbc
        have := List.count_pos_iff.2 hb
        simp [hac]
      · simp [hac, hbc]

theorem Orders.Swap_length (h : Orders) (i j : Nat) : (h.Swap i j).length = h.length := by
  unfold Orders.Swap
  split <;> simp

theorem Orders.Swap_perm (h : Orders) (i j : Nat) :
    ((h.Swap i j).map Order.strip).Perm (h.map Order.strip) := by
  unfold Orders.Swap
  split
  · next a b hi hj =>
    rw [List.map_set, List.map_set]
    apply list_swap_perm
    · simp [hi, Order.strip]
    · simp [hj, Order.strip]
  · exact List.Perm.refl _


theorem heap.upLoop_length (fuel : Nat) (h : Orders) (j : Nat) :
    (heap.upLoop fuel h j).1.length = h.length := by
  induction fuel generalizing h j with
  | zero => rfl
  | succ n ih =>
    unfold heap.upLoop
    simp only
    split
    · rfl
    · rw [ih, Orders.Swap_length]

theorem heap.upLoop_perm (fuel : Nat) (h : Orders) (j : Nat) :
    ((heap.upLoop fuel h j).1.map Order.strip).Perm (h.map Order.strip) := by
  induction fuel generalizing h j with
  | zero => exact List.Perm.refl _
  | succ n ih =>
    unfold heap.upLoop
    simp only
    split
    · exact List.Perm.refl _
    · exact (ih _ _).trans (Orders.Swap_perm _ _ _)

theorem heap.downLoop_length (fuel : Nat) (h : Orders) (i n : Nat) :
    (heap.downLoop fuel h i n).1.length = h.length := by
  induction fuel generalizing h i with
  | zero => rfl
  | succ k ih =>
    unfold heap.downLoop
    simp only
    split
    · rfl
    · split
      · rfl
      · rw [ih, Orders.Swap_length]

theorem heap.downLoop_perm (fuel : Nat) (h : Orders) (i n : Nat) :
    ((heap.downLoop fuel h i n).1.map Order.strip).Perm (h.map Order.strip) := by
  induction fuel generalizing h i with
  | zero => exact List.Perm.refl _
  | succ k ih =>
    unfold heap.downLoop
    simp only
    split
    · exact List.Perm.refl _
    · split
      · exact List.Perm.refl _
      · exact (ih _ _).trans (Orders.Swap_perm _ _ _)

theorem heap.down_length (h : Orders) (i n : Nat) : (heap.down h i n).1.length = h.length :=
  heap.downLoop_length _ _ _ _

theorem heap.down_perm (h : Orders) (i n : Nat) :
    ((heap.down h i n).1.map Order.strip).Perm (h.map Order.strip) :=
  heap.downLoop_perm _ _ _ _

theorem heap.initLoop_length (n k : Nat) (h : Orders) :
    (heap.initLoop n k h).length = h.length := by
  induction k generalizing h with
  | zero => rfl
  | succ k ih => unfold heap.initLoop; rw [ih, heap.down_length]

theorem heap.initLoop_perm (n k : Nat) (h : Orders) :
    ((heap.initLoop n k h).map Order.strip).Perm (h.map Order.strip) := by
  induction k generalizing h with
  | zero => exact List.Perm.refl _
  | succ k ih => unfold heap.initLoop; exact (ih _).trans (heap.down_perm _ _ _)

theorem heap.Init_length (h : Orders) : (heap.Init h).length = h.length :=
  heap.initLoop_length _ _ _

theorem heap.Init_perm (h : Orders) :
    ((heap.Init h).map Order.strip).Perm (h.map Order.strip) :=
  heap.initLoop_perm _ _ _

theorem Orders.slicePush_length (h : Orders) (x : Order) : (h.Push x).length = h.length + 1 := by
  simp [Orders.Push]

theorem Orders.slicePush_strip (h : Orders) (x : Order) :
    (h.Push x).map Order.strip = h.map Order.strip ++ [x.strip] := by
  simp [Orders.Push, Order.strip]

theorem heap.PushAt_length (h : Orders) (x : Order) :
    (heap.PushAt h x).1.length = h.length + 1 := by
  unfold heap.PushAt heap.up
  simp only
  rw [heap.upLoop_length, Orders.slicePush_length]

theorem heap.Push_length (h : Orders) (x : Order) : (heap.Push h x).length = h.length + 1 :=
  heap.PushAt_length h x

theorem heap.PushAt_perm (h : Orders) (x : Order) :
    ((heap.PushAt h x).1.map Order.strip).Perm (x.strip :: h.map Order.strip) := by
  unfold heap.PushAt heap.up
  simp only
  refine (heap.upLoop_perm _ _ _).trans ?_
  rw [Orders.slicePush_strip]
  exact List.perm_append_singleton _ _

theorem heap.Push_perm (h : Orders) (x : Order) :
    ((heap.Push h x).map Order.strip).Perm (x.strip :: h.map Order.strip) :=
  heap.PushAt_perm h x

theorem Orders.slicePop_eq_some (h : Orders) (x : Order) (q : Orders) (hp : h.Pop = some (x, q)) :
    q.length + 1 = h.length ∧ x.idx = -1 ∧ (x.strip :: q.map Order.strip).Perm (h.map Order.strip) := by
  unfold Orders.Pop at hp
  split at hp
  · cases hp
  · next y hy =>
    simp only [Option.some.injEq, Prod.mk.injEq] at hp
    obtain ⟨hx, hq⟩ := hp
    obtain ⟨ys, rfl⟩ := List.getLast?_eq_some_iff.1 hy
    subst hx hq
    refine ⟨by simp, rfl, ?_⟩
    simp only [List.dropLast_concat, List.map_append, List.map_cons, List.map_nil]
    exact (List.perm_append_singleton _ _).symm

theorem heap.Pop_eq_some (h : Orders) (x : Order) (q : Orders) (hp : heap.Pop h = some (x, q)) :
    q.length + 1 = h.length ∧ x.idx = -1 ∧ (x.strip :: q.map Order.strip).Perm (h.map Order.strip) := by
  unfold heap.Pop at hp
  split at hp
  · cases hp
  · simp only at hp
    obtain ⟨h1, h2, h3⟩ := Orders.slicePop_eq_some _ _ _ hp
    rw [heap.down_length, Orders.Swap_length] at h1
    exact ⟨h1, h2, h3.trans ((heap.down_perm _ _ _).trans (Orders.Swap_perm _ _ _))⟩

theorem heap.Pop_isSome (h : Orders) (hne : h ≠ []) : ∃ x q, heap.Pop h = some (x, q) := by
  unfold heap.Pop
  have hl : h.Len ≠ 0 := by
    simp only [Orders.Len]; intro h0; exact hne (List.length_eq_zero.1 h0)
  rw [if_neg hl]
  simp only
  unfold Orders.Pop
  split
  · next hn =>
    rw [List.getLast?_eq_none_iff] at hn
    have := congrArg List.length hn
    rw [heap.down_length, Orders.Swap_length] at this
    simp only [Orders.Len] at hl
    simp at this
    exact absurd this hne
  · exact ⟨_, _, rfl⟩

theorem heap.Pop_nil : heap.Pop [] = none := rfl


/-! ## The submission path -/

theorem New_nil : New [] = .ok emptyBook := rfl

theorem OrderBook.Trade_err (ob : OrderBook) (o : Order) : (ob.Trade o).1 = none := by
  unfold OrderBook.Trade
  split <;> rfl

theorem OrderBook.process_eq (ob : OrderBook) (o : Order) :
    ob.process o = (none,
      if (ob.Trade o).2.1.Qty = 0 then (ob.Trade o).2.2.save [{ (ob.Trade o).2.1 with Qty := o.Qty }]
      else (ob.Trade o).2.2.PushOrderSync (ob.Trade o).2.1) := by
  have h := OrderBook.Trade_err ob o
  unfold OrderBook.process
  rcases hT : ob.Trade o with ⟨e, o1, ob1⟩
  rw [hT] at h
  simp only at h
  subst h
  simp only
  split <;> rfl

theorem OrderBook.process_err (ob : OrderBook) (o : Order) : (ob.process o).1 = none := by
  rw [OrderBook.process_eq]

theorem OrderBook.ProcessLimitOrder_ok (M : Int) (ob : OrderBook) (id : UUID) (now : Time)
    (side : Side) (price qty : Int) (hc : ob.CheckQueueSize M side = none)
    (hq : 1 ≤ qty) (hp : 1 ≤ price) :
    ob.ProcessLimitOrder M id now side price qty =
      ((id.String, none), (ob.process (limitOrder id now side price qty)).2) := by
  unfold OrderBook.ProcessLimitOrder NewOrder
  rw [hc]
  simp only
  rw [if_neg (by omega), if_neg (by omega)]
  simp only
  rw [OrderBook.process_eq]
  unfold limitOrder
  rw [OrderBook.process_eq]

theorem OrderBook.ProcessMarketOrder_ok (M : Int) (ob : OrderBook) (id : UUID) (now : Time)
    (side : Side) (qty : Int) (hc : ob.CheckQueueSize M side = none)
    (hq : 1 ≤ qty) :
    ob.ProcessMarketOrder M id now side qty =
      ((id.String, none), (ob.process (marketOrder id now side qty)).2) := by
  unfold OrderBook.ProcessMarketOrder NewOrder
  rw [hc]
  simp only
  rw [if_neg (by omega), if_neg (by omega)]
  simp only
  rw [OrderBook.process_eq]
  unfold marketOrder
  rw [OrderBook.process_eq]

theorem OrderBook.ProcessLimitOrder_full (M : Int) (ob : OrderBook) (id : UUID) (now : Time)
    (side : Side) (price qty : Int) (hside : side = Buy ∨ side = Sell)
    (hfull : (((if side = Buy then ob.Bids else ob.Asks).length : Int) ≥ M)) :
    ob.ProcessLimitOrder M id now side price qty = (("", some .ErrTooLargeSizeOfQueue), ob) := by
  have hcq : ob.CheckQueueSize M side = some .ErrTooLargeSizeOfQueue := by
    unfold OrderBook.CheckQueueSize OrderBook.GetBids OrderBook.GetAsks
    rcases hside with h | h
    · subst h; rw [if_pos rfl] at hfull; rw [if_pos rfl, if_pos hfull]
    · subst h
      have hsb : Sell ≠ Buy := by decide
      rw [if_neg hsb] at hfull; rw [if_neg hsb, if_pos rfl, if_pos hfull]
  unfold OrderBook.ProcessLimitOrder
  rw [hcq]

theorem OrderBook.GetOrder_some (ob : OrderBook) (id : String) (out : Order) :
    ob.GetOrder id (some out) =
      match ob.Bids.find? (fun bid => decide (bid.ID.String = id)) with
      | some bid => (.StatusPending, none, some bid)
      | none =>
        match ob.Asks.find? (fun bid => decide (bid.ID.String = id)) with
        | some bid => (.StatusPending, none, some bid)
        | none =>
          match ob.Done.get? id with
          | some v => (.StatusCompleted, none, some v)
          | none => (.StatusCanceled, none, some out) := rfl

/-! ## Pushing to and popping from the book -/

theorem OrderBook.PushOrderAt_resting (ob : OrderBook) (o : Order) :
    (ob.PushOrderAt o).1.resting.Perm (o.strip :: ob.resting) ∧
    (ob.PushOrderAt o).1.Done = ob.Done ∧
    (ob.PushOrderAt o).1.cleanTimeFreq = ob.cleanTimeFreq := by
  unfold OrderBook.PushOrderAt OrderBook.resting
  split
  · refine ⟨?_, rfl, rfl⟩
    simp only [List.map_append]
    have := heap.PushAt_perm ob.Bids o
    exact (List.Perm.append_right _ this)
  · refine ⟨?_, rfl, rfl⟩
    simp only [List.map_append]
    have := heap.PushAt_perm ob.Asks o
    refine (List.Perm.append_left _ this).trans ?_
    exact List.perm_middle

theorem OrderBook.PushOrderAt_queues (ob : OrderBook) (o : Order) :
    (o.Side = Buy → ((ob.PushOrderAt o).1.Bids.map Order.strip).Perm (o.strip :: ob.Bids.map Order.strip)
      ∧ (ob.PushOrderAt o).1.Bids.length = ob.Bids.length + 1
      ∧ (ob.PushOrderAt o).1.Asks = ob.Asks) ∧
    (o.Side ≠ Buy → ((ob.PushOrderAt o).1.Asks.map Order.strip).Perm (o.strip :: ob.Asks.map Order.strip)
      ∧ (ob.PushOrderAt o).1.Asks.length = ob.Asks.length + 1
      ∧ (ob.PushOrderAt o).1.Bids = ob.Bids) := by
  unfold OrderBook.PushOrderAt
  constructor
  · intro h
    rw [if_pos h]
    exact ⟨heap.PushAt_perm _ _, heap.PushAt_length _ _, rfl⟩
  · intro h
    rw [if_neg h]
    exact ⟨heap.PushAt_perm _ _, heap.PushAt_length _ _, rfl⟩

theorem OrderBook.PopBySide_some (ob : OrderBook) (side : Side) (pop : Order) (ob1 : OrderBook)
    (h : ob.PopBySide side = some (pop, ob1)) :
    (pop.strip :: ob1.resting).Perm ob.resting ∧ ob1.Done = ob.Done ∧
    ob1.cleanTimeFreq = ob.cleanTimeFreq ∧ pop.idx = -1 ∧
    ob1.GetSideQueueLen side + 1 = ob.GetSideQueueLen side ∧
    (side = Buy → ob1.Bids = ob.Bids ∧
      (pop.strip :: ob1.Asks.map Order.strip).Perm (ob.Asks.map Order.strip)) ∧
    (side ≠ Buy → ob1.Asks = ob.Asks ∧
      (pop.strip :: ob1.Bids.map Order.strip).Perm (ob.Bids.map Order.strip)) := by
  unfold OrderBook.PopBySide at h
  unfold OrderBook.resting OrderBook.GetSideQueueLen
  split at h
  · next hs =>
    split at h
    · cases h
    · next x q hq =>
      simp only [Option.some.injEq, Prod.mk.injEq] at h
      obtain ⟨rfl, rfl⟩ := h
      obtain ⟨h1, h2, h3⟩ := heap.Pop_eq_some _ _ _ hq
      simp only [List.map_append, if_pos hs, Orders.Len]
      refine ⟨?_, trivial, trivial, h2, h1, fun _ => ⟨trivial, h3⟩, fun hn => absurd hs hn⟩
      exact (List.perm_middle.symm).trans (List.Perm.append_left _ h3)
  · next hs =>
    split at h
    · cases h
    · next x q hq =>
      simp only [Option.some.injEq, Prod.mk.injEq] at h
      obtain ⟨rfl, rfl⟩ := h
      obtain ⟨h1, h2, h3⟩ := heap.Pop_eq_some _ _ _ hq
      simp only [List.map_append, if_neg hs, Orders.Len]
      refine ⟨?_, trivial, trivial, h2, h1, fun hn => absurd hn hs, fun _ => ⟨trivial, h3⟩⟩
      exact List.Perm.append_right _ h3

theorem OrderBook.PopBySide_isSome (ob : OrderBook) (side : Side)
    (h : ob.GetSideQueueLen side > 0) : ∃ pop ob1, ob.PopBySide side = some (pop, ob1) := by
  unfold OrderBook.GetSideQueueLen at h
  unfold OrderBook.PopBySide
  split
  · next hs =>
    rw [if_pos hs] at h
    have hne : ob.Asks ≠ [] := by
      intro h0; rw [h0] at h; simp [Orders.Len] at h
    obtain ⟨x, q, hq⟩ := heap.Pop_isSome _ hne
    rw [hq]; exact ⟨_, _, rfl⟩
  · next hs =>
    rw [if_neg hs] at h
    have hne : ob.Bids ≠ [] := by
      intro h0; rw [h0] at h; simp [Orders.Len] at h
    obtain ⟨x, q, hq⟩ := heap.Pop_isSome _ hne
    rw [hq]; exact ⟨_, _, rfl⟩

/-- Invariants of the loop of `Trade`: a property that holds before the loop and that
every iteration keeps holds when the loop is left. -/
theorem OrderBook.tradeLoop_invariant (I : TradeState → Prop)
    (hstep : ∀ s pop ob1, I s → s.ob.GetSideQueueLen s.order.Side > 0 → s.order.Qty > 0 →
      s.ob.PopBySide s.order.Side = some (pop, ob1) → I (tradeBody s pop ob1))
    (fuel : Nat) (s : TradeState) (h : I s) : I (tradeLoop fuel s) := by
  induction fuel generalizing s with
  | zero => exact h
  | succ n ih =>
    unfold OrderBook.tradeLoop
    split
    · next hc =>
      split
      · exact h
      · next pop ob1 hp => exact ih _ (hstep s pop ob1 h hc.1 hc.2 hp)
    · exact h

theorem OrderBook.Trade_empty (ob : OrderBook) (o : Order) (h : ob.GetSideQueueLen o.Side = 0) :
    ob.Trade o = (none, o, ob) := by
  unfold OrderBook.Trade OrderBook.GetSideQueueLenSync
  rw [if_pos h]

theorem OrderBook.process_rest (ob : OrderBook) (o : Order)
    (h : ob.GetSideQueueLen o.Side = 0) (hq : o.Qty ≠ 0) :
    ob.process o = (none, ob.PushOrder o) := by
  rw [OrderBook.process_eq, OrderBook.Trade_empty ob o h]
  simp only
  rw [if_neg hq]
  rfl


/-! ## Done map, identity of the incoming order, status of a submitted order -/

theorem DoneMap.get?_put_self (d : DoneMap) (k : String) (v : Order) :
    (d.put k v).get? k = some v := by
  induction d with
  | nil => simp [DoneMap.put, DoneMap.get?]
  | cons kv d ih =>
    obtain ⟨k1, w⟩ := kv
    unfold DoneMap.put
    by_cases h : k1 = k
    · rw [if_pos h]; unfold DoneMap.get?; rw [if_pos h]
    · rw [if_neg h]; unfold DoneMap.get?; rw [if_neg h]; exact ih

theorem DoneMap.get?_put_ne (d : DoneMap) (k k2 : String) (v : Order) (hne : k ≠ k2) :
    (d.put k v).get? k2 = d.get? k2 := by
  induction d with
  | nil => simp [DoneMap.put, DoneMap.get?, hne]
  | cons kv d ih =>
    obtain ⟨k1, w⟩ := kv
    unfold DoneMap.put
    by_cases h : k1 = k
    · rw [if_pos h]
      have h2 : k1 ≠ k2 := by rw [h]; exact hne
      simp only [DoneMap.get?, if_neg h2]
    · rw [if_neg h]
      by_cases h2 : k1 = k2
      · simp only [DoneMap.get?, if_pos h2]
      · simp only [DoneMap.get?, if_neg h2]; exact ih

theorem OrderBook.saveOne_get?_self (d : DoneMap) (o : Order) :
    (saveOne d o).get? o.ID.String =
      some (match d.get? o.ID.String with
        | some v => { v with Price := o.Price, Qty := v.Qty + o.Qty }
        | none => o) := by
  unfold OrderBook.saveOne
  simp only
  split <;> rw [DoneMap.get?_put_self]

theorem OrderBook.saveOne_get?_ne (d : DoneMap) (o : Order) (k : String) (hne : o.ID.String ≠ k) :
    (saveOne d o).get? k = d.get? k := by
  unfold OrderBook.saveOne
  simp only
  split <;> rw [DoneMap.get?_put_ne _ _ _ _ hne]

theorem OrderBook.resolvePrice_fst (o p : Order) :
    (resolvePrice o p).1.ID = o.ID ∧ (resolvePrice o p).1.Side = o.Side ∧
    (resolvePrice o p).1.PriceMode = o.PriceMode ∧ (resolvePrice o p).1.Time = o.Time ∧
    (resolvePrice o p).1.idx = o.idx ∧ (resolvePrice o p).1.Qty = o.Qty := by
  unfold OrderBook.resolvePrice
  simp only
  split <;> exact ⟨rfl, rfl, rfl, rfl, rfl, rfl⟩

theorem OrderBook.resolvePrice_snd (o p : Order) :
    (resolvePrice o p).2.ID = p.ID ∧ (resolvePrice o p).2.Side = p.Side ∧
    (resolvePrice o p).2.PriceMode = p.PriceMode ∧ (resolvePrice o p).2.Time = p.Time ∧
    (resolvePrice o p).2.idx = p.idx ∧ (resolvePrice o p).2.Qty = p.Qty := by
  unfold OrderBook.resolvePrice
  simp only
  split <;> exact ⟨rfl, rfl, rfl, rfl, rfl, rfl⟩

theorem OrderBook.tradeBody_order (s : TradeState) (pop : Order) (ob1 : OrderBook) :
    (tradeBody s pop ob1).order.ID = s.order.ID ∧
    (tradeBody s pop ob1).order.Side = s.order.Side ∧
    (tradeBody s pop ob1).order.PriceMode = s.order.PriceMode ∧
    (tradeBody s pop ob1).order.Time = s.order.Time ∧
    (tradeBody s pop ob1).order.idx = s.order.idx := by
  obtain ⟨h1, h2, h3, h4, h5, _⟩ := OrderBook.resolvePrice_fst s.order pop
  unfold OrderBook.tradeBody
  simp only
  split
  · unfold OrderBook.tradeCross
    exact ⟨h1, h2, h3, h4, h5⟩
  · exact ⟨h1, h2, h3, h4, h5⟩

theorem OrderBook.tradeLoop_order (fuel : Nat) (s : TradeState) :
    (tradeLoop fuel s).order.ID = s.order.ID ∧
    (tradeLoop fuel s).order.Side = s.order.Side ∧
    (tradeLoop fuel s).order.PriceMode = s.order.PriceMode ∧
    (tradeLoop fuel s).order.Time = s.order.Time ∧
    (tradeLoop fuel s).order.idx = s.order.idx := by
  refine OrderBook.tradeLoop_invariant
    (fun t => t.order.ID = s.order.ID ∧ t.order.Side = s.order.Side ∧
      t.order.PriceMode = s.order.PriceMode ∧ t.order.Time = s.order.Time ∧
      t.order.idx = s.order.idx) ?_ fuel s ⟨rfl, rfl, rfl, rfl, rfl⟩
  intro t pop ob1 ht _ _ _
  obtain ⟨h1, h2, h3, h4, h5⟩ := OrderBook.tradeBody_order t pop ob1
  exact ⟨h1.trans ht.1, h2.trans ht.2.1, h3.trans ht.2.2.1, h4.trans ht.2.2.2.1,
    h5.trans ht.2.2.2.2⟩

theorem OrderBook.Trade_order (ob : OrderBook) (o : Order) :
    (ob.Trade o).2.1.ID = o.ID ∧ (ob.Trade o).2.1.Side = o.Side ∧
    (ob.Trade o).2.1.PriceMode = o.PriceMode ∧ (ob.Trade o).2.1.Time = o.Time ∧
    (ob.Trade o).2.1.idx = o.idx := by
  unfold OrderBook.Trade
  split
  · exact ⟨rfl, rfl, rfl, rfl, rfl⟩
  · exact OrderBook.tradeLoop_order _ _

theorem OrderBook.PushOrder_mem (ob : OrderBook) (o : Order) :
    ∃ x ∈ (ob.PushOrder o).Bids ++ (ob.PushOrder o).Asks, x.strip = o.strip := by
  have h := (OrderBook.PushOrderAt_resting ob o).1
  have hm : o.strip ∈ (ob.PushOrderAt o).1.resting := h.symm.subset (List.mem_cons_self _ _)
  unfold OrderBook.resting at hm
  obtain ⟨x, hx, hxs⟩ := List.mem_map.1 hm
  exact ⟨x, hx, hxs⟩

theorem Order.strip_ID (a b : Order) (h : a.strip = b.strip) :
    a.ID = b.ID ∧ a.Price = b.Price ∧ a.PriceMode = b.PriceMode ∧ a.Qty = b.Qty ∧
    a.Side = b.Side ∧ a.Time = b.Time := by
  unfold Order.strip at h
  injection h with h1 h2 h3 h4 h5 h6 h7
  exact ⟨h1, h2, h3, h4, h5, h6⟩

theorem OrderBook.GetOrder_found (ob : OrderBook) (id : String) (out : Order)
    (h : (∃ o ∈ ob.Bids ++ ob.Asks, o.ID.String = id) ∨ ob.Done.get? id ≠ none) :
    (ob.GetOrder id (some out)).1 = .StatusPending ∨
    (ob.GetOrder id (some out)).1 = .StatusCompleted := by
  rw [OrderBook.GetOrder_some]
  split
  · exact Or.inl rfl
  · next hb =>
    split
    · exact Or.inl rfl
    · next ha =>
      split
      · exact Or.inr rfl
      · next hd =>
        exfalso
        rcases h with ⟨o, hmem, hid⟩ | h
        · rw [List.find?_eq_none] at hb ha
          rcases List.mem_append.1 hmem with hm | hm
          · exact hb o hm (by simpa using hid)
          · exact ha o hm (by simpa using hid)
        · exact h hd

theorem UUID.String_ne_empty (u : UUID) : u.String ≠ "" := by
  intro h
  have := u.len36
  unfold UUID.String at h
  rw [h] at this
  simp at this

theorem UUID.String_inj (u v : UUID) (h : u.String = v.String) : u = v := by
  cases u; cases v
  unfold UUID.String at h
  simp only at h
  subst h
  rfl

theorem OrderBook.process_found (ob : OrderBook) (o : Order) (out : Order) :
    ((ob.process o).2.GetOrder o.ID.String (some out)).1 = .StatusPending ∨
    ((ob.process o).2.GetOrder o.ID.String (some out)).1 = .StatusCompleted := by
  apply OrderBook.GetOrder_found
  rw [OrderBook.process_eq]
  simp only
  have hid := (OrderBook.Trade_order ob o).1
  split
  · right
    unfold OrderBook.save
    simp only [List.foldl_cons, List.foldl_nil]
    have := OrderBook.saveOne_get?_self (ob.Trade o).2.2.Done { (ob.Trade o).2.1 with Qty := o.Qty }
    simp only at this
    rw [← hid, this]
    simp
  · left
    obtain ⟨x, hx, hxs⟩ := OrderBook.PushOrder_mem (ob.Trade o).2.2 (ob.Trade o).2.1
    refine ⟨x, hx, ?_⟩
    rw [(Order.strip_ID _ _ hxs).1, hid]

/-! ## The loop of Trade: quantities -/

theorem OrderBook.ProcessLimitOrder_ok2 (M : Int) (ob : OrderBook) (id : UUID) (now : Time)
    (side : Side) (price qty : Int) (herr : (ob.ProcessLimitOrder M id now side price qty).1.2 = none) :
    1 ≤ qty ∧ 1 ≤ price ∧ ob.CheckQueueSize M side = none ∧
    ob.ProcessLimitOrder M id now side price qty =
      ((id.String, none), (ob.process (limitOrder id now side price qty)).2) := by
  have hL : ob.CheckQueueSize M side = none ∧ 1 ≤ qty ∧ 1 ≤ price := by
    unfold OrderBook.ProcessLimitOrder NewOrder at herr
    split at herr
    · cases herr
    · next hc =>
      by_cases hq : qty < 1
      · rw [if_pos hq] at herr; cases herr
      · by_cases hp : price < 1
        · rw [if_neg hq, if_pos hp] at herr; cases herr
        · exact ⟨hc, by omega, by omega⟩
  exact ⟨hL.2.1, hL.2.2, hL.1, OrderBook.ProcessLimitOrder_ok _ _ _ _ _ _ _ hL.1 hL.2.1 hL.2.2⟩

theorem OrderBook.ProcessMarketOrder_ok2 (M : Int) (ob : OrderBook) (id : UUID) (now : Time)
    (side : Side) (qty : Int) (herr : (ob.ProcessMarketOrder M id now side qty).1.2 = none) :
    1 ≤ qty ∧ ob.CheckQueueSize M side = none ∧
    ob.ProcessMarketOrder M id now side qty =
      ((id.String, none), (ob.process (marketOrder id now side qty)).2) := by
  have hL : ob.CheckQueueSize M side = none ∧ 1 ≤ qty := by
    unfold OrderBook.ProcessMarketOrder NewOrder at herr
    split at herr
    · cases herr
    · next hc =>
      by_cases hq : qty < 1
      · rw [if_pos hq] at herr; cases herr
      · exact ⟨hc, by omega⟩
  exact ⟨hL.2, hL.1, OrderBook.ProcessMarketOrder_ok _ _ _ _ _ _ hL.1 hL.2⟩

/-- The result of `Trade` in terms of the variables of its loop. -/
theorem OrderBook.Trade_eq (ob : OrderBook) (o : Order) :
    ob.Trade o = (none, (ob.tradeFinal o).order,
      ((ob.tradeFinal o).skips.foldl (fun b skip => b.PushOrder skip) (ob.tradeFinal o).ob).save
        (ob.tradeCompletes o)) := by
  unfold OrderBook.Trade OrderBook.GetSideQueueLenSync OrderBook.tradeCompletes
  split
  · next h =>
    unfold OrderBook.tradeFinal
    rw [h]
    simp [OrderBook.tradeLoop, OrderBook.save]
  · rfl

theorem OrderBook.exchangeQty_diff (a b : Int) :
    (exchangeQty a b).1 - (exchangeQty a b).2 = a - b := by
  unfold OrderBook.exchangeQty
  split
  · next h => simp [h]
  · split <;> simp

theorem OrderBook.pushBack_snd (ob1 : OrderBook) (pop : Order) :
    (pushBack ob1 pop).2.strip = pop.strip := by
  unfold OrderBook.pushBack
  split <;> rfl

theorem sumQty_append (l : List Order) (x : Order) : sumQty (l ++ [x]) = sumQty l + x.Qty := by
  simp [sumQty]

/-- Every iteration moves from the incoming order to `completes` the quantity it fills. -/
theorem OrderBook.tradeBody_qty (s : TradeState) (pop : Order) (ob1 : OrderBook) :
    (tradeBody s pop ob1).order.Qty + sumQty (tradeBody s pop ob1).completes =
      s.order.Qty + sumQty s.completes := by
  have h1 := (OrderBook.resolvePrice_fst s.order pop).2.2.2.2.2
  have h2 := (OrderBook.resolvePrice_snd s.order pop).2.2.2.2.2
  unfold OrderBook.tradeBody
  simp only
  split
  · unfold OrderBook.tradeCross OrderBook.collect
    simp only
    have h3 := (Order.strip_ID _ _ (OrderBook.pushBack_snd ob1
      { (resolvePrice s.order pop).2 with
        Qty := (exchangeQty (resolvePrice s.order pop).2.Qty (resolvePrice s.order pop).1.Qty).1 })).2.2.2.1
    simp only at h3
    have h4 := OrderBook.exchangeQty_diff (resolvePrice s.order pop).2.Qty (resolvePrice s.order pop).1.Qty
    rw [h1, h2] at h4
    rw [h1, h2] at h3
    rw [h1, h2]
    split
    · rw [sumQty_append]
      simp only
      rw [h3]; omega
    · next hne =>
      rw [h3] at hne
      push_neg at hne
      omega
  · rw [h1]

theorem OrderBook.tradeFinal_qty (ob : OrderBook) (o : Order) :
    (ob.tradeFinal o).order.Qty + sumQty (ob.tradeCompletes o) = o.Qty := by
  unfold OrderBook.tradeCompletes OrderBook.tradeFinal
  have := OrderBook.tradeLoop_invariant
    (fun t => t.order.Qty + sumQty t.completes = o.Qty)
    (fun s pop ob1 hs _ _ _ => (OrderBook.tradeBody_qty s pop ob1).trans hs)
    (ob.GetSideQueueLen o.Side) { ob := ob, order := o, skips := [], completes := [] }
    (by simp [sumQty])
  exact this


/-! ## The loop of Trade: identifiers -/

theorem OrderBook.mem_resting (ob : OrderBook) (x : Order) (h : x ∈ ob.Bids ++ ob.Asks) :
    x.strip ∈ ob.resting := List.mem_map.2 ⟨x, h, rfl⟩

theorem OrderBook.resting_ids (ob : OrderBook) (P : UUID → Prop) :
    (∀ x ∈ ob.resting, P x.ID) ↔ (∀ x ∈ ob.Bids ++ ob.Asks, P x.ID) := by
  constructor
  · intro h x hx
    exact h x.strip (OrderBook.mem_resting ob x hx)
  · intro h x hx
    obtain ⟨y, hy, rfl⟩ := List.mem_map.1 hx
    exact h y hy

theorem OrderBook.pushBack_spec (ob1 : OrderBook) (p : Order) :
    (pushBack ob1 p).1.Done = ob1.Done ∧
    (pushBack ob1 p).1.cleanTimeFreq = ob1.cleanTimeFreq ∧
    ((p.Qty > 1 ∧ (pushBack ob1 p).1.resting.Perm (p.strip :: ob1.resting)) ∨
     (¬ p.Qty > 1 ∧ (pushBack ob1 p).1 = ob1)) := by
  unfold OrderBook.pushBack
  split
  · next h =>
    obtain ⟨h1, h2, h3⟩ := OrderBook.PushOrderAt_resting ob1 p
    exact ⟨h2, h3, Or.inl ⟨h, h1⟩⟩
  · next h => exact ⟨rfl, rfl, Or.inr ⟨h, rfl⟩⟩

theorem OrderBook.pushAll_spec (skips : List Order) (b : OrderBook) :
    (skips.foldl (fun b skip => b.PushOrder skip) b).resting.Perm
      (skips.map Order.strip ++ b.resting) ∧
    (skips.foldl (fun b skip => b.PushOrder skip) b).Done = b.Done ∧
    (skips.foldl (fun b skip => b.PushOrder skip) b).cleanTimeFreq = b.cleanTimeFreq := by
  induction skips generalizing b with
  | nil => exact ⟨List.Perm.refl _, rfl, rfl⟩
  | cons x xs ih =>
    simp only [List.foldl_cons, List.map_cons, List.cons_append]
    obtain ⟨h1, h2, h3⟩ := ih (b.PushOrder x)
    obtain ⟨g1, g2, g3⟩ := OrderBook.PushOrderAt_resting b x
    refine ⟨?_, h2.trans g2, h3.trans g3⟩
    refine h1.trans ?_
    refine (List.Perm.append_left _ g1).trans ?_
    exact List.perm_middle

theorem OrderBook.foldl_saveOne_get?_ne (l : List Order) (d : DoneMap) (k : String)
    (h : ∀ x ∈ l, x.ID.String ≠ k) : (l.foldl saveOne d).get? k = d.get? k := by
  induction l generalizing d with
  | nil => rfl
  | cons x xs ih =>
    simp only [List.foldl_cons]
    rw [ih _ (fun y hy => h y (List.mem_cons_of_mem _ hy)),
      OrderBook.saveOne_get?_ne _ _ _ (h x (List.mem_cons_self _ _))]

/-- The identifiers met during one iteration of the loop of `Trade` are identifiers of
orders that rested before it. -/
theorem OrderBook.tradeBody_ids (P : UUID → Prop) (s : TradeState) (pop : Order) (ob1 : OrderBook)
    (hpop : s.ob.PopBySide s.order.Side = some (pop, ob1))
    (h : (∀ x ∈ s.ob.resting, P x.ID) ∧ (∀ x ∈ s.skips, P x.ID) ∧ (∀ x ∈ s.completes, P x.ID)) :
    (∀ x ∈ (tradeBody s pop ob1).ob.resting, P x.ID) ∧
    (∀ x ∈ (tradeBody s pop ob1).skips, P x.ID) ∧
    (∀ x ∈ (tradeBody s pop ob1).completes, P x.ID) ∧
    (tradeBody s pop ob1).ob.Done = s.ob.Done ∧
    (tradeBody s pop ob1).ob.cleanTimeFreq = s.ob.cleanTimeFreq := by
  obtain ⟨hperm, hdone, hfreq, -⟩ := OrderBook.PopBySide_some _ _ _ _ hpop
  obtain ⟨hr, hs, hc⟩ := h
  have hP : P pop.ID := hr pop.strip (hperm.subset (List.mem_cons_self _ _))
  have hr1 : ∀ x ∈ ob1.resting, P x.ID := fun x hx => hr x (hperm.subset (List.mem_cons_of_mem _ hx))
  have hid := (OrderBook.resolvePrice_snd s.order pop).1
  unfold OrderBook.tradeBody
  simp only
  split
  · unfold OrderBook.tradeCross
    simp only
    obtain ⟨g1, g2, g3⟩ := OrderBook.pushBack_spec ob1
      { (resolvePrice s.order pop).2 with
        Qty := (exchangeQty (resolvePrice s.order pop).2.Qty (resolvePrice s.order pop).1.Qty).1 }
    have g4 := (Order.strip_ID _ _ (OrderBook.pushBack_snd ob1
      { (resolvePrice s.order pop).2 with
        Qty := (exchangeQty (resolvePrice s.order pop).2.Qty (resolvePrice s.order pop).1.Qty).1 })).1
    simp only at g4
    refine ⟨?_, hs, ?_, g1.trans hdone, g2.trans hfreq⟩
    · rcases g3 with ⟨_, g⟩ | ⟨_, g⟩
      · intro x hx
        rcases List.mem_cons.1 (g.subset hx) with hx1 | hx1
        · rw [hx1]; show P (resolvePrice s.order pop).2.ID; rw [hid]; exact hP
        · exact hr1 x hx1
      · rw [g]; exact hr1
    · unfold OrderBook.collect
      split
      · intro x hx
        rcases List.mem_append.1 hx with hx1 | hx1
        · exact hc x hx1
        · rw [List.mem_singleton] at hx1
          rw [hx1]; simp only; rw [g4, hid]; exact hP
      · exact hc
  · refine ⟨hr1, ?_, hc, hdone, hfreq⟩
    intro x hx
    rcases List.mem_append.1 hx with hx1 | hx1
    · exact hs x hx1
    · rw [List.mem_singleton] at hx1
      rw [hx1, hid]; exact hP

theorem OrderBook.tradeFinal_ids (P : UUID → Prop) (ob : OrderBook) (o : Order)
    (h : ∀ x ∈ ob.resting, P x.ID) :
    (∀ x ∈ (ob.tradeFinal o).ob.resting, P x.ID) ∧
    (∀ x ∈ (ob.tradeFinal o).skips, P x.ID) ∧
    (∀ x ∈ ob.tradeCompletes o, P x.ID) ∧
    (ob.tradeFinal o).ob.Done = ob.Done ∧
    (ob.tradeFinal o).ob.cleanTimeFreq = ob.cleanTimeFreq := by
  unfold OrderBook.tradeCompletes OrderBook.tradeFinal
  refine OrderBook.tradeLoop_invariant
    (fun t => (∀ x ∈ t.ob.resting, P x.ID) ∧ (∀ x ∈ t.skips, P x.ID) ∧
      (∀ x ∈ t.completes, P x.ID) ∧ t.ob.Done = ob.Done ∧
      t.ob.cleanTimeFreq = ob.cleanTimeFreq) ?_ _ _ ?_
  · intro s pop ob1 hs _ _ hpop
    obtain ⟨a1, a2, a3, a4, a5⟩ := OrderBook.tradeBody_ids P s pop ob1 hpop ⟨hs.1, hs.2.1, hs.2.2.1⟩
    exact ⟨a1, a2, a3, a4.trans hs.2.2.2.1, a5.trans hs.2.2.2.2⟩
  · exact ⟨h, by simp, by simp, rfl, rfl⟩

/-- The book that `Trade` returns: its resting orders carry identifiers that rested
before, and its Done map is the old one with the completion records saved. -/
theorem OrderBook.Trade_ids (P : UUID → Prop) (ob : OrderBook) (o : Order)
    (h : ∀ x ∈ ob.resting, P x.ID) :
    (∀ x ∈ (ob.Trade o).2.2.resting, P x.ID) ∧
    (ob.Trade o).2.2.Done = (ob.tradeCompletes o).foldl saveOne ob.Done ∧
    (∀ x ∈ ob.tradeCompletes o, P x.ID) := by
  obtain ⟨a1, a2, a3, a4, -⟩ := OrderBook.tradeFinal_ids P ob o h
  rw [OrderBook.Trade_eq]
  simp only
  obtain ⟨b1, b2, -⟩ := OrderBook.pushAll_spec (ob.tradeFinal o).skips (ob.tradeFinal o).ob
  refine ⟨?_, ?_, a3⟩
  · intro x hx
    have hx2 : x ∈ (List.foldl (fun b skip => b.PushOrder skip) (ob.tradeFinal o).ob
        (ob.tradeFinal o).skips).resting := hx
    rcases List.mem_append.1 (b1.subset hx2) with hx1 | hx1
    · obtain ⟨y, hy, rfl⟩ := List.mem_map.1 hx1
      exact a2 y hy
    · exact a1 x hx1
  · unfold OrderBook.save
    simp only
    rw [b2, a4]


/-! ## The two outcomes of process -/

theorem OrderBook.saveOne_get?_fresh (d : DoneMap) (o : Order) (k : String)
    (hk : o.ID.String = k) (hnone : d.get? k = none) : (saveOne d o).get? k = some o := by
  subst hk
  rw [OrderBook.saveOne_get?_self, hnone]

theorem OrderBook.process_outcome (ob : OrderBook) (o : Order)
    (hQ : ∀ x ∈ ob.Bids ++ ob.Asks, x.ID ≠ o.ID) (hD : ob.Done.get? o.ID.String = none) :
    ((ob.Trade o).2.1.Qty = 0 →
      (∀ x ∈ (ob.process o).2.Bids ++ (ob.process o).2.Asks, x.ID ≠ o.ID) ∧
      ∃ r, (ob.process o).2.Done.get? o.ID.String = some r ∧ r.ID = o.ID ∧ r.Qty = o.Qty) ∧
    ((ob.Trade o).2.1.Qty ≠ 0 →
      (∃ x ∈ (if o.Side = Buy then (ob.process o).2.Bids else (ob.process o).2.Asks),
        x.ID = o.ID ∧ x.Qty = o.Qty - sumQty (ob.tradeCompletes o)) ∧
      (∀ x ∈ (if o.Side = Buy then (ob.process o).2.Asks else (ob.process o).2.Bids),
        x.ID ≠ o.ID) ∧
      (ob.process o).2.Done.get? o.ID.String = none) := by
  have hres : ∀ x ∈ ob.resting, x.ID ≠ o.ID :=
    (OrderBook.resting_ids ob (fun u => u ≠ o.ID)).2 hQ
  obtain ⟨t1, t2, t3⟩ := OrderBook.Trade_ids (fun u => u ≠ o.ID) ob o hres
  have t1q := (OrderBook.resting_ids _ (fun u => u ≠ o.ID)).1 t1
  have hTD : (ob.Trade o).2.2.Done.get? o.ID.String = none := by
    rw [t2, OrderBook.foldl_saveOne_get?_ne _ _ _ (fun x hx hs => t3 x hx (UUID.String_inj _ _ hs))]
    exact hD
  obtain ⟨hid, hside, -⟩ := OrderBook.Trade_order ob o
  have hqty : (ob.Trade o).2.1.Qty = o.Qty - sumQty (ob.tradeCompletes o) := by
    have := OrderBook.tradeFinal_qty ob o
    rw [OrderBook.Trade_eq]; simp only; omega
  rw [OrderBook.process_eq]
  simp only
  constructor
  · intro h0
    rw [if_pos h0]
    refine ⟨t1q, ?_⟩
    unfold OrderBook.save
    simp only [List.foldl_cons, List.foldl_nil]
    exact ⟨_, OrderBook.saveOne_get?_fresh (ob.Trade o).2.2.Done
      { (ob.Trade o).2.1 with Qty := o.Qty } o.ID.String (by rw [← hid]) hTD, hid, rfl⟩
  · intro h0
    rw [if_neg h0]
    unfold OrderBook.PushOrderSync OrderBook.PushOrder
    obtain ⟨p1, p2⟩ := OrderBook.PushOrderAt_queues (ob.Trade o).2.2 (ob.Trade o).2.1
    have pD := (OrderBook.PushOrderAt_resting (ob.Trade o).2.2 (ob.Trade o).2.1).2.1
    rw [pD]
    refine ⟨?_, ?_, hTD⟩
    · by_cases hb : o.Side = Buy
      · rw [if_pos hb]
        obtain ⟨q1, -, -⟩ := p1 (hside.trans hb)
        have hm : (ob.Trade o).2.1.strip ∈
            ((ob.Trade o).2.2.PushOrderAt (ob.Trade o).2.1).1.Bids.map Order.strip :=
          q1.symm.subset (List.mem_cons_self _ _)
        obtain ⟨x, hx, hxs⟩ := List.mem_map.1 hm
        obtain ⟨e1, -, -, e4, -⟩ := Order.strip_ID _ _ hxs
        exact ⟨x, hx, e1.trans hid, e4.trans hqty⟩
      · rw [if_neg hb]
        obtain ⟨q1, -, -⟩ := p2 (by rw [hside]; exact hb)
        have hm : (ob.Trade o).2.1.strip ∈
            ((ob.Trade o).2.2.PushOrderAt (ob.Trade o).2.1).1.Asks.map Order.strip :=
          q1.symm.subset (List.mem_cons_self _ _)
        obtain ⟨x, hx, hxs⟩ := List.mem_map.1 hm
        obtain ⟨e1, -, -, e4, -⟩ := Order.strip_ID _ _ hxs
        exact ⟨x, hx, e1.trans hid, e4.trans hqty⟩
    · by_cases hb : o.Side = Buy
      · rw [if_pos hb]
        obtain ⟨-, -, q3⟩ := p1 (hside.trans hb)
        rw [q3]
        exact fun x hx => t1q x (List.mem_append_right _ hx)
      · rw [if_neg hb]
        obtain ⟨-, -, q3⟩ := p2 (by rw [hside]; exact hb)
        rw [q3]
        exact fun x hx => t1q x (List.mem_append_left _ hx)

/-! ## A single counterparty; the Done record of another identifier -/

theorem heap.Pop_single (x : Order) : heap.Pop [x] = some ({ x with idx := -1 }, []) := by
  simp [heap.Pop, Orders.Len, Orders.Swap, heap.down, heap.downLoop, Orders.Pop]

theorem heap.PushAt_nil (x : Order) : heap.PushAt [] x = ([{ x with idx := 0 }], 0) := by
  simp [heap.PushAt, Orders.Push, heap.up, heap.upLoop, Orders.Len]

theorem OrderBook.Trade_single_buy (ob : OrderBook) (o y : Order) (hs : o.Side = Buy)
    (hA : ob.Asks = [y]) (hq : o.Qty > 0) :
    ob.tradeFinal o = tradeBody { ob := ob, order := o, skips := [], completes := [] }
      { y with idx := -1 } { ob with Asks := [] } := by
  unfold OrderBook.tradeFinal
  have hl : ob.GetSideQueueLen o.Side = 1 := by
    simp [OrderBook.GetSideQueueLen, hs, hA, Orders.Len]
  rw [hl]
  unfold OrderBook.tradeLoop
  simp only [hl]
  rw [if_pos ⟨by omega, hq⟩]
  have hp : ob.PopBySide o.Side = some ({ y with idx := -1 }, { ob with Asks := [] }) := by
    simp [OrderBook.PopBySide, hs, hA, heap.Pop_single]
  rw [hp]
  simp only [OrderBook.tradeLoop]

theorem OrderBook.Trade_Done (ob : OrderBook) (o : Order) :
    (ob.Trade o).2.2.Done = (ob.tradeCompletes o).foldl saveOne ob.Done :=
  (OrderBook.Trade_ids (fun _ => True) ob o (fun _ _ => trivial)).2.1

/-- The Done record of another identifier after `process`: only the completion records of
the call of `Trade` have been saved on it. -/
theorem OrderBook.process_Done_other (ob : OrderBook) (o : Order) (k : String)
    (hk : o.ID.String ≠ k) :
    (ob.process o).2.Done.get? k = ((ob.tradeCompletes o).foldl saveOne ob.Done).get? k := by
  rw [OrderBook.process_eq]
  simp only
  have hid := (OrderBook.Trade_order ob o).1
  split
  · unfold OrderBook.save
    simp only [List.foldl_cons, List.foldl_nil]
    rw [OrderBook.saveOne_get?_ne _ _ _ (by simp only; rw [hid]; exact hk), OrderBook.Trade_Done]
  · unfold OrderBook.PushOrderSync OrderBook.PushOrder
    rw [(OrderBook.PushOrderAt_resting _ _).2.1, OrderBook.Trade_Done]

/-! ## Fresh keys of the Done map; a loop that ends after one crossing -/

theorem DoneMap.get?_eq_none_iff (d : DoneMap) (k : String) :
    d.get? k = none ↔ k ∉ d.map Prod.fst := by
  induction d with
  | nil => simp [DoneMap.get?]
  | cons kv d ih =>
    obtain ⟨k1, v⟩ := kv
    unfold DoneMap.get?
    by_cases h : k1 = k
    · simp [h]
    · rw [if_neg h, ih]
      simp only [List.map_cons, List.mem_cons, not_or]
      constructor
      · intro h2; exact ⟨fun e => h e.symm, h2⟩
      · intro h2; exact h2.2

theorem DoneMap.put_fresh (d : DoneMap) (k : String) (v : Order) (h : d.get? k = none) :
    d.put k v = d ++ [(k, v)] := by
  induction d with
  | nil => rfl
  | cons kv d ih =>
    obtain ⟨k1, w⟩ := kv
    unfold DoneMap.get? at h
    by_cases hk : k1 = k
    · rw [if_pos hk] at h; cases h
    · rw [if_neg hk] at h
      unfold DoneMap.put
      rw [if_neg hk, ih h]
      rfl

theorem OrderBook.saveOne_fresh (d : DoneMap) (o : Order) (h : d.get? o.ID.String = none) :
    saveOne d o = d ++ [(o.ID.String, o)] := by
  unfold OrderBook.saveOne
  simp only
  rw [h]
  exact DoneMap.put_fresh d _ _ h

theorem OrderBook.tradeLoop_stop (fuel : Nat) (s : TradeState) (h : ¬ s.order.Qty > 0) :
    tradeLoop fuel s = s := by
  cases fuel with
  | zero => rfl
  | succ n =>
    unfold OrderBook.tradeLoop
    rw [if_neg (fun hc => h hc.2)]

theorem OrderBook.tradeLoop_one (fuel : Nat) (s : TradeState) (pop : Order) (ob1 : OrderBook)
    (hlen : s.ob.GetSideQueueLen s.order.Side > 0) (hq : s.order.Qty > 0)
    (hpop : s.ob.PopBySide s.order.Side = some (pop, ob1))
    (hz : ¬ (tradeBody s pop ob1).order.Qty > 0) :
    tradeLoop (fuel + 1) s = tradeBody s pop ob1 := by
  unfold OrderBook.tradeLoop
  rw [if_pos ⟨hlen, hq⟩, hpop]
  simp only
  exact OrderBook.tradeLoop_stop _ _ hz

/-- A crossing of two limit orders of the same price and the same quantity. -/
theorem OrderBook.tradeBody_equal (s : TradeState) (pop : Order) (ob1 : OrderBook)
    (h1 : s.order.PriceMode = .Limit) (h2 : pop.PriceMode = .Limit)
    (hp : pop.Price = s.order.Price) (hq : pop.Qty = s.order.Qty) (hne : s.order.Qty ≠ 0) :
    tradeBody s pop ob1 =
      { ob := ob1, order := { s.order with Qty := 0 }, skips := s.skips,
        completes := s.completes ++ [pop] } := by
  have hne2 : ¬ (pop.Qty = 0) := by rw [hq]; exact hne
  simp [OrderBook.tradeBody, OrderBook.resolvePrice, h1, h2, OrderBook.cmp, hp,
    OrderBook.tradeCross, OrderBook.exchangeQty, hq, OrderBook.pushBack, OrderBook.collect,
    hne]
  cases pop
  simp only at h2 hp hq
  subst h2 hp hq
  rfl


/-! ## The comparison of a queue -/

theorem Order.less_idx (a b : Order) (k l : Int) :
    ({ a with idx := k } : Order).less { b with idx := l } = a.less b := rfl

theorem Order.less_irrefl (a : Order) : a.less a = false := by
  simp [Order.less]

theorem Order.less_asymm (a b : Order) (hs : a.Side = Buy ↔ b.Side = Buy)
    (h : a.less b = true) : b.less a = false := by
  unfold Order.less at h ⊢
  by_cases hp : a.Price = b.Price
  · rw [if_pos hp] at h
    rw [if_pos hp.symm]
    simp only [decide_eq_true_eq] at h
    simp only [decide_eq_false_iff_not]
    omega
  · rw [if_neg hp] at h
    rw [if_neg (fun e => hp e.symm)]
    by_cases ha : a.Side = Buy
    · rw [if_pos ha] at h
      rw [if_pos (hs.1 ha)]
      simp only [decide_eq_true_eq] at h
      simp only [decide_eq_false_iff_not]
      omega
    · rw [if_neg ha] at h
      rw [if_neg (fun e => ha (hs.2 e))]
      simp only [decide_eq_true_eq] at h
      simp only [decide_eq_false_iff_not]
      omega

/-- Among orders of one queue "not less" is transitive. -/
theorem Order.not_less_trans (a b c : Order) (hs : a.Side = Buy ↔ b.Side = Buy)
    (h1 : a.less b = false) (h2 : b.less c = false) : a.less c = false := by
  unfold Order.less at h1 h2 ⊢
  by_cases ha : a.Side = Buy
  · have hb := hs.1 ha
    simp only [ha, hb, if_true] at h1 h2 ⊢
    split_ifs at h1 h2 ⊢ <;> simp only [decide_eq_false_iff_not] at h1 h2 ⊢ <;> omega
  · have hb : ¬ b.Side = Buy := fun e => ha (hs.2 e)
    simp only [ha, hb, if_false] at h1 h2 ⊢
    split_ifs at h1 h2 ⊢ <;> simp only [decide_eq_false_iff_not] at h1 h2 ⊢ <;> omega

theorem Orders.getElem?_Swap (h : Orders) (i j k : Nat) (hi : i < h.length) (hj : j < h.length) :
    (h.Swap i j)[k]? =
      (h[swapIdx i j k]?).map (fun o => if k = i ∨ k = j then { o with idx := (k : Int) } else o) := by
  unfold Orders.Swap swapIdx
  have ei : h[i]? = some h[i] := List.getElem?_eq_getElem hi
  have ej : h[j]? = some h[j] := List.getElem?_eq_getElem hj
  rw [ei, ej]
  simp only
  rw [List.getElem?_set, List.getElem?_set]
  by_cases hkj : j = k
  · subst hkj
    simp only [List.length_set, hj, if_true]
    by_cases hji : j = i
    · subst hji; simp [ei]
    · simp [hji, ei]
  · have hkj2 : ¬ k = j := fun e => hkj e.symm
    simp only [hkj, hkj2, if_false]
    by_cases hki : i = k
    · subst hki
      simp [hi, ej]
    · have hki2 : ¬ k = i := fun e => hki e.symm
      simp [hki, hki2]

theorem Orders.Less_Swap (h : Orders) (i j a b : Nat) (hi : i < h.length) (hj : j < h.length) :
    (h.Swap i j).Less a b = h.Less (swapIdx i j a) (swapIdx i j b) := by
  unfold Orders.Less
  rw [Orders.getElem?_Swap h i j a hi hj, Orders.getElem?_Swap h i j b hi hj]
  cases h[swapIdx i j a]? <;> cases h[swapIdx i j b]? <;> simp only [Option.map]
  split_ifs <;> rfl


/-! ## heap.down restores the heap order -/

theorem Orders.uniform_of_perm (h h2 : Orders)
    (hp : (h2.map Order.strip).Perm (h.map Order.strip)) (hu : h.uniform) : h2.uniform := by
  have key : ∀ x ∈ h2, ∃ y ∈ h, y.Side = x.Side := by
    intro x hx
    have : x.strip ∈ h.map Order.strip := hp.subset (List.mem_map.2 ⟨x, hx, rfl⟩)
    obtain ⟨y, hy, hys⟩ := List.mem_map.1 this
    exact ⟨y, hy, (Order.strip_ID _ _ hys).2.2.2.2.1⟩
  intro x hx y hy
  obtain ⟨x1, hx1, ex⟩ := key x hx
  obtain ⟨y1, hy1, ey⟩ := key y hy
  rw [← ex, ← ey]
  exact hu x1 hx1 y1 hy1

theorem Orders.Less_self (h : Orders) (a : Nat) : h.Less a a = false := by
  unfold Orders.Less
  cases h[a]? with
  | none => rfl
  | some x => exact Order.less_irrefl x

theorem Orders.Less_asymm (h : Orders) (hu : h.uniform) (a b : Nat)
    (hab : h.Less a b = true) : h.Less b a = false := by
  unfold Orders.Less at hab ⊢
  cases ha : h[a]? with
  | none => rw [ha] at hab; cases hab
  | some x =>
    cases hb : h[b]? with
    | none => rfl
    | some y =>
      rw [ha, hb] at hab
      exact Order.less_asymm x y
        (hu x (List.mem_iff_getElem?.2 ⟨a, ha⟩) y (List.mem_iff_getElem?.2 ⟨b, hb⟩)) hab

theorem Orders.Less_trans_false (h : Orders) (hu : h.uniform) (a b c : Nat)
    (hb : b < h.length) (h1 : h.Less a b = false) (h2 : h.Less b c = false) :
    h.Less a c = false := by
  unfold Orders.Less at h1 h2 ⊢
  have eb : h[b]? = some h[b] := List.getElem?_eq_getElem hb
  cases ha : h[a]? with
  | none => rfl
  | some x =>
    cases hc : h[c]? with
    | none => rfl
    | some z =>
      rw [ha, eb] at h1
      rw [eb, hc] at h2
      exact Order.not_less_trans x h[b] z
        (hu x (List.mem_iff_getElem?.2 ⟨a, ha⟩) _ (List.mem_iff_getElem?.2 ⟨b, eb⟩)) h1 h2

theorem heap.downChild_spec (h : Orders) (hu : h.uniform) (j1 n : Nat) :
    (heap.downChild h j1 n = j1 ∨ (heap.downChild h j1 n = j1 + 1 ∧ j1 + 1 < n)) ∧
    h.Less j1 (heap.downChild h j1 n) = false ∧
    (j1 + 1 < n → h.Less (j1 + 1) (heap.downChild h j1 n) = false) := by
  unfold heap.downChild
  by_cases hc : j1 + 1 < n ∧ h.Less (j1 + 1) j1 = true
  · rw [if_pos hc]
    exact ⟨Or.inr ⟨rfl, hc.1⟩, Orders.Less_asymm h hu _ _ hc.2, fun _ => Orders.Less_self h _⟩
  · rw [if_neg hc]
    refine ⟨Or.inl rfl, Orders.Less_self h _, fun hlt => ?_⟩
    cases hl : h.Less (j1 + 1) j1 with
    | false => rfl
    | true => exact absurd ⟨hlt, hl⟩ hc

/-- The loop of `heap.down` restores the heap order below the position it starts from. -/
theorem heap.downLoop_heap (fuel : Nat) (h : Orders) (lo i n : Nat) (hu : h.uniform)
    (hn : n ≤ h.length) (hfuel : n ≤ fuel + i) (hlo : lo ≤ i)
    (h1 : ∀ c, c < n → 0 < c → lo ≤ (c - 1) / 2 → (c - 1) / 2 ≠ i →
      h.Less c ((c - 1) / 2) = false)
    (h2 : 0 < i → lo ≤ (i - 1) / 2 → ∀ c, c < n → 0 < c → (c - 1) / 2 = i →
      h.Less c ((i - 1) / 2) = false) :
    (heap.downLoop fuel h i n).1.heapFrom lo n := by
  induction fuel generalizing h i with
  | zero =>
    intro c hc hc0 hcl
    exact h1 c hc hc0 hcl (by omega)
  | succ k ih =>
    unfold heap.downLoop
    simp only
    by_cases hj1 : 2 * i + 1 ≥ n
    · rw [if_pos hj1]
      intro c hc hc0 hcl
      exact h1 c hc hc0 hcl (by omega)
    · rw [if_neg hj1]
      obtain ⟨hj, hl1, hl2⟩ := heap.downChild_spec h hu (2 * i + 1) n
      generalize heap.downChild h (2 * i + 1) n = j at hj hl1 hl2
      have hjn : j < n := by omega
      have hpj : (j - 1) / 2 = i := by omega
      have hchild : ∀ c, c < n → 0 < c → (c - 1) / 2 = i → h.Less c j = false := by
        intro c hc hc0 hcp
        have : c = 2 * i + 1 ∨ c = 2 * i + 1 + 1 := by omega
        rcases this with e | e
        · rw [e]; exact hl1
        · rw [e]; exact hl2 (by omega)
      cases hji : h.Less j i with
      | false =>
        simp only [Bool.not_false, if_true]
        intro c hc hc0 hcl
        by_cases hcp : (c - 1) / 2 = i
        · rw [hcp]
          exact Orders.Less_trans_false h hu c j i (by omega) (hchild c hc hc0 hcp) hji
        · exact h1 c hc hc0 hcl hcp
      | true =>
        simp only [Bool.not_true, Bool.false_eq_true, if_false]
        have hil : i < h.length := by omega
        have hjl : j < h.length := by omega
        apply ih
        · exact Orders.uniform_of_perm h _ (Orders.Swap_perm h i j) hu
        · rw [Orders.Swap_length]; exact hn
        · omega
        · omega
        · intro c hc hc0 hcl hcp
          rw [Orders.Less_Swap h i j _ _ hil hjl]
          by_cases hpi : (c - 1) / 2 = i
          · by_cases hcj : c = j
            · have e1 : swapIdx i j c = i := by simp [swapIdx, hcj]
              have e2 : swapIdx i j ((c - 1) / 2) = j := by simp [swapIdx, hpi]
              rw [e1, e2]
              exact Orders.Less_asymm h hu _ _ hji
            · have e1 : swapIdx i j c = c := by
                simp only [swapIdx]; rw [if_neg (by omega), if_neg hcj]
              have e2 : swapIdx i j ((c - 1) / 2) = j := by simp [swapIdx, hpi]
              rw [e1, e2]
              exact hchild c hc hc0 hpi
          · have e2 : swapIdx i j ((c - 1) / 2) = (c - 1) / 2 := by
              simp only [swapIdx]; rw [if_neg hpi, if_neg hcp]
            rw [e2]
            by_cases hci : c = i
            · have e1 : swapIdx i j c = j := by simp [swapIdx, hci]
              rw [e1, hci]
              exact h2 (by omega) (by rw [← hci]; exact hcl) j hjn (by omega) hpj
            · have e1 : swapIdx i j c = c := by
                simp only [swapIdx]; rw [if_neg hci, if_neg (by omega)]
              rw [e1]
              exact h1 c hc hc0 hcl hpi
        · intro hj0 hjlo c hc hc0 hcp
          rw [Orders.Less_Swap h i j _ _ hil hjl]
          have e1 : swapIdx i j c = c := by
            simp only [swapIdx]; rw [if_neg (by omega), if_neg (by omega)]
          have e2 : swapIdx i j ((j - 1) / 2) = j := by simp [swapIdx, hpj]
          rw [e1, e2]
          have := h1 c hc hc0 (by omega) (by omega)
          rw [hcp] at this
          exact this


/-! ## heap.Init builds a heap; heap.Pop returns its root -/

theorem heap.initLoop_heap (n k : Nat) (h : Orders) (hu : h.uniform) (hn : n ≤ h.length)
    (hk : h.heapFrom k n) : (heap.initLoop n k h).heapFrom 0 n := by
  induction k generalizing h with
  | zero => exact hk
  | succ k ih =>
    unfold heap.initLoop
    apply ih
    · exact Orders.uniform_of_perm h _ (heap.down_perm h k n) hu
    · rw [heap.down_length]; exact hn
    · unfold heap.down
      simp only
      apply heap.downLoop_heap n h k k n hu hn (by omega) (Nat.le_refl k)
      · intro c hc hc0 hcl hcp
        exact hk c hc hc0 (by omega)
      · intro hk0 hkl
        omega

theorem heap.Init_isHeap (h : Orders) (hu : h.uniform) : (heap.Init h).isHeap := by
  unfold Orders.isHeap heap.Init
  rw [heap.initLoop_length]
  apply heap.initLoop_heap _ _ h hu (Nat.le_refl _)
  intro c hc hc0 hcl
  simp only [Orders.Len] at hc hcl
  omega

/-- In a heap no order is less than the root. -/
theorem Orders.heapFrom_root (h : Orders) (hu : h.uniform) (n : Nat) (hn : n ≤ h.length)
    (hh : h.heapFrom 0 n) : ∀ c, c < n → h.Less c 0 = false := by
  intro c
  induction c using Nat.strong_induction_on with
  | _ c ih =>
    intro hc
    by_cases hc0 : c = 0
    · rw [hc0]; exact Orders.Less_self h 0
    · have h1 := hh c hc (by omega) (Nat.zero_le _)
      have h2 := ih ((c - 1) / 2) (by omega) (by omega)
      exact Orders.Less_trans_false h hu c ((c - 1) / 2) 0 (by omega) h1 h2

theorem Orders.getElem?_Swap_ne (h : Orders) (i j k : Nat) (hki : k ≠ i) (hkj : k ≠ j) :
    (h.Swap i j)[k]? = h[k]? := by
  unfold Orders.Swap
  split
  · rw [List.getElem?_set_ne (fun e => hkj e.symm), List.getElem?_set_ne (fun e => hki e.symm)]
  · rfl

theorem heap.downChild_bound (h : Orders) (j1 n : Nat) (hj : j1 < n) :
    j1 ≤ heap.downChild h j1 n ∧ heap.downChild h j1 n < n := by
  unfold heap.downChild
  split
  · next hc => exact ⟨by omega, hc.1⟩
  · exact ⟨Nat.le_refl _, hj⟩

theorem heap.downLoop_getElem?_ge (fuel : Nat) (h : Orders) (i n k : Nat) (hk : n ≤ k) :
    (heap.downLoop fuel h i n).1[k]? = h[k]? := by
  induction fuel generalizing h i with
  | zero => rfl
  | succ f ih =>
    unfold heap.downLoop
    simp only
    split
    · rfl
    · next hj1 =>
      have hj := heap.downChild_bound h (2 * i + 1) n (by omega)
      split
      · rfl
      · rw [ih, Orders.getElem?_Swap_ne h _ _ _ (by omega) (by omega)]

/-- The order that `heap.Pop` returns is the root of the heap. -/
theorem heap.Pop_root (h : Orders) (x : Order) (q : Orders) (hp : heap.Pop h = some (x, q)) :
    ∃ r, h[0]? = some r ∧ x = { r with idx := -1 } := by
  unfold heap.Pop at hp
  split at hp
  · cases hp
  · next hl =>
    simp only [Orders.Len] at hl hp
    have hlen : 0 < h.length := by omega
    have hnl : h.length - 1 < h.length := by omega
    unfold Orders.Pop at hp
    split at hp
    · cases hp
    · next y hy =>
      simp only [Option.some.injEq, Prod.mk.injEq] at hp
      obtain ⟨hx, -⟩ := hp
      rw [List.getLast?_eq_getElem?, heap.down_length, Orders.Swap_length] at hy
      unfold heap.down at hy
      simp only at hy
      rw [heap.downLoop_getElem?_ge _ _ _ _ _ (Nat.le_refl _),
        Orders.getElem?_Swap h 0 (h.length - 1) _ hlen hnl] at hy
      have hs : swapIdx 0 (h.length - 1) (h.length - 1) = 0 := by
        unfold swapIdx
        split
        · next e => exact e
        · simp
      rw [hs, List.getElem?_eq_getElem hlen] at hy
      simp only [Option.map_some', or_true, if_true, Option.some.injEq] at hy
      refine ⟨h[0], List.getElem?_eq_getElem hlen, ?_⟩
      rw [← hx, ← hy]

theorem Orders.foldl_Push_strip (l : List Order) (acc : Orders) :
    (l.foldl Orders.Push acc).map Order.strip = acc.map Order.strip ++ l.map Order.strip := by
  induction l generalizing acc with
  | nil => simp
  | cons x xs ih =>
    simp only [List.foldl_cons, List.map_cons]
    rw [ih, Orders.slicePush_strip]
    simp

theorem Orders.Less_false_price (h : Orders) (c : Nat) (a b : Order)
    (hc : h[c]? = some a) (h0 : h[0]? = some b) (hl : h.Less c 0 = false) :
    (a.Side = Buy → a.Price ≤ b.Price) ∧ (a.Side ≠ Buy → b.Price ≤ a.Price) := by
  unfold Orders.Less at hl
  rw [hc, h0] at hl
  simp only [Order.less] at hl
  constructor
  · intro hs
    rw [if_pos hs] at hl
    split_ifs at hl with e
    · omega
    · simp only [decide_eq_false_iff_not] at hl; omega
  · intro hs
    rw [if_neg hs] at hl
    split_ifs at hl with e
    · omega
    · simp only [decide_eq_false_iff_not] at hl; omega

/-! ## Enough fuel -/

/-- Enough fuel for `heap.up`: more than `j` iterations change nothing. -/
theorem heap.upLoop_fuel (fuel k : Nat) (h : Orders) (j : Nat) (hj : j ≤ fuel) :
    heap.upLoop (fuel + k) h j = heap.upLoop fuel h j := by
  induction fuel generalizing h j with
  | zero =>
    have : j = 0 := by omega
    subst this
    cases k with
    | zero => rfl
    | succ k => simp [heap.upLoop]
  | succ f ih =>
    rw [Nat.add_right_comm]
    unfold heap.upLoop
    simp only
    split
    · rfl
    · exact ih _ _ (by omega)

/-- Enough fuel for `heap.down`: more than `n - i` iterations change nothing. -/
theorem heap.downLoop_fuel (fuel k : Nat) (h : Orders) (i n : Nat) (hf : n ≤ fuel + i) :
    heap.downLoop (fuel + k) h i n = heap.downLoop fuel h i n := by
  induction fuel generalizing h i with
  | zero =>
    cases k with
    | zero => rfl
    | succ k =>
      simp only [Nat.zero_add]
      unfold heap.downLoop
      simp only
      rw [if_pos (by omega)]
  | succ f ih =>
    rw [Nat.add_right_comm]
    unfold heap.downLoop
    simp only
    split
    · rfl
    · next hj1 =>
      have hb := heap.downChild_bound h (2 * i + 1) n (by omega)
      split
      · rfl
      · exact ih _ _ (by omega)

theorem OrderBook.exchangeQty_snd_pos (a b : Int) (h : (exchangeQty a b).2 > 0) :
    (exchangeQty a b).1 = 0 := by
  unfold OrderBook.exchangeQty at h ⊢
  split
  · rfl
  · split
    · next h1 h2 => rw [if_neg h1, if_pos h2] at h; simp at h
    · rfl

/-- An iteration that leaves the incoming order with a positive quantity shortens the
opposite queue by one order. -/
theorem OrderBook.tradeBody_len (s : TradeState) (pop : Order) (ob1 : OrderBook)
    (hpop : s.ob.PopBySide s.order.Side = some (pop, ob1))
    (hq : (tradeBody s pop ob1).order.Qty > 0) :
    (tradeBody s pop ob1).ob.GetSideQueueLen (tradeBody s pop ob1).order.Side + 1 =
      s.ob.GetSideQueueLen s.order.Side := by
  obtain ⟨-, -, -, -, hlen, -, -⟩ := OrderBook.PopBySide_some _ _ _ _ hpop
  rw [(OrderBook.tradeBody_order s pop ob1).2.1]
  have hob : (tradeBody s pop ob1).ob = ob1 := by
    unfold OrderBook.tradeBody at hq ⊢
    simp only at hq ⊢
    split
    · next hc =>
      rw [if_pos hc] at hq
      unfold OrderBook.tradeCross at hq ⊢
      simp only at hq ⊢
      have h0 := OrderBook.exchangeQty_snd_pos _ _ hq
      unfold OrderBook.pushBack
      rw [if_neg (by simp only; rw [h0]; decide)]
    · rfl
  rw [hob]
  exact hlen

/-- Enough fuel for the loop of `Trade`: when the fuel is at least the length of the
opposite queue, the loop is left because its condition fails. -/
theorem OrderBook.tradeLoop_exit (fuel : Nat) (s : TradeState)
    (hf : s.ob.GetSideQueueLen s.order.Side ≤ fuel) :
    ¬ ((tradeLoop fuel s).ob.GetSideQueueLen (tradeLoop fuel s).order.Side > 0 ∧
      (tradeLoop fuel s).order.Qty > 0) := by
  induction fuel generalizing s with
  | zero =>
    intro h
    simp only [OrderBook.tradeLoop] at h
    omega
  | succ n ih =>
    unfold OrderBook.tradeLoop
    split
    · next hc =>
      obtain ⟨pop, ob1, hpop⟩ := OrderBook.PopBySide_isSome _ _ hc.1
      rw [hpop]
      simp only
      by_cases hq : (tradeBody s pop ob1).order.Qty > 0
      · apply ih
        have := OrderBook.tradeBody_len s pop ob1 hpop hq
        omega
      · rw [OrderBook.tradeLoop_stop _ _ hq]
        exact fun h => hq h.2
    · next hc => exact hc

/-- More fuel than the length of the opposite queue changes nothing. -/
theorem OrderBook.tradeLoop_fuel (fuel k : Nat) (s : TradeState)
    (hf : s.ob.GetSideQueueLen s.order.Side ≤ fuel) :
    tradeLoop (fuel + k) s = tradeLoop fuel s := by
  induction fuel generalizing s with
  | zero =>
    cases k with
    | zero => rfl
    | succ k =>
      simp only [Nat.zero_add]
      unfold OrderBook.tradeLoop
      rw [if_neg (by omega)]
  | succ n ih =>
    rw [Nat.add_right_comm]
    unfold OrderBook.tradeLoop
    split
    · next hc =>
      split
      · rfl
      · next pop ob1 hpop =>
        by_cases hq : (tradeBody s pop ob1).order.Qty > 0
        · apply ih
          have := OrderBook.tradeBody_len s pop ob1 hpop hq
          omega
        · rw [OrderBook.tradeLoop_stop _ _ hq, OrderBook.tradeLoop_stop _ _ hq]
    · rfl


/-! ## Crossings and the quantities saved in Done -/

theorem OrderBook.exchangeQty_fill (a b : Int) : a - (exchangeQty a b).1 = min a b := by
  unfold OrderBook.exchangeQty
  split
  · next h => simp [h]
  · split
    · next h1 h2 => simp only; rw [min_eq_right (by omega)]; omega
    · next h1 h2 => simp only; rw [min_eq_left (by omega)]; omega

/-- The completion records under one identifier after a crossing: one more record, of
the quantity filled, when the popped order carries the identifier. -/
theorem OrderBook.tradeCross_fills (x : UUID) (s : TradeState) (popQty : Int) (order pop : Order)
    (ob1 : OrderBook) (hpq : pop.Qty = popQty) (hx : pop.ID = x → 1 ≤ pop.Qty)
    (ho : 0 < order.Qty) :
    ((tradeCross s popQty order pop ob1).completes.filter (fun o => decide (o.ID = x))).map
        (fun o => o.Qty) =
      (s.completes.filter (fun o => decide (o.ID = x))).map (fun o => o.Qty) ++
        (if pop.ID = x then [min pop.Qty order.Qty] else []) := by
  unfold OrderBook.tradeCross OrderBook.collect
  simp only
  obtain ⟨e1, -, -, e4, -, -⟩ := Order.strip_ID _ _ (OrderBook.pushBack_snd ob1
    { pop with Qty := (exchangeQty pop.Qty order.Qty).1 })
  simp only at e1 e4
  generalize ob1.pushBack { pop with Qty := (exchangeQty pop.Qty order.Qty).1 } = r at e1 e4 ⊢
  have hfill := OrderBook.exchangeQty_fill pop.Qty order.Qty
  rw [e4, ← hpq]
  by_cases hid : pop.ID = x
  · have hq1 := hx hid
    have hmin : 1 ≤ min pop.Qty order.Qty := le_min hq1 (by omega)
    have hrx : r.2.ID = x := e1.trans hid
    rw [if_pos hid, if_pos (by omega), List.filter_append, List.map_append, hfill]
    simp [hrx]
  · have hrx : ¬ r.2.ID = x := fun e => hid (e1.symm.trans e)
    rw [if_neg hid]
    split
    · rw [List.filter_append, List.map_append]
      simp [hrx]
    · simp


/-- One iteration of the loop of `Trade`, seen from one identifier `x`: resting orders
under `x` keep a quantity of at least 1, and the completion records under `x` grow by the
quantity filled exactly when the iteration is a crossing of an order under `x`. -/
theorem OrderBook.tradeBody_fills (x : UUID) (s : TradeState) (pop : Order) (ob1 : OrderBook)
    (hpop : s.ob.PopBySide s.order.Side = some (pop, ob1)) (hq : 0 < s.order.Qty)
    (hJ1 : ∀ y ∈ s.ob.resting, y.ID = x → 1 ≤ y.Qty)
    (hJ2 : ∀ y ∈ s.skips, y.ID = x → 1 ≤ y.Qty) :
    (∀ y ∈ (tradeBody s pop ob1).ob.resting, y.ID = x → 1 ≤ y.Qty) ∧
    (∀ y ∈ (tradeBody s pop ob1).skips, y.ID = x → 1 ≤ y.Qty) ∧
    ((tradeBody s pop ob1).completes.filter (fun o => decide (o.ID = x))).map (fun o => o.Qty) =
      (s.completes.filter (fun o => decide (o.ID = x))).map (fun o => o.Qty) ++
        (((if cmp (resolvePrice s.order pop).1.Side (resolvePrice s.order pop).2.Price
              (resolvePrice s.order pop).1.Price then
            [({ popID := pop.ID, popQty := pop.Qty, orderQty := s.order.Qty } : Crossing)]
          else []).filter (fun c => decide (c.popID = x))).map Crossing.filled) := by
  obtain ⟨hperm, -, -, -, -, -, -⟩ := OrderBook.PopBySide_some _ _ _ _ hpop
  have hpx : pop.ID = x → 1 ≤ pop.Qty := hJ1 pop.strip (hperm.subset (List.mem_cons_self _ _))
  have hr1 : ∀ y ∈ ob1.resting, y.ID = x → 1 ≤ y.Qty :=
    fun y hy => hJ1 y (hperm.subset (List.mem_cons_of_mem _ hy))
  obtain ⟨-, -, -, -, -, f6⟩ := OrderBook.resolvePrice_fst s.order pop
  obtain ⟨g1, -, -, -, -, g6⟩ := OrderBook.resolvePrice_snd s.order pop
  unfold OrderBook.tradeBody
  simp only
  split
  · refine ⟨?_, hJ2, ?_⟩
    · show ∀ y ∈ (pushBack ob1 { (resolvePrice s.order pop).2 with
          Qty := (exchangeQty (resolvePrice s.order pop).2.Qty
            (resolvePrice s.order pop).1.Qty).1 }).1.resting, y.ID = x → 1 ≤ y.Qty
      obtain ⟨-, -, hb⟩ := OrderBook.pushBack_spec ob1 { (resolvePrice s.order pop).2 with
          Qty := (exchangeQty (resolvePrice s.order pop).2.Qty
            (resolvePrice s.order pop).1.Qty).1 }
      rcases hb with ⟨hgt, hp2⟩ | ⟨-, heq⟩
      · intro y hy hyx
        rcases List.mem_cons.1 (hp2.subset hy) with e | e
        · rw [e]
          simp only [Order.strip] at hgt ⊢
          omega
        · exact hr1 y e hyx
      · rw [heq]; exact hr1
    · rw [OrderBook.tradeCross_fills x s pop.Qty _ _ ob1 g6 (by rw [g1, g6]; exact hpx)
        (by rw [f6]; exact hq)]
      congr 1
      rw [g1, g6, f6]
      by_cases hid : pop.ID = x
      · simp [hid, Crossing.filled]
      · simp [hid]
  · refine ⟨hr1, ?_, by simp⟩
    intro y hy hyx
    rcases List.mem_append.1 hy with e | e
    · exact hJ2 y e hyx
    · rw [List.mem_singleton] at e
      rw [e, g6]
      exact hpx (by rw [← g1, ← e]; exact hyx)

theorem OrderBook.tradeLoop_fills (x : UUID) (fuel : Nat) (s : TradeState)
    (hJ1 : ∀ y ∈ s.ob.resting, y.ID = x → 1 ≤ y.Qty)
    (hJ2 : ∀ y ∈ s.skips, y.ID = x → 1 ≤ y.Qty) :
    (∀ y ∈ (tradeLoop fuel s).ob.resting, y.ID = x → 1 ≤ y.Qty) ∧
    (∀ y ∈ (tradeLoop fuel s).skips, y.ID = x → 1 ≤ y.Qty) ∧
    ((tradeLoop fuel s).completes.filter (fun o => decide (o.ID = x))).map (fun o => o.Qty) =
      (s.completes.filter (fun o => decide (o.ID = x))).map (fun o => o.Qty) ++
        ((crossingLog fuel s).filter (fun c => decide (c.popID = x))).map Crossing.filled := by
  induction fuel generalizing s with
  | zero => exact ⟨hJ1, hJ2, by simp [OrderBook.tradeLoop, OrderBook.crossingLog]⟩
  | succ n ih =>
    unfold OrderBook.tradeLoop OrderBook.crossingLog
    split
    · next hc =>
      split
      · exact ⟨hJ1, hJ2, by simp⟩
      · next pop ob1 hpop =>
        obtain ⟨a1, a2, a3⟩ := OrderBook.tradeBody_fills x s pop ob1 hpop hc.2 hJ1 hJ2
        obtain ⟨b1, b2, b3⟩ := ih (tradeBody s pop ob1) a1 a2
        refine ⟨b1, b2, ?_⟩
        rw [b3, a3]
        simp only [List.filter_append, List.map_append, List.append_assoc]
    · exact ⟨hJ1, hJ2, by simp⟩


theorem OrderBook.saveOne_qty (d : DoneMap) (o : Order) (x : UUID) :
    DoneMap.qty (saveOne d o) x.String =
      DoneMap.qty d x.String + (if o.ID = x then o.Qty else 0) ∧
    ((d.get? x.String ≠ none ∨ o.ID = x) → (saveOne d o).get? x.String ≠ none) := by
  by_cases hx : o.ID = x
  · subst hx
    have h := OrderBook.saveOne_get?_self d o
    unfold DoneMap.qty
    rw [h, if_pos rfl]
    cases hd : d.get? o.ID.String <;> simp
  · have hs : o.ID.String ≠ x.String := fun e => hx (UUID.String_inj _ _ e)
    have h := OrderBook.saveOne_get?_ne d o x.String hs
    unfold DoneMap.qty
    rw [h, if_neg hx]
    simp [hx]

/-- Saving completion records adds up, under every identifier, the quantities of the
records of that identifier, and never removes a record. -/
theorem OrderBook.foldl_saveOne_qty (l : List Order) (d : DoneMap) (x : UUID) :
    DoneMap.qty (l.foldl saveOne d) x.String =
      DoneMap.qty d x.String +
        ((l.filter (fun o => decide (o.ID = x))).map (fun o => o.Qty)).sum ∧
    ((d.get? x.String ≠ none ∨ l.filter (fun o => decide (o.ID = x)) ≠ []) →
      (l.foldl saveOne d).get? x.String ≠ none) := by
  induction l generalizing d with
  | nil => simp
  | cons o l ih =>
    obtain ⟨h1, h2⟩ := OrderBook.saveOne_qty d o x
    obtain ⟨i1, i2⟩ := ih (saveOne d o)
    simp only [List.foldl_cons]
    constructor
    · rw [i1, h1]
      by_cases hx : o.ID = x
      · simp [hx]; omega
      · simp [hx]
    · intro hne
      apply i2
      by_cases hx : o.ID = x
      · exact Or.inl (h2 (Or.inr hx))
      · rcases hne with e | e
        · exact Or.inl (h2 (Or.inl e))
        · right
          simpa [hx] using e

theorem OrderBook.resting_save (ob : OrderBook) (l : List Order) :
    (ob.save l).resting = ob.resting := rfl

/-- The effect of `process` seen from one identifier `x` that is not the one of the
incoming order. -/
theorem OrderBook.process_fills (x : UUID) (ob : OrderBook) (o : Order) (hox : o.ID ≠ x)
    (hInv : ∀ y ∈ ob.resting, y.ID = x → 1 ≤ y.Qty) :
    (∀ y ∈ (ob.process o).2.resting, y.ID = x → 1 ≤ y.Qty) ∧
    DoneMap.qty (ob.process o).2.Done x.String =
      DoneMap.qty ob.Done x.String +
        (((ob.crossings o).filter (fun c => decide (c.popID = x))).map Crossing.filled).sum ∧
    ((ob.Done.get? x.String ≠ none ∨
        (ob.crossings o).filter (fun c => decide (c.popID = x)) ≠ []) →
      (ob.process o).2.Done.get? x.String ≠ none) := by
  obtain ⟨a1, a2, a3⟩ := OrderBook.tradeLoop_fills x (ob.GetSideQueueLen o.Side)
    { ob := ob, order := o, skips := [], completes := [] } hInv (by simp)
  simp only [List.filter_nil, List.map_nil, List.nil_append] at a3
  have a3c : ((ob.tradeCompletes o).filter (fun o => decide (o.ID = x))).map (fun o => o.Qty) =
      ((ob.crossings o).filter (fun c => decide (c.popID = x))).map Crossing.filled := a3
  obtain ⟨f1, f2⟩ := OrderBook.foldl_saveOne_qty (ob.tradeCompletes o) ob.Done x
  have hs : o.ID.String ≠ x.String := fun e => hox (UUID.String_inj _ _ e)
  have hget := OrderBook.process_Done_other ob o x.String hs
  refine ⟨?_, ?_, ?_⟩
  · have hT : ∀ y ∈ (ob.Trade o).2.2.resting, y.ID = x → 1 ≤ y.Qty := by
      rw [OrderBook.Trade_eq]
      simp only [OrderBook.resting_save]
      obtain ⟨b1, -, -⟩ := OrderBook.pushAll_spec (ob.tradeFinal o).skips (ob.tradeFinal o).ob
      intro y hy hyx
      rcases List.mem_append.1 (b1.subset hy) with e | e
      · obtain ⟨z, hz, rfl⟩ := List.mem_map.1 e
        exact a2 z hz hyx
      · exact a1 y e hyx
    rw [OrderBook.process_eq]
    simp only
    split
    · rw [OrderBook.resting_save]; exact hT
    · intro y hy hyx
      unfold OrderBook.PushOrderSync OrderBook.PushOrder at hy
      rcases List.mem_cons.1 ((OrderBook.PushOrderAt_resting _ _).1.subset hy) with e | e
      · exfalso
        apply hox
        rw [← (OrderBook.Trade_order ob o).1, ← hyx, e]
        rfl
      · exact hT y e hyx
  · unfold DoneMap.qty at f1 ⊢
    rw [hget, f1, a3c]
  · intro hne
    rw [hget]
    apply f2
    rcases hne with e | e
    · exact Or.inl e
    · right
      intro h0
      apply e
      have := congrArg List.length a3c
      rw [h0] at this
      simp only [List.map_nil, List.length_nil, List.length_map] at this
      exact List.length_eq_zero.1 this.symm


theorem OrderBook.ProcessLimitOrder_fail (M : Int) (ob : OrderBook) (id : UUID) (now : Time)
    (side : Side) (price qty : Int)
    (herr : (ob.ProcessLimitOrder M id now side price qty).1.2 ≠ none) :
    (ob.ProcessLimitOrder M id now side price qty).2 = ob := by
  cases hc : ob.CheckQueueSize M side with
  | some e => unfold OrderBook.ProcessLimitOrder; rw [hc]
  | none =>
    by_cases hq : qty < 1
    · unfold OrderBook.ProcessLimitOrder NewOrder; rw [hc]; simp only; rw [if_pos hq]
    · by_cases hp : price < 1
      · unfold OrderBook.ProcessLimitOrder NewOrder; rw [hc]; simp only
        rw [if_neg hq, if_pos hp]
      · exfalso
        apply herr
        rw [OrderBook.ProcessLimitOrder_ok _ _ _ _ _ _ _ hc (by omega) (by omega)]

theorem OrderBook.ProcessMarketOrder_fail (M : Int) (ob : OrderBook) (id : UUID) (now : Time)
    (side : Side) (qty : Int)
    (herr : (ob.ProcessMarketOrder M id now side qty).1.2 ≠ none) :
    (ob.ProcessMarketOrder M id now side qty).2 = ob := by
  cases hc : ob.CheckQueueSize M side with
  | some e => unfold OrderBook.ProcessMarketOrder; rw [hc]
  | none =>
    by_cases hq : qty < 1
    · unfold OrderBook.ProcessMarketOrder NewOrder; rw [hc]; simp only; rw [if_pos hq]
    · exfalso
      apply herr
      rw [OrderBook.ProcessMarketOrder_ok _ _ _ _ _ _ hc (by omega)]

/-- A call either passes validation and runs `process` on the new order, or returns an
error and leaves the book alone. -/
theorem OrderBook.submit_cases (M : Int) (ob : OrderBook) (r : Request) :
    ((ob.submit M r).1.2 = none ∧ (ob.submit M r).2 = (ob.process r.order).2 ∧
      1 ≤ r.order.Qty) ∨
    ((ob.submit M r).1.2 ≠ none ∧ (ob.submit M r).2 = ob) := by
  cases r with
  | limit id now side price qty =>
    by_cases herr : (ob.ProcessLimitOrder M id now side price qty).1.2 = none
    · left
      obtain ⟨hq, -, -, heq⟩ := OrderBook.ProcessLimitOrder_ok2 _ _ _ _ _ _ _ herr
      exact ⟨herr, by simp only [OrderBook.submit]; rw [heq]; rfl, hq⟩
    · right
      exact ⟨herr, OrderBook.ProcessLimitOrder_fail _ _ _ _ _ _ _ herr⟩
  | market id now side qty =>
    by_cases herr : (ob.ProcessMarketOrder M id now side qty).1.2 = none
    · left
      obtain ⟨hq, -, heq⟩ := OrderBook.ProcessMarketOrder_ok2 _ _ _ _ _ _ herr
      exact ⟨herr, by simp only [OrderBook.submit]; rw [heq]; rfl, hq⟩
    · right
      exact ⟨herr, OrderBook.ProcessMarketOrder_fail _ _ _ _ _ _ herr⟩

/-- Consecutive calls seen from one identifier `x` that none of them creates: the Done
quantity under `x` grows by the quantities filled in the crossings of orders under `x`. -/
theorem OrderBook.submitAll_fills (x : UUID) (M : Int) (rs : List Request) (ob : OrderBook)
    (hrs : ∀ r ∈ rs, r.order.ID ≠ x)
    (hInv : ∀ y ∈ ob.resting, y.ID = x → 1 ≤ y.Qty) :
    DoneMap.qty (ob.submitAll M rs).2.Done x.String =
      DoneMap.qty ob.Done x.String +
        (((crossingsAll M ob rs).filter (fun c => decide (c.popID = x))).map
          Crossing.filled).sum ∧
    ((ob.Done.get? x.String ≠ none ∨
        (crossingsAll M ob rs).filter (fun c => decide (c.popID = x)) ≠ []) →
      (ob.submitAll M rs).2.Done.get? x.String ≠ none) := by
  induction rs generalizing ob with
  | nil => simp [OrderBook.submitAll, OrderBook.crossingsAll]
  | cons r rs ih =>
    have hr := hrs r (List.mem_cons_self _ _)
    have hrs2 : ∀ r ∈ rs, r.order.ID ≠ x := fun r h => hrs r (List.mem_cons_of_mem _ h)
    simp only [OrderBook.submitAll, OrderBook.crossingsAll]
    rcases OrderBook.submit_cases M ob r with ⟨h1, h2, -⟩ | ⟨h1, h2⟩
    · obtain ⟨p1, p2, p3⟩ := OrderBook.process_fills x ob r.order hr hInv
      rw [← h2] at p1 p2 p3
      obtain ⟨i1, i2⟩ := ih (ob.submit M r).2 hrs2 p1
      rw [if_pos h1]
      constructor
      · rw [i1, p2]
        simp only [List.filter_append, List.map_append, List.sum_append]
        omega
      · intro hne
        apply i2
        rcases hne with e | e
        · exact Or.inl (p3 (Or.inl e))
        · rw [List.filter_append] at e
          by_cases h0 : (ob.crossings r.order).filter (fun c => decide (c.popID = x)) = []
          · rw [h0, List.nil_append] at e
            exact Or.inr e
          · exact Or.inl (p3 (Or.inr h0))
    · rw [if_neg h1, h2]
      simpa using ih ob hrs2 hInv

/-! ## The quantity exchange -/

theorem OrderBook.exchangeQty_snd (a b : Int) : (exchangeQty a b).2 = b - min a b := by
  unfold OrderBook.exchangeQty
  split
  · next h => simp [h]
  · split
    · next h1 h2 => simp only; rw [min_eq_right (by omega)]; omega
    · next h1 h2 => simp only; rw [min_eq_left (by omega)]

/-! ## heap.up restores the heap order; heap.Push and heap.Pop keep it -/

/-- The loop of `heap.up` restores the heap order when only the edge above the position
it starts from may be out of order. -/
theorem heap.upLoop_heap (fuel : Nat) (h : Orders) (j : Nat) (hu : h.uniform)
    (hj : j < h.length) (hfuel : j ≤ fuel)
    (h1 : ∀ c, c < h.length → 0 < c → c ≠ j → h.Less c ((c - 1) / 2) = false)
    (h2 : 0 < j → ∀ c, c < h.length → 0 < c → (c - 1) / 2 = j →
      h.Less c ((j - 1) / 2) = false) :
    (heap.upLoop fuel h j).1.isHeap := by
  induction fuel generalizing h j with
  | zero =>
    have hj0 : j = 0 := by omega
    intro c hc hc0 _
    exact h1 c hc hc0 (by omega)
  | succ k ih =>
    unfold heap.upLoop
    simp only
    by_cases hstop : (j - 1) / 2 = j ∨ (!h.Less j ((j - 1) / 2)) = true
    · rw [if_pos hstop]
      intro c hc hc0 _
      by_cases hcj : c = j
      · rcases hstop with e | e
        · omega
        · rw [hcj]
          simpa using e
      · exact h1 c hc hc0 hcj
    · rw [if_neg hstop]
      have hji : (j - 1) / 2 ≠ j := fun e => hstop (Or.inl e)
      have hj0 : 0 < j := by omega
      have hless : h.Less j ((j - 1) / 2) = true := by
        cases hl : h.Less j ((j - 1) / 2) with
        | true => rfl
        | false => exact absurd (Or.inr (by simp [hl])) hstop
      have hil : (j - 1) / 2 < h.length := by omega
      have hnij : h.Less ((j - 1) / 2) j = false := Orders.Less_asymm h hu _ _ hless
      have hlen : (h.Swap ((j - 1) / 2) j).length = h.length := Orders.Swap_length _ _ _
      apply ih
      · exact Orders.uniform_of_perm h _ (Orders.Swap_perm h _ j) hu
      · rw [hlen]; exact hil
      · omega
      · intro c hc hc0 hci
        rw [hlen] at hc
        rw [Orders.Less_Swap h _ j _ _ hil hj]
        by_cases hcj : c = j
        · have e1 : swapIdx ((j - 1) / 2) j c = (j - 1) / 2 := by
            simp only [swapIdx]; rw [if_neg hci, if_pos hcj]
          have e2 : swapIdx ((j - 1) / 2) j ((c - 1) / 2) = j := by
            simp only [swapIdx]; rw [if_pos (by rw [hcj])]
          rw [e1, e2]; exact hnij
        · have e1 : swapIdx ((j - 1) / 2) j c = c := by
            simp only [swapIdx]; rw [if_neg hci, if_neg hcj]
          rw [e1]
          by_cases hpi : (c - 1) / 2 = (j - 1) / 2
          · have e2 : swapIdx ((j - 1) / 2) j ((c - 1) / 2) = j := by
              simp only [swapIdx]; rw [if_pos hpi]
            rw [e2]
            have := h1 c hc hc0 hcj
            rw [hpi] at this
            exact Orders.Less_trans_false h hu c ((j - 1) / 2) j hil this hnij
          · by_cases hpj : (c - 1) / 2 = j
            · have e2 : swapIdx ((j - 1) / 2) j ((c - 1) / 2) = (j - 1) / 2 := by
                simp only [swapIdx]; rw [if_neg hpi, if_pos hpj]
              rw [e2]
              exact h2 hj0 c hc hc0 hpj
            · have e2 : swapIdx ((j - 1) / 2) j ((c - 1) / 2) = (c - 1) / 2 := by
                simp only [swapIdx]; rw [if_neg hpi, if_neg hpj]
              rw [e2]
              exact h1 c hc hc0 hcj
      · intro hi0 c hc hc0 hcp
        rw [hlen] at hc
        rw [Orders.Less_Swap h _ j _ _ hil hj]
        have e2 : swapIdx ((j - 1) / 2) j (((j - 1) / 2 - 1) / 2) = ((j - 1) / 2 - 1) / 2 := by
          simp only [swapIdx]; rw [if_neg (by omega), if_neg (by omega)]
        rw [e2]
        have hpar := h1 ((j - 1) / 2) hil hi0 hji
        by_cases hcj : c = j
        · have e1 : swapIdx ((j - 1) / 2) j c = (j - 1) / 2 := by
            simp only [swapIdx]; rw [if_neg (by omega), if_pos hcj]
          rw [e1]; exact hpar
        · have e1 : swapIdx ((j - 1) / 2) j c = c := by
            simp only [swapIdx]; rw [if_neg (by omega), if_neg hcj]
          rw [e1]
          have := h1 c hc hc0 hcj
          rw [hcp] at this
          exact Orders.Less_trans_false h hu c ((j - 1) / 2) _ hil this hpar

theorem Orders.Less_append_left (h : Orders) (x : Order) (a b : Nat) (ha : a < h.length)
    (hb : b < h.length) : (h ++ [x]).Less a b = h.Less a b := by
  unfold Orders.Less
  rw [List.getElem?_append_left ha, List.getElem?_append_left hb]

/-- The function `heap.Push` keeps the heap order. -/
theorem heap.Push_isHeap (h : Orders) (x : Order) (hu : Orders.uniform (x :: h)) (hh : h.isHeap) :
    (heap.Push h x).isHeap := by
  unfold heap.Push heap.PushAt heap.up
  simp only
  have hlen : (h.Push x).length = h.length + 1 := Orders.slicePush_length h x
  have hu1 : (h.Push x).uniform := by
    apply Orders.uniform_of_perm (x :: h)
    · rw [Orders.slicePush_strip]
      simp only [List.map_cons]
      exact List.perm_append_singleton _ _
    · exact hu
  simp only [Orders.Len]
  rw [hlen]
  apply heap.upLoop_heap _ _ _ hu1 (by omega) (by omega)
  · intro c hc hc0 hcj
    rw [hlen] at hc
    unfold Orders.Push
    rw [Orders.Less_append_left _ _ _ _ (by omega) (by omega)]
    exact hh c (by omega) hc0 (Nat.zero_le _)
  · intro _ c hc hc0 hcp
    rw [hlen] at hc
    omega

theorem Orders.Less_dropLast (h : Orders) (a b : Nat) (ha : a < h.length - 1)
    (hb : b < h.length - 1) : Orders.Less h.dropLast a b = h.Less a b := by
  unfold Orders.Less
  rw [List.getElem?_dropLast, List.getElem?_dropLast, if_pos ha, if_pos hb]

/-- The function `heap.Pop` keeps the heap order. -/
theorem heap.Pop_isHeap (h : Orders) (x : Order) (q : Orders) (hu : h.uniform) (hh : h.isHeap)
    (hp : heap.Pop h = some (x, q)) : q.isHeap := by
  unfold heap.Pop at hp
  split at hp
  · cases hp
  · next hl =>
    simp only [Orders.Len] at hl hp
    have hlen : 0 < h.length := by omega
    have hnl : h.length - 1 < h.length := by omega
    unfold Orders.Pop at hp
    split at hp
    · cases hp
    · next y hy =>
      simp only [Option.some.injEq, Prod.mk.injEq] at hp
      obtain ⟨-, hq⟩ := hp
      have hdl : ((heap.down (h.Swap 0 (h.length - 1)) 0 (h.length - 1)).1).length = h.length := by
        rw [heap.down_length, Orders.Swap_length]
      have hheap : (heap.down (h.Swap 0 (h.length - 1)) 0 (h.length - 1)).1.heapFrom 0
          (h.length - 1) := by
        unfold heap.down
        simp only
        apply heap.downLoop_heap
        · exact Orders.uniform_of_perm h _ (Orders.Swap_perm h _ _) hu
        · rw [Orders.Swap_length]; omega
        · omega
        · exact Nat.le_refl _
        · intro c hc hc0 _ hcp
          rw [Orders.Less_Swap h 0 (h.length - 1) _ _ hlen hnl]
          have e1 : swapIdx 0 (h.length - 1) c = c := by
            simp only [swapIdx]; rw [if_neg (by omega), if_neg (by omega)]
          have e2 : swapIdx 0 (h.length - 1) ((c - 1) / 2) = (c - 1) / 2 := by
            simp only [swapIdx]; rw [if_neg hcp, if_neg (by omega)]
          rw [e1, e2]
          exact hh c (by omega) hc0 (Nat.zero_le _)
        · intro h0; omega
      rw [← hq]
      intro c hc hc0 _
      rw [List.length_dropLast, hdl] at hc
      rw [Orders.Less_dropLast _ c ((c - 1) / 2) (by rw [hdl]; exact hc) (by rw [hdl]; omega)]
      exact hheap c hc hc0 (Nat.zero_le _)


/-! ## The queues keep the orders of their side and the heap order -/

theorem heap.PushAt_sides (P : Side → Prop) (h : Orders) (o : Order)
    (hh : ∀ x ∈ h, P x.Side) (ho : P o.Side) : ∀ x ∈ (heap.PushAt h o).1, P x.Side := by
  intro x hx
  have hm : x.strip ∈ o.strip :: h.map Order.strip :=
    (heap.PushAt_perm h o).subset (List.mem_map.2 ⟨x, hx, rfl⟩)
  rcases List.mem_cons.1 hm with e | hm
  · rw [(Order.strip_ID _ _ e).2.2.2.2.1]; exact ho
  · obtain ⟨y, hy, e⟩ := List.mem_map.1 hm
    rw [← (Order.strip_ID _ _ e).2.2.2.2.1]; exact hh y hy

theorem heap.Pop_sides (P : Side → Prop) (h : Orders) (x : Order) (q : Orders)
    (hh : ∀ y ∈ h, P y.Side) (hp : heap.Pop h = some (x, q)) :
    P x.Side ∧ ∀ y ∈ q, P y.Side := by
  have hperm := (heap.Pop_eq_some h x q hp).2.2
  have key : ∀ y : Order, y.strip ∈ x.strip :: q.map Order.strip → P y.Side := by
    intro y hy
    obtain ⟨z, hz, e⟩ := List.mem_map.1 (hperm.subset hy)
    rw [← (Order.strip_ID _ _ e).2.2.2.2.1]; exact hh z hz
  refine ⟨key x (List.mem_cons_self _ _), ?_⟩
  intro y hy
  exact key y (List.mem_cons_of_mem _ (List.mem_map.2 ⟨y, hy, rfl⟩))

theorem Orders.uniform_of_buy (h : Orders) (hh : ∀ x ∈ h, x.Side = Buy) : h.uniform := by
  intro x hx y hy
  simp [hh x hx, hh y hy]

theorem Orders.uniform_of_not_buy (h : Orders) (hh : ∀ x ∈ h, x.Side ≠ Buy) : h.uniform := by
  intro x hx y hy
  simp [hh x hx, hh y hy]

theorem OrderBook.PushOrderAt_wf (ob : OrderBook) (o : Order) (hs : ob.sidesOk)
    (hh : ob.heapsOk) : (ob.PushOrderAt o).1.sidesOk ∧ (ob.PushOrderAt o).1.heapsOk := by
  unfold OrderBook.PushOrderAt
  split
  · next hb =>
    refine ⟨⟨heap.PushAt_sides (fun s => s = Buy) _ _ hs.1 hb, hs.2⟩, ⟨?_, hh.2⟩⟩
    refine heap.Push_isHeap ob.Bids o (Orders.uniform_of_buy _ ?_) hh.1
    intro x hx
    rcases List.mem_cons.1 hx with e | hx
    · rw [e]; exact hb
    · exact hs.1 x hx
  · next hb =>
    refine ⟨⟨hs.1, heap.PushAt_sides (fun s => s ≠ Buy) _ _ hs.2 hb⟩, ⟨hh.1, ?_⟩⟩
    refine heap.Push_isHeap ob.Asks o (Orders.uniform_of_not_buy _ ?_) hh.2
    intro x hx
    rcases List.mem_cons.1 hx with e | hx
    · rw [e]; exact hb
    · exact hs.2 x hx

theorem OrderBook.PushOrderAt_lengths (ob : OrderBook) (o : Order) (side : Side)
    (ho : o.Side = Buy ↔ side = Buy) :
    ((ob.PushOrderAt o).1.ownQ side).length = (ob.ownQ side).length + 1 ∧
    (ob.PushOrderAt o).1.oppQ side = ob.oppQ side := by
  unfold OrderBook.PushOrderAt OrderBook.ownQ OrderBook.oppQ
  by_cases hb : side = Buy
  · rw [if_pos (ho.2 hb)]; simp only [if_pos hb]
    exact ⟨heap.PushAt_length _ _, trivial⟩
  · rw [if_neg (fun h => hb (ho.1 h))]; simp only [if_neg hb]
    exact ⟨heap.PushAt_length _ _, trivial⟩

theorem OrderBook.PushOrderAt_opp (ob : OrderBook) (o : Order) (side : Side)
    (ho : ¬ (o.Side = Buy ↔ side = Buy)) :
    ((ob.PushOrderAt o).1.oppQ side).length = (ob.oppQ side).length + 1 ∧
    (ob.PushOrderAt o).1.ownQ side = ob.ownQ side := by
  unfold OrderBook.PushOrderAt OrderBook.ownQ OrderBook.oppQ
  by_cases hb : side = Buy
  · have : ¬ o.Side = Buy := fun h => ho ⟨fun _ => hb, fun _ => h⟩
    rw [if_neg this]; simp only [if_pos hb]
    exact ⟨heap.PushAt_length _ _, trivial⟩
  · have : o.Side = Buy := by
      by_contra h; exact ho ⟨fun h2 => absurd h2 h, fun h2 => absurd h2 hb⟩
    rw [if_pos this]; simp only [if_neg hb]
    exact ⟨heap.PushAt_length _ _, trivial⟩

theorem OrderBook.PopBySide_wf (ob : OrderBook) (side : Side) (pop : Order) (ob1 : OrderBook)
    (hs : ob.sidesOk) (hh : ob.heapsOk) (hp : ob.PopBySide side = some (pop, ob1)) :
    ob1.sidesOk ∧ ob1.heapsOk ∧ ¬ (pop.Side = Buy ↔ side = Buy) ∧
    ob1.ownQ side = ob.ownQ side ∧ (ob1.oppQ side).length + 1 = (ob.oppQ side).length ∧
    (∃ r, (ob.oppQ side)[0]? = some r ∧ pop = { r with idx := -1 }) := by
  unfold OrderBook.PopBySide at hp
  unfold OrderBook.ownQ OrderBook.oppQ
  split at hp
  · next hb =>
    simp only [if_pos hb]
    split at hp
    · cases hp
    · next x q hq =>
      cases hp
      obtain ⟨h1, h2⟩ := heap.Pop_sides (fun s => s ≠ Buy) _ _ _ hs.2 hq
      refine ⟨⟨hs.1, h2⟩, ⟨hh.1, heap.Pop_isHeap _ _ _ (Orders.uniform_of_not_buy _ hs.2) hh.2 hq⟩,
        ?_, rfl, (heap.Pop_eq_some _ _ _ hq).1, heap.Pop_root _ _ _ hq⟩
      intro h; exact h1 (h.2 hb)
  · next hb =>
    simp only [if_neg hb]
    split at hp
    · cases hp
    · next x q hq =>
      cases hp
      obtain ⟨h1, h2⟩ := heap.Pop_sides (fun s => s = Buy) _ _ _ hs.1 hq
      refine ⟨⟨h2, hs.2⟩, ⟨heap.Pop_isHeap _ _ _ (Orders.uniform_of_buy _ hs.1) hh.1 hq, hh.2⟩,
        ?_, rfl, (heap.Pop_eq_some _ _ _ hq).1, heap.Pop_root _ _ _ hq⟩
      intro h; exact hb (h.1 h1)


/-- The facts that the loop of `Trade` keeps about the queues, for an incoming order of
side `side` on the book `ob0`. -/
theorem OrderBook.tradeBody_wf (side : Side) (ob0 : OrderBook) (s : TradeState) (pop : Order)
    (ob1 : OrderBook) (hp : s.ob.PopBySide s.order.Side = some (pop, ob1))
    (hK : s.order.Side = side ∧ s.ob.sidesOk ∧ s.ob.heapsOk ∧
      (∀ x ∈ s.skips, ¬ (x.Side = Buy ↔ side = Buy)) ∧ s.ob.ownQ side = ob0.ownQ side ∧
      (s.ob.oppQ side).length + s.skips.length ≤ (ob0.oppQ side).length) :
    (tradeBody s pop ob1).order.Side = side ∧ (tradeBody s pop ob1).ob.sidesOk ∧
    (tradeBody s pop ob1).ob.heapsOk ∧
    (∀ x ∈ (tradeBody s pop ob1).skips, ¬ (x.Side = Buy ↔ side = Buy)) ∧
    (tradeBody s pop ob1).ob.ownQ side = ob0.ownQ side ∧
    ((tradeBody s pop ob1).ob.oppQ side).length + (tradeBody s pop ob1).skips.length ≤
      (ob0.oppQ side).length := by
  obtain ⟨hside, hs, hh, hsk, hown, hlen⟩ := hK
  rw [hside] at hp
  obtain ⟨w1, w2, w3, w4, w5, -⟩ := OrderBook.PopBySide_wf _ _ _ _ hs hh hp
  have hps := (OrderBook.resolvePrice_snd s.order pop).2.1
  refine ⟨((OrderBook.tradeBody_order s pop ob1).2.1).trans hside, ?_⟩
  unfold OrderBook.tradeBody
  simp only
  split
  · unfold OrderBook.tradeCross OrderBook.pushBack
    simp only
    split
    · simp only
      have hopp : ¬ (({ (resolvePrice s.order pop).2 with
          Qty := (exchangeQty (resolvePrice s.order pop).2.Qty (resolvePrice s.order pop).1.Qty).1 } :
          Order).Side = Buy ↔ side = Buy) := by
        simp only [hps]; exact w3
      obtain ⟨p1, p2⟩ := OrderBook.PushOrderAt_wf ob1 _ w1 w2
      obtain ⟨p3, p4⟩ := OrderBook.PushOrderAt_opp ob1 _ side hopp
      refine ⟨p1, p2, hsk, p4.trans (w4.trans hown), ?_⟩
      rw [p3]; omega
    · simp only
      refine ⟨w1, w2, hsk, w4.trans hown, ?_⟩
      omega
  · simp only
    refine ⟨w1, w2, ?_, w4.trans hown, ?_⟩
    · intro x hx
      rcases List.mem_append.1 hx with hx | hx
      · exact hsk x hx
      · rw [List.mem_singleton.1 hx, hps]; exact w3
    · rw [List.length_append, List.length_singleton]; omega

theorem OrderBook.pushAll_wf (side : Side) (skips : List Order) (b : OrderBook)
    (hs : b.sidesOk) (hh : b.heapsOk) (hsk : ∀ x ∈ skips, ¬ (x.Side = Buy ↔ side = Buy)) :
    (skips.foldl (fun b skip => b.PushOrder skip) b).sidesOk ∧
    (skips.foldl (fun b skip => b.PushOrder skip) b).heapsOk ∧
    (skips.foldl (fun b skip => b.PushOrder skip) b).ownQ side = b.ownQ side ∧
    ((skips.foldl (fun b skip => b.PushOrder skip) b).oppQ side).length =
      (b.oppQ side).length + skips.length := by
  induction skips generalizing b with
  | nil => exact ⟨hs, hh, rfl, rfl⟩
  | cons x xs ih =>
    simp only [List.foldl_cons]
    obtain ⟨p1, p2⟩ := OrderBook.PushOrderAt_wf b x hs hh
    obtain ⟨p3, p4⟩ := OrderBook.PushOrderAt_opp b x side (hsk x (List.mem_cons_self _ _))
    obtain ⟨i1, i2, i3, i4⟩ := ih (b.PushOrder x) p1 p2
      (fun y hy => hsk y (List.mem_cons_of_mem _ hy))
    refine ⟨i1, i2, i3.trans p4, ?_⟩
    rw [i4]
    unfold OrderBook.PushOrder
    rw [p3, List.length_cons]; omega

theorem OrderBook.Trade_wf (ob : OrderBook) (o : Order) (hs : ob.sidesOk) (hh : ob.heapsOk) :
    (ob.Trade o).2.2.sidesOk ∧ (ob.Trade o).2.2.heapsOk ∧
    (ob.Trade o).2.2.ownQ o.Side = ob.ownQ o.Side ∧
    ((ob.Trade o).2.2.oppQ o.Side).length ≤ (ob.oppQ o.Side).length := by
  have hK := OrderBook.tradeLoop_invariant
    (fun t => t.order.Side = o.Side ∧ t.ob.sidesOk ∧ t.ob.heapsOk ∧
      (∀ x ∈ t.skips, ¬ (x.Side = Buy ↔ o.Side = Buy)) ∧ t.ob.ownQ o.Side = ob.ownQ o.Side ∧
      (t.ob.oppQ o.Side).length + t.skips.length ≤ (ob.oppQ o.Side).length)
    (fun s pop ob1 hI _ _ hp => OrderBook.tradeBody_wf o.Side ob s pop ob1 hp hI)
    (ob.GetSideQueueLen o.Side) { ob := ob, order := o, skips := [], completes := [] }
    (And.intro rfl (And.intro hs (And.intro hh (And.intro
      (fun x hx => absurd hx (List.not_mem_nil x)) (And.intro rfl (Nat.le_refl _))))))
  obtain ⟨-, k2, k3, k4, k5, k6⟩ := hK
  obtain ⟨a1, a2, a3, a4⟩ := OrderBook.pushAll_wf o.Side _ _ k2 k3 k4
  unfold OrderBook.Trade
  split
  · exact ⟨hs, hh, rfl, le_refl _⟩
  · simp only
    refine ⟨a1, a2, a3.trans k5, ?_⟩
    show (OrderBook.oppQ (List.foldl (fun (b : OrderBook) skip => b.PushOrder skip) _ _) o.Side).length ≤ _
    rw [a4]; exact k6

theorem OrderBook.process_wf (ob : OrderBook) (o : Order) (hs : ob.sidesOk) (hh : ob.heapsOk) :
    (ob.process o).2.sidesOk ∧ (ob.process o).2.heapsOk ∧
    ((ob.process o).2.ownQ o.Side).length ≤ (ob.ownQ o.Side).length + 1 ∧
    ((ob.process o).2.oppQ o.Side).length ≤ (ob.oppQ o.Side).length := by
  obtain ⟨t1, t2, t3, t4⟩ := OrderBook.Trade_wf ob o hs hh
  rw [OrderBook.process_eq]
  simp only
  split
  · refine ⟨t1, t2, ?_, t4⟩
    show ((ob.Trade o).2.2.ownQ o.Side).length ≤ _
    rw [t3]; omega
  · obtain ⟨p1, p2⟩ := OrderBook.PushOrderAt_wf (ob.Trade o).2.2 (ob.Trade o).2.1 t1 t2
    obtain ⟨p3, p4⟩ := OrderBook.PushOrderAt_lengths (ob.Trade o).2.2 (ob.Trade o).2.1 o.Side
      (by rw [(OrderBook.Trade_order ob o).2.1])
    refine ⟨p1, p2, ?_, ?_⟩
    · show (((ob.Trade o).2.2.PushOrderAt (ob.Trade o).2.1).1.ownQ o.Side).length ≤ _
      rw [p3, t3]
    · show (((ob.Trade o).2.2.PushOrderAt (ob.Trade o).2.1).1.oppQ o.Side).length ≤ _
      rw [p4]; exact t4


/-! ## Consecutive calls keep the queues well formed -/

theorem Orders.root_best (h : Orders) (hu : h.uniform) (hh : h.isHeap) (top b : Order)
    (ht : h[0]? = some top) (hb : b ∈ h) :
    (b.Side = Buy → b.Price ≤ top.Price) ∧ (b.Side ≠ Buy → top.Price ≤ b.Price) ∧
    (b.Price = top.Price → top.Time ≤ b.Time) := by
  obtain ⟨c, hc⟩ := List.mem_iff_getElem?.1 hb
  have hcl : c < h.length := (List.getElem?_eq_some.1 hc).1
  have hless := Orders.heapFrom_root h hu _ (Nat.le_refl _) hh c hcl
  obtain ⟨p1, p2⟩ := Orders.Less_false_price h c b top hc ht hless
  refine ⟨p1, p2, ?_⟩
  intro he
  unfold Orders.Less at hless
  rw [hc, ht] at hless
  simp only [Order.less] at hless
  rw [if_pos he] at hless
  simp only [decide_eq_false_iff_not] at hless
  omega

theorem OrderBook.submit_wf (M : Int) (ob : OrderBook) (r : Request) (hs : ob.sidesOk)
    (hh : ob.heapsOk) : (ob.submit M r).2.sidesOk ∧ (ob.submit M r).2.heapsOk := by
  rcases OrderBook.submit_cases M ob r with ⟨-, h2, -⟩ | ⟨-, h2⟩
  · rw [h2]
    exact ⟨(OrderBook.process_wf ob r.order hs hh).1, (OrderBook.process_wf ob r.order hs hh).2.1⟩
  · rw [h2]; exact ⟨hs, hh⟩

theorem OrderBook.submitAll_wf (M : Int) (rs : List Request) (ob : OrderBook) (hs : ob.sidesOk)
    (hh : ob.heapsOk) : (ob.submitAll M rs).2.sidesOk ∧ (ob.submitAll M rs).2.heapsOk := by
  induction rs generalizing ob with
  | nil => exact ⟨hs, hh⟩
  | cons r rs ih =>
    unfold OrderBook.submitAll
    simp only
    exact ih _ (OrderBook.submit_wf M ob r hs hh).1 (OrderBook.submit_wf M ob r hs hh).2

theorem emptyBook_wf : emptyBook.sidesOk ∧ emptyBook.heapsOk := by
  refine ⟨⟨fun x hx => absurd hx (List.not_mem_nil x), fun x hx => absurd hx (List.not_mem_nil x)⟩,
    ?_, ?_⟩
  · intro c hc; exact absurd hc (Nat.not_lt_zero c)
  · intro c hc; exact absurd hc (Nat.not_lt_zero c)

theorem OrderBook.submit_check (M : Int) (ob : OrderBook) (r : Request)
    (h : (ob.submit M r).1.2 = none) : ob.CheckQueueSize M r.order.Side = none := by
  cases r with
  | limit id now side price qty =>
    exact (OrderBook.ProcessLimitOrder_ok2 M ob id now side price qty h).2.2.1
  | market id now side qty =>
    exact (OrderBook.ProcessMarketOrder_ok2 M ob id now side qty h).2.1

theorem OrderBook.submit_lengths (M : Int) (ob : OrderBook) (r : Request)
    (hside : r.order.Side = Buy ∨ r.order.Side = Sell) (hs : ob.sidesOk) (hh : ob.heapsOk)
    (hl : (ob.Bids.length : Int) ≤ M ∧ (ob.Asks.length : Int) ≤ M) :
    ((ob.submit M r).2.Bids.length : Int) ≤ M ∧ ((ob.submit M r).2.Asks.length : Int) ≤ M := by
  rcases OrderBook.submit_cases M ob r with ⟨h1, h2, -⟩ | ⟨-, h2⟩
  · have hc := OrderBook.submit_check M ob r h1
    obtain ⟨-, -, p3, p4⟩ := OrderBook.process_wf ob r.order hs hh
    rw [h2]
    unfold OrderBook.CheckQueueSize OrderBook.GetBids OrderBook.GetAsks at hc
    unfold OrderBook.ownQ at p3
    unfold OrderBook.oppQ at p4
    rcases hside with hb | hsell
    · simp only [if_pos hb] at hc p3 p4
      split at hc
      · cases hc
      · omega
    · have hnb : r.order.Side ≠ Buy := by rw [hsell]; decide
      simp only [if_neg hnb, if_pos hsell] at hc p3 p4
      split at hc
      · cases hc
      · omega
  · rw [h2]; exact hl

/-! ## The counterparties come from the opposite queue -/

theorem OrderBook.PopBySide_opp (P : UUID → Prop) (ob : OrderBook) (side : Side) (pop : Order)
    (ob1 : OrderBook) (hp : ob.PopBySide side = some (pop, ob1))
    (h : ∀ x ∈ ob.oppQ side, P x.ID) : P pop.ID ∧ ∀ x ∈ ob1.oppQ side, P x.ID := by
  obtain ⟨-, -, -, -, -, hb, hn⟩ := OrderBook.PopBySide_some ob side pop ob1 hp
  have key : ∀ (q1 q : Orders), (pop.strip :: q1.map Order.strip).Perm (q.map Order.strip) →
      (∀ x ∈ q, P x.ID) → P pop.ID ∧ ∀ x ∈ q1, P x.ID := by
    intro q1 q hperm hq
    have k2 : ∀ y : Order, y.strip ∈ pop.strip :: q1.map Order.strip → P y.ID := by
      intro y hy
      obtain ⟨z, hz, e⟩ := List.mem_map.1 (hperm.subset hy)
      rw [← (Order.strip_ID _ _ e).1]; exact hq z hz
    exact ⟨k2 pop (List.mem_cons_self _ _),
      fun x hx => k2 x (List.mem_cons_of_mem _ (List.mem_map.2 ⟨x, hx, rfl⟩))⟩
  unfold OrderBook.oppQ at h ⊢
  by_cases hs : side = Buy
  · simp only [if_pos hs] at h ⊢
    exact key _ _ (hb hs).2 h
  · simp only [if_neg hs] at h ⊢
    exact key _ _ (hn hs).2 h

theorem OrderBook.PushOrderAt_opp_ids (P : UUID → Prop) (ob : OrderBook) (p : Order)
    (side : Side) (hp : P p.ID) (h : ∀ x ∈ ob.oppQ side, P x.ID) :
    ∀ x ∈ (ob.PushOrderAt p).1.oppQ side, P x.ID := by
  obtain ⟨hb, hn⟩ := OrderBook.PushOrderAt_queues ob p
  have key : ∀ (q1 q : Orders), (q1.map Order.strip).Perm (p.strip :: q.map Order.strip) →
      (∀ x ∈ q, P x.ID) → ∀ x ∈ q1, P x.ID := by
    intro q1 q hperm hq x hx
    rcases List.mem_cons.1 (hperm.subset (List.mem_map.2 ⟨x, hx, rfl⟩)) with e | hm
    · rw [(Order.strip_ID _ _ e).1]; exact hp
    · obtain ⟨z, hz, e⟩ := List.mem_map.1 hm
      rw [← (Order.strip_ID _ _ e).1]; exact hq z hz
  unfold OrderBook.oppQ at h ⊢
  by_cases hps : p.Side = Buy
  · obtain ⟨h1, -, h3⟩ := hb hps
    by_cases hs : side = Buy
    · simp only [if_pos hs] at h ⊢
      rw [h3]; exact h
    · simp only [if_neg hs] at h ⊢
      exact key _ _ h1 h
  · obtain ⟨h1, -, h3⟩ := hn hps
    by_cases hs : side = Buy
    · simp only [if_pos hs] at h ⊢
      exact key _ _ h1 h
    · simp only [if_neg hs] at h ⊢
      rw [h3]; exact h

theorem OrderBook.tradeBody_opp (P : UUID → Prop) (s : TradeState) (pop : Order)
    (ob1 : OrderBook) (hp : s.ob.PopBySide s.order.Side = some (pop, ob1))
    (h : ∀ x ∈ s.ob.oppQ s.order.Side, P x.ID) :
    P pop.ID ∧ ∀ x ∈ (tradeBody s pop ob1).ob.oppQ s.order.Side, P x.ID := by
  obtain ⟨h1, h2⟩ := OrderBook.PopBySide_opp P _ _ _ _ hp h
  refine ⟨h1, ?_⟩
  unfold OrderBook.tradeBody
  simp only
  split
  · unfold OrderBook.tradeCross OrderBook.pushBack
    simp only
    split
    · simp only
      refine OrderBook.PushOrderAt_opp_ids P ob1 _ _ ?_ h2
      show P (resolvePrice s.order pop).2.ID
      rw [(OrderBook.resolvePrice_snd s.order pop).1]; exact h1
    · exact h2
  · exact h2

theorem OrderBook.crossingLog_opp (P : UUID → Prop) (fuel : Nat) (s : TradeState)
    (h : ∀ x ∈ s.ob.oppQ s.order.Side, P x.ID) : ∀ c ∈ crossingLog fuel s, P c.popID := by
  induction fuel generalizing s with
  | zero => intro c hc; unfold OrderBook.crossingLog at hc; cases hc
  | succ n ih =>
    intro c hc
    unfold OrderBook.crossingLog at hc
    split at hc
    · split at hc
      · cases hc
      · next pop ob1 hp =>
        obtain ⟨h1, h2⟩ := OrderBook.tradeBody_opp P s pop ob1 hp h
        simp only at hc
        rcases List.mem_append.1 hc with hc | hc
        · split at hc
          · rw [List.mem_singleton.1 hc]; exact h1
          · cases hc
        · refine ih _ ?_ c hc
          rw [(OrderBook.tradeBody_order s pop ob1).2.1]; exact h2
    · cases hc

/-! ## The sum of the resting and of the recorded quantities -/

theorem sumQty_cons (x : Order) (l : List Order) : sumQty (x :: l) = x.Qty + sumQty l := by
  simp [sumQty]

theorem sumQty_app (l1 l2 : List Order) : sumQty (l1 ++ l2) = sumQty l1 + sumQty l2 := by
  simp [sumQty]

theorem sumQty_perm (l1 l2 : List Order) (h : l1.Perm l2) : sumQty l1 = sumQty l2 := by
  unfold sumQty
  exact (h.map _).sum_eq

theorem sumQty_strip (l : List Order) : sumQty (l.map Order.strip) = sumQty l := by
  induction l with
  | nil => rfl
  | cons x l ih => rw [List.map_cons, sumQty_cons, sumQty_cons, ih]; rfl

theorem OrderBook.sumQty_resting (ob : OrderBook) :
    sumQty ob.resting = sumQty ob.Bids + sumQty ob.Asks := by
  unfold OrderBook.resting
  rw [sumQty_strip, sumQty_app]

theorem OrderBook.totalQty_eq (ob : OrderBook) :
    ob.totalQty = sumQty ob.resting + ob.Done.total := by
  unfold OrderBook.totalQty
  rw [OrderBook.sumQty_resting]

theorem DoneMap.total_put (d : DoneMap) (k : String) (v : Order) :
    (d.put k v).total = d.total - DoneMap.qty d k + v.Qty := by
  induction d with
  | nil => simp [DoneMap.put, DoneMap.total, DoneMap.qty, DoneMap.get?, sumQty]
  | cons kv d ih =>
    obtain ⟨k1, w⟩ := kv
    unfold DoneMap.put DoneMap.qty DoneMap.get?
    by_cases hk : k1 = k
    · simp only [if_pos hk]
      simp only [DoneMap.total, List.map_cons, sumQty_cons]
      omega
    · simp only [if_neg hk]
      have ih2 := ih
      unfold DoneMap.qty at ih2
      simp only [DoneMap.total, List.map_cons, sumQty_cons] at ih2 ⊢
      omega

theorem OrderBook.saveOne_total (d : DoneMap) (o : Order) :
    (saveOne d o).total = d.total + o.Qty := by
  unfold OrderBook.saveOne
  simp only
  split
  · next v hv =>
    rw [DoneMap.total_put]
    unfold DoneMap.qty
    rw [hv]
    simp only
    omega
  · next hv =>
    rw [DoneMap.total_put]
    unfold DoneMap.qty
    rw [hv]
    simp only
    omega

theorem OrderBook.foldl_saveOne_total (l : List Order) (d : DoneMap) :
    (l.foldl saveOne d).total = d.total + sumQty l := by
  induction l generalizing d with
  | nil => simp [sumQty]
  | cons x l ih =>
    rw [List.foldl_cons, ih, OrderBook.saveOne_total, sumQty_cons]
    omega

theorem OrderBook.exchangeQty_fst_nonneg (a b : Int) : 0 ≤ (exchangeQty a b).1 := by
  unfold OrderBook.exchangeQty
  split_ifs <;> simp only <;> omega

theorem OrderBook.tradeBody_total (s : TradeState) (pop : Order) (ob1 : OrderBook)
    (hp : s.ob.PopBySide s.order.Side = some (pop, ob1))
    (h1 : cmp (resolvePrice s.order pop).1.Side (resolvePrice s.order pop).2.Price
        (resolvePrice s.order pop).1.Price = true → pop.Qty - min pop.Qty s.order.Qty ≠ 1) :
    sumQty (tradeBody s pop ob1).ob.resting + sumQty (tradeBody s pop ob1).skips +
        sumQty (tradeBody s pop ob1).completes =
      sumQty s.ob.resting + sumQty s.skips + sumQty s.completes := by
  have hpop : sumQty s.ob.resting = pop.Qty + sumQty ob1.resting := by
    rw [← sumQty_perm _ _ (OrderBook.PopBySide_some _ _ _ _ hp).1, sumQty_cons]; rfl
  have hq2 := (OrderBook.resolvePrice_snd s.order pop).2.2.2.2.2
  have hq1 := (OrderBook.resolvePrice_fst s.order pop).2.2.2.2.2
  unfold OrderBook.tradeBody
  simp only
  split
  · next hc =>
    have h1 := h1 hc
    unfold OrderBook.tradeCross
    simp only
    rw [hq1, hq2]
    have hfill := OrderBook.exchangeQty_fill pop.Qty s.order.Qty
    have hnn := OrderBook.exchangeQty_fst_nonneg pop.Qty s.order.Qty
    have hsnd := OrderBook.pushBack_snd ob1
      { (resolvePrice s.order pop).2 with Qty := (exchangeQty pop.Qty s.order.Qty).1 }
    have hsq : (pushBack ob1
        { (resolvePrice s.order pop).2 with Qty := (exchangeQty pop.Qty s.order.Qty).1 }).2.Qty =
        (exchangeQty pop.Qty s.order.Qty).1 := (Order.strip_ID _ _ hsnd).2.2.2.1
    have hrest : sumQty (pushBack ob1
        { (resolvePrice s.order pop).2 with Qty := (exchangeQty pop.Qty s.order.Qty).1 }).1.resting =
        (exchangeQty pop.Qty s.order.Qty).1 + sumQty ob1.resting := by
      rcases (OrderBook.pushBack_spec ob1
        { (resolvePrice s.order pop).2 with Qty := (exchangeQty pop.Qty s.order.Qty).1 }).2.2
        with ⟨-, hperm⟩ | ⟨hn, he⟩
      · rw [sumQty_perm _ _ hperm, sumQty_cons]; rfl
      · rw [he]
        simp only at hn
        omega
    rw [hrest]
    unfold OrderBook.collect
    split
    · rw [sumQty_append]
      simp only
      rw [hsq]
      omega
    · next he =>
      rw [hsq] at he
      simp only [ne_eq, not_not] at he
      omega
  · simp only
    rw [sumQty_append, hq2]
    omega

theorem OrderBook.tradeLoop_total (fuel : Nat) (s : TradeState)
    (h1 : ∀ c ∈ crossingLog fuel s, c.popQty - c.filled ≠ 1) :
    sumQty (tradeLoop fuel s).ob.resting + sumQty (tradeLoop fuel s).skips +
        sumQty (tradeLoop fuel s).completes =
      sumQty s.ob.resting + sumQty s.skips + sumQty s.completes := by
  induction fuel generalizing s with
  | zero => rfl
  | succ n ih =>
    unfold OrderBook.tradeLoop
    unfold OrderBook.crossingLog at h1
    split
    · next hc =>
      rw [if_pos hc] at h1
      split
      · rfl
      · next pop ob1 hp =>
        rw [hp] at h1
        simp only at h1
        rw [ih _ (fun c hc => h1 c (List.mem_append_right _ hc))]
        refine OrderBook.tradeBody_total s pop ob1 hp ?_
        intro hcmp
        rw [if_pos hcmp] at h1
        exact h1 _ (List.mem_append_left _ (List.mem_singleton.2 rfl))
    · rfl

theorem OrderBook.Trade_total (ob : OrderBook) (o : Order)
    (h1 : ∀ c ∈ ob.crossings o, c.popQty - c.filled ≠ 1) :
    (ob.Trade o).2.2.totalQty = ob.totalQty := by
  have hloop := OrderBook.tradeLoop_total (ob.GetSideQueueLen o.Side)
    { ob := ob, order := o, skips := [], completes := [] } h1
  have hd := (OrderBook.tradeFinal_ids (fun _ => True) ob o (fun _ _ => trivial)).2.2.2.1
  rw [OrderBook.Trade_eq, OrderBook.totalQty_eq, OrderBook.totalQty_eq]
  simp only
  rw [OrderBook.resting_save, sumQty_perm _ _ (OrderBook.pushAll_spec _ _).1, sumQty_app,
    sumQty_strip]
  unfold OrderBook.save
  simp only
  rw [OrderBook.foldl_saveOne_total, (OrderBook.pushAll_spec _ _).2.1, hd]
  unfold OrderBook.tradeCompletes OrderBook.tradeFinal
  unfold OrderBook.tradeFinal at hd
  simp only [sumQty, List.map_nil, List.sum_nil] at hloop ⊢
  omega

theorem OrderBook.process_total (ob : OrderBook) (o : Order)
    (h1 : ∀ c ∈ ob.crossings o, c.popQty - c.filled ≠ 1) :
    (ob.process o).2.totalQty =
      ob.totalQty + (if (ob.Trade o).2.1.Qty = 0 then o.Qty else (ob.Trade o).2.1.Qty) := by
  have ht := OrderBook.Trade_total ob o h1
  rw [OrderBook.process_eq]
  simp only
  split
  · rw [OrderBook.totalQty_eq, OrderBook.resting_save]
    unfold OrderBook.save
    simp only [List.foldl_cons, List.foldl_nil]
    rw [OrderBook.saveOne_total, ← ht, OrderBook.totalQty_eq]
    simp only
    omega
  · unfold OrderBook.PushOrderSync OrderBook.PushOrder
    obtain ⟨p1, p2, -⟩ := OrderBook.PushOrderAt_resting (ob.Trade o).2.2 (ob.Trade o).2.1
    rw [OrderBook.totalQty_eq, sumQty_perm _ _ p1, p2, sumQty_cons, ← ht, OrderBook.totalQty_eq]
    show (ob.Trade o).2.1.Qty + _ + _ = _
    omega

theorem OrderBook.submitAll_total (M : Int) (rs : List Request) (ob : OrderBook)
    (h1 : ∀ c ∈ crossingsAll M ob rs, c.popQty - c.filled ≠ 1) :
    (ob.submitAll M rs).2.totalQty = ob.totalQty + submitted M ob rs - unrecorded M ob rs := by
  induction rs generalizing ob with
  | nil => simp [OrderBook.submitAll, OrderBook.submitted, OrderBook.unrecorded]
  | cons r rs ih =>
    unfold OrderBook.crossingsAll at h1
    unfold OrderBook.submitAll OrderBook.submitted OrderBook.unrecorded
    simp only
    rw [ih _ (fun c hc => h1 c (List.mem_append_right _ hc))]
    rcases OrderBook.submit_cases M ob r with ⟨e1, e2, -⟩ | ⟨e1, e2⟩
    · rw [if_pos e1] at h1
      have hp := OrderBook.process_total ob r.order (fun c hc => h1 c (List.mem_append_left _ hc))
      rw [if_pos e1]
      nth_rewrite 1 [e2]
      rw [hp]
      by_cases hz : (ob.Trade r.order).2.1.Qty = 0
      · rw [if_pos hz, if_neg (fun h => h.2 hz)]; omega
      · rw [if_neg hz, if_pos ⟨e1, hz⟩]; omega
    · rw [if_neg e1, if_neg (fun h => e1 h.1)]
      nth_rewrite 1 [e2]
      omega

/-! ## The identifiers of the resting orders and of the Done records -/

theorem Order.map_strip_ID (l : List Order) :
    (l.map Order.strip).map Order.ID = l.map Order.ID := by
  rw [List.map_map]; rfl

theorem OrderBook.resting_map_ID (ob : OrderBook) :
    ob.resting.map Order.ID = (ob.Bids ++ ob.Asks).map Order.ID :=
  Order.map_strip_ID _

theorem OrderBook.tradeBody_subperm (s : TradeState) (pop : Order) (ob1 : OrderBook)
    (hp : s.ob.PopBySide s.order.Side = some (pop, ob1)) :
    (((tradeBody s pop ob1).ob.resting ++ (tradeBody s pop ob1).skips).map Order.ID).Subperm
      ((s.ob.resting ++ s.skips).map Order.ID) := by
  have hpop : (pop.ID :: ob1.resting.map Order.ID).Perm (s.ob.resting.map Order.ID) :=
    (OrderBook.PopBySide_some _ _ _ _ hp).1.map Order.ID
  have hid := (OrderBook.resolvePrice_snd s.order pop).1
  unfold OrderBook.tradeBody
  simp only
  split
  · unfold OrderBook.tradeCross
    simp only
    rw [List.map_append, List.map_append]
    refine (List.subperm_append_right _).2 ?_
    rcases (OrderBook.pushBack_spec ob1
      { (resolvePrice s.order pop).2 with
        Qty := (exchangeQty (resolvePrice s.order pop).2.Qty (resolvePrice s.order pop).1.Qty).1 }).2.2
      with ⟨-, hperm⟩ | ⟨-, he⟩
    · have h2 := hperm.map Order.ID
      simp only [List.map_cons] at h2
      have h3 : ({ (resolvePrice s.order pop).2 with
        Qty := (exchangeQty (resolvePrice s.order pop).2.Qty
          (resolvePrice s.order pop).1.Qty).1 } : Order).strip.ID = pop.ID := hid
      rw [h3] at h2
      exact (h2.trans hpop).subperm
    · rw [he]
      exact ((List.sublist_cons_self _ _).subperm).trans hpop.subperm
  · simp only
    rw [List.map_append, List.map_append, List.map_append, List.map_cons, List.map_nil, hid]
    refine List.Perm.subperm ?_
    refine List.Perm.trans ?_ (List.Perm.append_right _ hpop)
    rw [← List.append_assoc]
    refine (List.perm_append_singleton _ _).trans ?_
    rw [List.cons_append]

theorem OrderBook.Trade_subperm (ob : OrderBook) (o : Order) :
    ((ob.Trade o).2.2.resting.map Order.ID).Subperm (ob.resting.map Order.ID) := by
  have hK := OrderBook.tradeLoop_invariant
    (fun t => ((t.ob.resting ++ t.skips).map Order.ID).Subperm (ob.resting.map Order.ID))
    (fun s pop ob1 hI _ _ hp => (OrderBook.tradeBody_subperm s pop ob1 hp).trans hI)
    (ob.GetSideQueueLen o.Side) { ob := ob, order := o, skips := [], completes := [] }
    (by simp only [List.append_nil]; exact List.Subperm.refl _)
  rw [OrderBook.Trade_eq]
  simp only
  rw [OrderBook.resting_save]
  refine List.Subperm.trans (List.Perm.subperm ?_) hK
  refine ((OrderBook.pushAll_spec _ _).1.map Order.ID).trans ?_
  rw [List.map_append, List.map_append, Order.map_strip_ID]
  exact List.perm_append_comm

theorem OrderBook.process_subperm (ob : OrderBook) (o : Order) :
    ((ob.process o).2.resting.map Order.ID).Subperm (o.ID :: ob.resting.map Order.ID) := by
  have ht := OrderBook.Trade_subperm ob o
  rw [OrderBook.process_eq]
  simp only
  split
  · rw [OrderBook.resting_save]
    exact ht.trans (List.sublist_cons_self _ _).subperm
  · unfold OrderBook.PushOrderSync OrderBook.PushOrder
    have h2 := (OrderBook.PushOrderAt_resting (ob.Trade o).2.2 (ob.Trade o).2.1).1.map Order.ID
    simp only [List.map_cons] at h2
    have h3 : (ob.Trade o).2.1.strip.ID = o.ID := (OrderBook.Trade_order ob o).1
    rw [h3] at h2
    exact h2.subperm.trans ((List.subperm_cons _).2 ht)

theorem OrderBook.submit_subperm (M : Int) (ob : OrderBook) (r : Request) :
    ((ob.submit M r).2.resting.map Order.ID).Subperm (r.order.ID :: ob.resting.map Order.ID) := by
  rcases OrderBook.submit_cases M ob r with ⟨-, h2, -⟩ | ⟨-, h2⟩
  · rw [h2]; exact OrderBook.process_subperm ob r.order
  · rw [h2]; exact (List.sublist_cons_self _ _).subperm

theorem OrderBook.submitAll_subperm (M : Int) (rs : List Request) (ob : OrderBook) :
    ((ob.submitAll M rs).2.resting.map Order.ID).Subperm
      (rs.map (fun r => r.order.ID) ++ ob.resting.map Order.ID) := by
  induction rs generalizing ob with
  | nil => exact List.Subperm.refl _
  | cons r rs ih =>
    unfold OrderBook.submitAll
    simp only
    refine (ih _).trans ?_
    refine ((List.subperm_append_left _).2 (OrderBook.submit_subperm M ob r)).trans ?_
    rw [List.map_cons, List.cons_append]
    exact List.perm_middle.subperm

theorem OrderBook.tradeLoop_completes (fuel : Nat) (s : TradeState) :
    ∀ x ∈ (tradeLoop fuel s).completes,
      x ∈ s.completes ∨ ∃ c ∈ crossingLog fuel s, c.popID = x.ID := by
  induction fuel generalizing s with
  | zero => intro x hx; exact Or.inl hx
  | succ n ih =>
    intro x hx
    unfold OrderBook.tradeLoop at hx
    unfold OrderBook.crossingLog
    split at hx
    · next hc =>
      rw [if_pos hc]
      split at hx
      · exact Or.inl hx
      · next pop ob1 hp =>
        simp only
        rcases ih _ x hx with h | ⟨c, hc, e⟩
        · unfold OrderBook.tradeBody at h
          simp only at h
          split at h
          · next hcmp =>
            rw [if_pos hcmp]
            unfold OrderBook.tradeCross OrderBook.collect at h
            simp only at h
            split at h
            · rcases List.mem_append.1 h with h | h
              · exact Or.inl h
              · right
                refine ⟨_, List.mem_append_left _ (List.mem_singleton.2 rfl), ?_⟩
                rw [List.mem_singleton.1 h]
                simp only
                have h5 := (Order.strip_ID _ _ (OrderBook.pushBack_snd ob1
                  { (resolvePrice s.order pop).2 with
                    Qty := (exchangeQty (resolvePrice s.order pop).2.Qty
                      (resolvePrice s.order pop).1.Qty).1 })).1
                rw [h5]
                exact ((OrderBook.resolvePrice_snd s.order pop).1).symm
            · exact Or.inl h
          · exact Or.inl h
        · exact Or.inr ⟨c, List.mem_append_right _ hc, e⟩
    · exact Or.inl hx

theorem OrderBook.process_Done_keys (ob : OrderBook) (o : Order) (k : String)
    (h : (ob.process o).2.Done.get? k ≠ none) :
    ob.Done.get? k ≠ none ∨ o.ID.String = k ∨ ∃ c ∈ ob.crossings o, c.popID.String = k := by
  by_cases hk : o.ID.String = k
  · exact Or.inr (Or.inl hk)
  · rw [OrderBook.process_Done_other ob o k hk] at h
    by_cases hall : ∀ x ∈ ob.tradeCompletes o, x.ID.String ≠ k
    · rw [OrderBook.foldl_saveOne_get?_ne _ _ _ hall] at h
      exact Or.inl h
    · simp only [not_forall, ne_eq, not_not] at hall
      obtain ⟨x, hx, hxk⟩ := hall
      rcases OrderBook.tradeLoop_completes _ _ x hx with h0 | ⟨c, hc, e⟩
      · cases h0
      · exact Or.inr (Or.inr ⟨c, hc, by rw [e]; exact hxk⟩)

theorem OrderBook.submitAll_overlap (M : Int) (rs : List Request) (ob : OrderBook)
    (hnd : (rs.map (fun r => r.order.ID)).Nodup)
    (hfresh : ∀ r ∈ rs, r.order.ID ∉ ob.resting.map Order.ID) :
    ∀ x ∈ (ob.submitAll M rs).2.resting,
      (ob.submitAll M rs).2.Done.get? x.ID.String ≠ none →
      ob.Done.get? x.ID.String ≠ none ∨ ∃ c ∈ crossingsAll M ob rs, c.popID = x.ID := by
  induction rs generalizing ob with
  | nil => intro x _ h; exact Or.inl h
  | cons r rs ih =>
    intro x hx hd
    unfold OrderBook.submitAll at hx hd
    simp only at hx hd
    unfold OrderBook.crossingsAll
    rw [List.map_cons, List.nodup_cons] at hnd
    obtain ⟨hr, hnd2⟩ := hnd
    have hsub := OrderBook.submit_subperm M ob r
    have hfresh2 : ∀ r2 ∈ rs, r2.order.ID ∉ (ob.submit M r).2.resting.map Order.ID := by
      intro r2 hr2 hmem
      rcases List.mem_cons.1 (hsub.subset hmem) with e | hm
      · exact hr (List.mem_map.2 ⟨r2, hr2, e⟩)
      · exact hfresh r2 (List.mem_cons_of_mem _ hr2) hm
    rcases ih (ob.submit M r).2 hnd2 hfresh2 x hx hd with hdone | ⟨c, hc, e⟩
    · rcases OrderBook.submit_cases M ob r with ⟨e1, e2, -⟩ | ⟨-, e2⟩
      · rw [e2] at hdone
        rcases OrderBook.process_Done_keys ob r.order _ hdone with h | h | ⟨c, hc, e⟩
        · exact Or.inl h
        · by_cases hD : ob.Done.get? r.order.ID.String = none
          · exfalso
            have hid : r.order.ID = x.ID := UUID.String_inj _ _ h
            have hxm : x.ID ∈ rs.map (fun r => r.order.ID) ++
                (ob.submit M r).2.resting.map Order.ID :=
              (OrderBook.submitAll_subperm M rs _).subset (List.mem_map.2 ⟨x, hx, rfl⟩)
            rw [← hid] at hxm
            rcases List.mem_append.1 hxm with hm | hm
            · exact hr hm
            · rw [e2, OrderBook.resting_map_ID] at hm
              obtain ⟨y, hy, hye⟩ := List.mem_map.1 hm
              have hQ : ∀ z ∈ ob.Bids ++ ob.Asks, z.ID ≠ r.order.ID := by
                intro z hz hze
                refine hfresh r (List.mem_cons_self _ _) ?_
                rw [OrderBook.resting_map_ID]
                exact List.mem_map.2 ⟨z, hz, hze⟩
              obtain ⟨o1, o2⟩ := OrderBook.process_outcome ob r.order hQ hD
              by_cases hz : (ob.Trade r.order).2.1.Qty = 0
              · exact (o1 hz).1 y hy hye
              · have h9 := (o2 hz).2.2
                rw [h] at h9
                exact hdone h9
          · rw [h] at hD; exact Or.inl hD
        · right
          refine ⟨c, ?_, UUID.String_inj _ _ e⟩
          rw [if_pos e1]
          exact List.mem_append_left _ hc
      · rw [e2] at hdone; exact Or.inl hdone
    · exact Or.inr ⟨c, List.mem_append_right _ hc, e⟩

/-! ## The quantities of one crossing and the length of the loop -/

theorem OrderBook.exchangeQty_min (a b : Int) :
    exchangeQty a b = (a - min a b, b - min a b) := by
  unfold OrderBook.exchangeQty
  split_ifs with h1 h2
  · rw [h1, min_self]; simp
  · rw [min_eq_right (by omega)]; simp
  · rw [min_eq_left (by omega)]; simp

theorem OrderBook.tradeBody_keep (s : TradeState) (pop : Order) (ob1 : OrderBook)
    (hq : (tradeBody s pop ob1).order.Qty ≠ 0) : (tradeBody s pop ob1).ob = ob1 := by
  unfold OrderBook.tradeBody at hq ⊢
  simp only at hq ⊢
  split
  · next hc =>
    rw [if_pos hc] at hq
    unfold OrderBook.tradeCross OrderBook.pushBack at hq ⊢
    simp only at hq ⊢
    rw [OrderBook.exchangeQty_min] at hq ⊢
    simp only at hq ⊢
    rw [if_neg]
    intro h
    rcases le_total (resolvePrice s.order pop).2.Qty (resolvePrice s.order pop).1.Qty with h2 | h2
    · rw [min_eq_left h2] at h; omega
    · rw [min_eq_right h2] at hq; omega
  · rfl

theorem OrderBook.tradeIters_le (fuel : Nat) (s : TradeState) :
    tradeIters fuel s ≤ s.ob.GetSideQueueLen s.order.Side := by
  induction fuel generalizing s with
  | zero => exact Nat.zero_le _
  | succ n ih =>
    unfold OrderBook.tradeIters
    split
    · next hc =>
      split
      · exact Nat.zero_le _
      · next pop ob1 hp =>
        have hlen := (OrderBook.PopBySide_some _ _ _ _ hp).2.2.2.2.1
        by_cases hq : (tradeBody s pop ob1).order.Qty > 0
        · have h1 := OrderBook.tradeBody_len s pop ob1 hp hq
          have h2 := ih (tradeBody s pop ob1)
          omega
        · have h3 : tradeIters n (tradeBody s pop ob1) = 0 := by
            cases n with
            | zero => rfl
            | succ m =>
              unfold OrderBook.tradeIters
              rw [if_neg (fun h => hq h.2)]
          omega
    · exact Nat.zero_le _

/-! ## The field idx follows the position -/

theorem Orders.idxOk_iff (h : Orders) :
    h.idxOk ↔ ∀ (i : Nat) (x : Order), h[i]? = some x → x.idx = (i : Int) := by
  unfold Orders.idxOk
  constructor
  · intro hh i x hx
    have hi : i < h.length := (List.getElem?_eq_some.1 hx).1
    have := hh i hi
    rw [hx] at this
    simpa using this
  · intro hh i hi
    rw [List.getElem?_eq_getElem hi]
    simp only [Option.map_some', Option.some.injEq]
    exact hh i _ (List.getElem?_eq_getElem hi)

theorem Orders.Swap_idxOk (h : Orders) (i j : Nat) (hh : h.idxOk) : (h.Swap i j).idxOk := by
  by_cases hr : i < h.length ∧ j < h.length
  · rw [Orders.idxOk_iff] at hh ⊢
    intro k x hx
    rw [Orders.getElem?_Swap h i j k hr.1 hr.2] at hx
    obtain ⟨y, hy, e⟩ := Option.map_eq_some'.1 hx
    by_cases hk : k = i ∨ k = j
    · rw [if_pos hk] at e
      rw [← e]
    · rw [if_neg hk] at e
      have : swapIdx i j k = k := by
        unfold swapIdx
        rw [if_neg (fun h => hk (Or.inl h)), if_neg (fun h => hk (Or.inr h))]
      rw [this] at hy
      rw [← e]; exact hh k y hy
  · have : h.Swap i j = h := by
      unfold Orders.Swap
      split
      · next a b ha hb =>
        exact absurd ⟨(List.getElem?_eq_some.1 ha).1, (List.getElem?_eq_some.1 hb).1⟩ hr
      · rfl
    rw [this]; exact hh

theorem heap.upLoop_idxOk (fuel : Nat) (h : Orders) (j : Nat) (hh : h.idxOk) :
    (heap.upLoop fuel h j).1.idxOk := by
  induction fuel generalizing h j with
  | zero => exact hh
  | succ n ih =>
    unfold heap.upLoop
    simp only
    split
    · exact hh
    · exact ih _ _ (Orders.Swap_idxOk h _ _ hh)

theorem heap.downLoop_idxOk (fuel : Nat) (h : Orders) (i n : Nat) (hh : h.idxOk) :
    (heap.downLoop fuel h i n).1.idxOk := by
  induction fuel generalizing h i with
  | zero => exact hh
  | succ k ih =>
    unfold heap.downLoop
    simp only
    split
    · exact hh
    · split
      · exact hh
      · exact ih _ _ (Orders.Swap_idxOk h _ _ hh)

theorem Orders.slicePush_idxOk (h : Orders) (x : Order) (hh : h.idxOk) : (h.Push x).idxOk := by
  rw [Orders.idxOk_iff] at hh ⊢
  intro k y hy
  unfold Orders.Push at hy
  by_cases hk : k < h.length
  · rw [List.getElem?_append_left hk] at hy
    exact hh k y hy
  · rw [List.getElem?_append_right (by omega)] at hy
    have hk0 : k - h.length = 0 := by
      by_contra hne
      rw [List.getElem?_eq_none (by simp; omega)] at hy
      cases hy
    rw [hk0] at hy
    simp only [List.getElem?_cons_zero, Option.some.injEq] at hy
    rw [← hy]
    simp only [Orders.Len]
    omega

theorem heap.PushAt_idxOk (h : Orders) (x : Order) (hh : h.idxOk) :
    (heap.PushAt h x).1.idxOk := by
  unfold heap.PushAt heap.up
  exact heap.upLoop_idxOk _ _ _ (Orders.slicePush_idxOk h x hh)

theorem Orders.dropLast_idxOk (h : Orders) (hh : h.idxOk) : Orders.idxOk h.dropLast := by
  rw [Orders.idxOk_iff] at hh ⊢
  intro k y hy
  have hk : k < h.dropLast.length := (List.getElem?_eq_some.1 hy).1
  rw [List.length_dropLast] at hk
  have : h.dropLast[k]? = h[k]? := by
    rw [List.dropLast_eq_take, List.getElem?_take_of_lt hk]
  rw [this] at hy
  exact hh k y hy

theorem heap.Pop_idxOk (h : Orders) (x : Order) (q : Orders) (hh : h.idxOk)
    (hp : heap.Pop h = some (x, q)) : q.idxOk ∧ x.idx = -1 := by
  refine ⟨?_, (heap.Pop_eq_some h x q hp).2.1⟩
  unfold heap.Pop at hp
  split at hp
  · cases hp
  · simp only at hp
    unfold Orders.Pop at hp
    split at hp
    · cases hp
    · simp only [Option.some.injEq, Prod.mk.injEq] at hp
      rw [← hp.2]
      refine Orders.dropLast_idxOk _ ?_
      unfold heap.down
      exact heap.downLoop_idxOk _ _ _ _ (Orders.Swap_idxOk h _ _ hh)

theorem heap.Fix_idxOk (h : Orders) (i : Nat) (hh : h.idxOk) : (heap.Fix h i).idxOk := by
  unfold heap.Fix
  simp only
  have hd : (heap.down h i h.Len).1.idxOk := by
    unfold heap.down
    exact heap.downLoop_idxOk _ _ _ _ hh
  split
  · unfold heap.up
    exact heap.upLoop_idxOk _ _ _ hd
  · exact hd

/-- The loop of `heap.up` carries the order of position `j` to the position it returns. -/
theorem heap.upLoop_track (fuel : Nat) (h : Orders) (j : Nat) (hj : j < h.length) :
    ((heap.upLoop fuel h j).1[(heap.upLoop fuel h j).2]?).map Order.strip =
      (h[j]?).map Order.strip := by
  induction fuel generalizing h j with
  | zero => rfl
  | succ n ih =>
    unfold heap.upLoop
    simp only
    split
    · rfl
    · next hc =>
      have hi : (j - 1) / 2 < h.length := by omega
      rw [ih (h.Swap ((j - 1) / 2) j) ((j - 1) / 2) (by rw [Orders.Swap_length]; exact hi)]
      rw [Orders.getElem?_Swap h _ _ _ hi hj]
      have : swapIdx ((j - 1) / 2) j ((j - 1) / 2) = j := by
        unfold swapIdx; rw [if_pos rfl]
      rw [this, Option.map_map]
      congr 1
      funext o
      simp only [Function.comp, if_pos (Or.inl rfl)]
      rfl

theorem Order.eq_of_strip (y x : Order) (h : y.strip = x.strip) : y = { x with idx := y.idx } := by
  obtain ⟨h1, h2, h3, h4, h5, h6⟩ := Order.strip_ID _ _ h
  cases y
  cases x
  simp only at h1 h2 h3 h4 h5 h6
  simp [h1, h2, h3, h4, h5, h6]

theorem heap.Push_contains (h : Orders) (x : Order) (hh : h.idxOk) :
    ∃ p : Nat, (heap.Push h x)[p]? = some { x with idx := (p : Int) } := by
  have hok := heap.PushAt_idxOk h x hh
  have htr := heap.upLoop_track ((h.Push x).Len - 1) (h.Push x) ((h.Push x).Len - 1)
    (by simp [Orders.Len, Orders.Push])
  have hlast : (h.Push x)[(h.Push x).Len - 1]? = some { x with idx := (h.Len : Int) } := by
    unfold Orders.Push Orders.Len
    rw [List.getElem?_append_right (by simp)]
    simp
  rw [hlast] at htr
  obtain ⟨y, hy, e⟩ := Option.map_eq_some'.1 htr
  refine ⟨(heap.PushAt h x).2, ?_⟩
  have hy2 : (heap.Push h x)[(heap.PushAt h x).2]? = some y := hy
  rw [hy2]
  have hi := (Orders.idxOk_iff _).1 hok _ y hy
  have e2 : y.strip = x.strip := e
  rw [Order.eq_of_strip y x e2, hi]
  rfl

/-! ## Properties of the orders of the opposite queue -/

theorem OrderBook.PopBySide_oppP (P : Order → Prop)
    (hP : ∀ a b : Order, a.strip = b.strip → P a → P b) (ob : OrderBook) (side : Side)
    (pop : Order) (ob1 : OrderBook) (hp : ob.PopBySide side = some (pop, ob1))
    (h : ∀ x ∈ ob.oppQ side, P x) : P pop ∧ ∀ x ∈ ob1.oppQ side, P x := by
  obtain ⟨-, -, -, -, -, hb, hn⟩ := OrderBook.PopBySide_some ob side pop ob1 hp
  have key : ∀ (q1 q : Orders), (pop.strip :: q1.map Order.strip).Perm (q.map Order.strip) →
      (∀ x ∈ q, P x) → P pop ∧ ∀ x ∈ q1, P x := by
    intro q1 q hperm hq
    have k2 : ∀ y : Order, y.strip ∈ pop.strip :: q1.map Order.strip → P y := by
      intro y hy
      obtain ⟨z, hz, e⟩ := List.mem_map.1 (hperm.subset hy)
      exact hP z y e (hq z hz)
    exact ⟨k2 pop (List.mem_cons_self _ _),
      fun x hx => k2 x (List.mem_cons_of_mem _ (List.mem_map.2 ⟨x, hx, rfl⟩))⟩
  unfold OrderBook.oppQ at h ⊢
  by_cases hs : side = Buy
  · simp only [if_pos hs] at h ⊢
    exact key _ _ (hb hs).2 h
  · simp only [if_neg hs] at h ⊢
    exact key _ _ (hn hs).2 h

theorem OrderBook.PushOrderAt_oppP (P : Order → Prop)
    (hP : ∀ a b : Order, a.strip = b.strip → P a → P b) (ob : OrderBook) (p : Order)
    (side : Side) (hp : P p) (h : ∀ x ∈ ob.oppQ side, P x) :
    ∀ x ∈ (ob.PushOrderAt p).1.oppQ side, P x := by
  obtain ⟨hb, hn⟩ := OrderBook.PushOrderAt_queues ob p
  have key : ∀ (q1 q : Orders), (q1.map Order.strip).Perm (p.strip :: q.map Order.strip) →
      (∀ x ∈ q, P x) → ∀ x ∈ q1, P x := by
    intro q1 q hperm hq x hx
    rcases List.mem_cons.1 (hperm.subset (List.mem_map.2 ⟨x, hx, rfl⟩)) with e | hm
    · exact hP p x e.symm hp
    · obtain ⟨z, hz, e⟩ := List.mem_map.1 hm
      exact hP z x e (hq z hz)
  unfold OrderBook.oppQ at h ⊢
  by_cases hps : p.Side = Buy
  · obtain ⟨h1, -, h3⟩ := hb hps
    by_cases hs : side = Buy
    · simp only [if_pos hs] at h ⊢
      rw [h3]; exact h
    · simp only [if_neg hs] at h ⊢
      exact key _ _ h1 h
  · obtain ⟨h1, -, h3⟩ := hn hps
    by_cases hs : side = Buy
    · simp only [if_pos hs] at h ⊢
      exact key _ _ h1 h
    · simp only [if_neg hs] at h ⊢
      rw [h3]; exact h

theorem OrderBook.pushAll_oppP (P : Order → Prop)
    (hP : ∀ a b : Order, a.strip = b.strip → P a → P b) (side : Side) (skips : List Order)
    (b : OrderBook) (hs : ∀ x ∈ skips, P x) (h : ∀ x ∈ b.oppQ side, P x) :
    ∀ x ∈ (skips.foldl (fun b skip => b.PushOrder skip) b).oppQ side, P x := by
  induction skips generalizing b with
  | nil => exact h
  | cons y ys ih =>
    simp only [List.foldl_cons]
    exact ih _ (fun x hx => hs x (List.mem_cons_of_mem _ hx))
      (OrderBook.PushOrderAt_oppP P hP b y side (hs y (List.mem_cons_self _ _)) h)

theorem OrderBook.rejects_eq (o p : Order) (h : rejects o p) :
    resolvePrice o p = (o, p) ∧ o.PriceMode ≠ .Market ∧ p.PriceMode ≠ .Market ∧
    cmp o.Side p.Price o.Price = false := by
  unfold OrderBook.rejects OrderBook.resolvePrice at h
  unfold OrderBook.resolvePrice
  simp only at h ⊢
  by_cases ho : o.PriceMode = .Market
  · exfalso
    rw [if_pos ho] at h
    by_cases hp : p.PriceMode = .Market
    · rw [if_pos hp] at h
      simp [OrderBook.cmp] at h
    · rw [if_neg hp] at h
      simp [OrderBook.cmp] at h
  · rw [if_neg ho] at h ⊢
    by_cases hp : p.PriceMode = .Market
    · exfalso
      rw [if_pos hp] at h
      simp [OrderBook.cmp] at h
    · rw [if_neg hp] at h ⊢
      exact ⟨rfl, ho, hp, h⟩

theorem OrderBook.tradeBody_oppP (P : Order → Prop)
    (hP : ∀ a b : Order, a.strip = b.strip → P a → P b)
    (hmod : ∀ (o p : Order) (q : Int), P p → P { (resolvePrice o p).2 with Qty := q })
    (s : TradeState) (pop : Order) (ob1 : OrderBook)
    (hp : s.ob.PopBySide s.order.Side = some (pop, ob1))
    (h : ∀ x ∈ s.ob.oppQ s.order.Side, P x) (hs : ∀ x ∈ s.skips, P x) :
    (∀ x ∈ (tradeBody s pop ob1).ob.oppQ s.order.Side, P x) ∧
    (∀ x ∈ (tradeBody s pop ob1).skips, P x) := by
  obtain ⟨h1, h2⟩ := OrderBook.PopBySide_oppP P hP _ _ _ _ hp h
  unfold OrderBook.tradeBody
  simp only
  split
  · unfold OrderBook.tradeCross OrderBook.pushBack
    simp only
    refine ⟨?_, hs⟩
    split
    · simp only
      exact OrderBook.PushOrderAt_oppP P hP ob1 _ _ (hmod s.order pop _ h1) h2
    · exact h2
  · simp only
    refine ⟨h2, ?_⟩
    intro x hx
    rcases List.mem_append.1 hx with hx | hx
    · exact hs x hx
    · rw [List.mem_singleton.1 hx]
      exact hmod s.order pop (resolvePrice s.order pop).2.Qty h1

theorem OrderBook.Trade_oppP (P : Order → Prop)
    (hP : ∀ a b : Order, a.strip = b.strip → P a → P b)
    (hmod : ∀ (o p : Order) (q : Int), P p → P { (resolvePrice o p).2 with Qty := q })
    (ob : OrderBook) (o : Order) (h : ∀ x ∈ ob.oppQ o.Side, P x) :
    ∀ x ∈ (ob.Trade o).2.2.oppQ o.Side, P x := by
  have hK := OrderBook.tradeLoop_invariant
    (fun t => t.order.Side = o.Side ∧ (∀ x ∈ t.ob.oppQ o.Side, P x) ∧ (∀ x ∈ t.skips, P x))
    (fun s pop ob1 hI _ _ hp => by
      obtain ⟨i1, i2, i3⟩ := hI
      rw [← i1] at i2
      have := OrderBook.tradeBody_oppP P hP hmod s pop ob1 hp i2 i3
      rw [i1] at this
      exact ⟨((OrderBook.tradeBody_order s pop ob1).2.1).trans i1, this.1, this.2⟩)
    (ob.GetSideQueueLen o.Side) { ob := ob, order := o, skips := [], completes := [] }
    (And.intro rfl (And.intro h (fun x hx => absurd hx (List.not_mem_nil x))))
  obtain ⟨-, k2, k3⟩ := hK
  rw [OrderBook.Trade_eq]
  exact OrderBook.pushAll_oppP P hP o.Side _ _ k3 k2

/-! ## The counterparties that one call pops -/

theorem OrderBook.crossingLog_stop (fuel : Nat) (s : TradeState) (h : ¬ s.order.Qty > 0) :
    crossingLog fuel s = [] := by
  cases fuel with
  | zero => rfl
  | succ n =>
    unfold OrderBook.crossingLog
    rw [if_neg (fun hc => h hc.2)]

theorem OrderBook.tradeBody_skips (s : TradeState) (pop : Order) (ob1 : OrderBook)
    (hp : s.ob.PopBySide s.order.Side = some (pop, ob1)) :
    ((tradeBody s pop ob1).skips.map Order.strip ++ ob1.resting).Subperm
      (s.skips.map Order.strip ++ s.ob.resting) := by
  have hpop := (OrderBook.PopBySide_some _ _ _ _ hp).1
  unfold OrderBook.tradeBody
  simp only
  split
  · unfold OrderBook.tradeCross
    simp only
    exact (List.subperm_append_left _).2
      (((List.sublist_cons_self _ _).subperm).trans hpop.subperm)
  · next hc =>
    have hr : rejects s.order pop := by
      unfold OrderBook.rejects; simpa using hc
    rw [(OrderBook.rejects_eq _ _ hr).1]
    simp only [List.map_append, List.map_cons, List.map_nil, List.append_assoc,
      List.singleton_append]
    exact ((List.subperm_append_left _).2 hpop.subperm)

theorem OrderBook.tradeLoop_skips (fuel : Nat) (s : TradeState) :
    ((tradeLoop fuel s).skips.map Order.strip).Subperm
      (s.skips.map Order.strip ++ s.ob.resting) := by
  induction fuel generalizing s with
  | zero => exact (List.sublist_append_left _ _).subperm
  | succ n ih =>
    unfold OrderBook.tradeLoop
    split
    · split
      · exact (List.sublist_append_left _ _).subperm
      · next pop ob1 hp =>
        have hb := OrderBook.tradeBody_skips s pop ob1 hp
        by_cases hq : (tradeBody s pop ob1).order.Qty ≠ 0
        · have hk := OrderBook.tradeBody_keep s pop ob1 hq
          have h2 := ih (tradeBody s pop ob1)
          rw [hk] at h2
          exact h2.trans hb
        · have h0 : ¬ (tradeBody s pop ob1).order.Qty > 0 := by
            simp only [ne_eq, not_not] at hq; omega
          rw [OrderBook.tradeLoop_stop _ _ h0]
          exact ((List.sublist_append_left _ _).subperm).trans hb
    · exact (List.sublist_append_left _ _).subperm

theorem OrderBook.tradeBody_pops (s : TradeState) (pop : Order) (ob1 : OrderBook)
    (hp : s.ob.PopBySide s.order.Side = some (pop, ob1)) :
    ((if cmp (resolvePrice s.order pop).1.Side (resolvePrice s.order pop).2.Price
          (resolvePrice s.order pop).1.Price then
        [({ popID := pop.ID, popQty := pop.Qty, orderQty := s.order.Qty } : Crossing)]
      else []).map Crossing.popID ++
      ((tradeBody s pop ob1).skips.map Order.ID ++ ob1.resting.map Order.ID)).Perm
      (s.skips.map Order.ID ++ s.ob.resting.map Order.ID) := by
  have hpop : (pop.ID :: ob1.resting.map Order.ID).Perm (s.ob.resting.map Order.ID) :=
    (OrderBook.PopBySide_some _ _ _ _ hp).1.map Order.ID
  unfold OrderBook.tradeBody
  simp only
  split
  · unfold OrderBook.tradeCross
    simp only [List.map_cons, List.map_nil, List.singleton_append]
    exact (List.perm_middle.symm).trans (List.Perm.append_left _ hpop)
  · next hc =>
    have hr : rejects s.order pop := by
      unfold OrderBook.rejects; simpa using hc
    rw [(OrderBook.rejects_eq _ _ hr).1]
    simp only [List.map_append, List.map_cons, List.map_nil, List.append_assoc,
      List.singleton_append, List.nil_append]
    exact List.Perm.append_left _ hpop

theorem OrderBook.tradeLoop_pops (fuel : Nat) (s : TradeState) :
    ((crossingLog fuel s).map Crossing.popID ++ (tradeLoop fuel s).skips.map Order.ID).Subperm
      (s.skips.map Order.ID ++ s.ob.resting.map Order.ID) := by
  induction fuel generalizing s with
  | zero => exact (List.sublist_append_left _ _).subperm
  | succ n ih =>
    unfold OrderBook.tradeLoop OrderBook.crossingLog
    split
    · split
      · exact (List.sublist_append_left _ _).subperm
      · next pop ob1 hp =>
        simp only
        have hb := OrderBook.tradeBody_pops s pop ob1 hp
        rw [List.map_append, List.append_assoc]
        refine List.Subperm.trans ?_ hb.subperm
        refine (List.subperm_append_left _).2 ?_
        by_cases hq : (tradeBody s pop ob1).order.Qty ≠ 0
        · have hk := OrderBook.tradeBody_keep s pop ob1 hq
          have h2 := ih (tradeBody s pop ob1)
          rw [hk] at h2
          exact h2
        · have h0 : ¬ (tradeBody s pop ob1).order.Qty > 0 := by
            simp only [ne_eq, not_not] at hq; omega
          rw [OrderBook.tradeLoop_stop _ _ h0, OrderBook.crossingLog_stop _ _ h0]
          exact (List.sublist_append_left _ _).subperm
    · exact (List.sublist_append_left _ _).subperm

theorem OrderBook.PushOrderAt_keeps (ob : OrderBook) (p : Order) :
    (∀ y ∈ ob.Bids, ∃ z ∈ (ob.PushOrderAt p).1.Bids, z.strip = y.strip) ∧
    (∀ y ∈ ob.Asks, ∃ z ∈ (ob.PushOrderAt p).1.Asks, z.strip = y.strip) ∧
    ∃ z ∈ (if p.Side = Buy then (ob.PushOrderAt p).1.Bids else (ob.PushOrderAt p).1.Asks),
      z.strip = p.strip := by
  obtain ⟨hb, hn⟩ := OrderBook.PushOrderAt_queues ob p
  have key : ∀ (q1 q : Orders), (q1.map Order.strip).Perm (p.strip :: q.map Order.strip) →
      (∀ y ∈ q, ∃ z ∈ q1, z.strip = y.strip) ∧ ∃ z ∈ q1, z.strip = p.strip := by
    intro q1 q hperm
    constructor
    · intro y hy
      have := hperm.symm.subset (List.mem_cons_of_mem _ (List.mem_map.2 ⟨y, hy, rfl⟩))
      obtain ⟨z, hz, e⟩ := List.mem_map.1 this
      exact ⟨z, hz, e⟩
    · have := hperm.symm.subset (List.mem_cons_self _ _)
      obtain ⟨z, hz, e⟩ := List.mem_map.1 this
      exact ⟨z, hz, e⟩
  by_cases hps : p.Side = Buy
  · obtain ⟨h1, -, h3⟩ := hb hps
    rw [if_pos hps, h3]
    exact ⟨(key _ _ h1).1, fun y hy => ⟨y, hy, rfl⟩, (key _ _ h1).2⟩
  · obtain ⟨h1, -, h3⟩ := hn hps
    rw [if_neg hps, h3]
    exact ⟨fun y hy => ⟨y, hy, rfl⟩, (key _ _ h1).1, (key _ _ h1).2⟩

theorem OrderBook.pushAll_mem (skips : List Order) (b : OrderBook) :
    (∀ y ∈ b.Bids, ∃ z ∈ (skips.foldl (fun b skip => b.PushOrder skip) b).Bids,
      z.strip = y.strip) ∧
    (∀ y ∈ b.Asks, ∃ z ∈ (skips.foldl (fun b skip => b.PushOrder skip) b).Asks,
      z.strip = y.strip) ∧
    ∀ x ∈ skips, ∃ z ∈ (if x.Side = Buy then
        (skips.foldl (fun b skip => b.PushOrder skip) b).Bids
      else (skips.foldl (fun b skip => b.PushOrder skip) b).Asks), z.strip = x.strip := by
  induction skips generalizing b with
  | nil =>
    exact ⟨fun y hy => ⟨y, hy, rfl⟩, fun y hy => ⟨y, hy, rfl⟩,
      fun x hx => absurd hx (List.not_mem_nil x)⟩
  | cons p ps ih =>
    simp only [List.foldl_cons]
    obtain ⟨k1, k2, k3⟩ := OrderBook.PushOrderAt_keeps b p
    obtain ⟨i1, i2, i3⟩ := ih (b.PushOrder p)
    refine ⟨?_, ?_, ?_⟩
    · intro y hy
      obtain ⟨z, hz, e⟩ := k1 y hy
      obtain ⟨w, hw, e2⟩ := i1 z hz
      exact ⟨w, hw, e2.trans e⟩
    · intro y hy
      obtain ⟨z, hz, e⟩ := k2 y hy
      obtain ⟨w, hw, e2⟩ := i2 z hz
      exact ⟨w, hw, e2.trans e⟩
    · intro x hx
      rcases List.mem_cons.1 hx with e0 | hx
      · rw [e0]
        obtain ⟨z, hz, e⟩ := k3
        by_cases hps : p.Side = Buy
        · rw [if_pos hps] at hz ⊢
          obtain ⟨w, hw, e2⟩ := i1 z hz
          exact ⟨w, hw, e2.trans e⟩
        · rw [if_neg hps] at hz ⊢
          obtain ⟨w, hw, e2⟩ := i2 z hz
          exact ⟨w, hw, e2.trans e⟩
      · exact i3 x hx

/-! ## The book is not crossed -/

theorem OrderBook.cmp_false_iff (side : Side) (i j : Int) :
    cmp side i j = false ↔ (side = Buy → j < i) ∧ (side ≠ Buy → i < j) := by
  unfold OrderBook.cmp
  by_cases h : i = j
  · simp [h]
  · by_cases hs : side = Buy
    · simp [h, hs]; omega
    · simp [h, hs]; omega

theorem OrderBook.resolvePrice_keep (o p : Order) :
    (o.PriceMode ≠ .Market → (resolvePrice o p).1.Price = o.Price) ∧
    (p.PriceMode ≠ .Market → (resolvePrice o p).2.Price = p.Price) := by
  unfold OrderBook.resolvePrice
  simp only
  constructor
  · intro h; rw [if_neg h]
  · intro h; rw [if_neg h]

theorem OrderBook.tradeBody_price (s : TradeState) (pop : Order) (ob1 : OrderBook)
    (h : s.order.PriceMode ≠ .Market) (hq : 0 ≤ s.order.Qty) :
    (tradeBody s pop ob1).order.Price = s.order.Price ∧ 0 ≤ (tradeBody s pop ob1).order.Qty := by
  have hk := (OrderBook.resolvePrice_keep s.order pop).1 h
  have hq1 := (OrderBook.resolvePrice_fst s.order pop).2.2.2.2.2
  unfold OrderBook.tradeBody
  simp only
  split
  · unfold OrderBook.tradeCross
    simp only
    refine ⟨hk, ?_⟩
    rw [OrderBook.exchangeQty_min, hq1]
    simp only
    have := min_le_right (resolvePrice s.order pop).2.Qty s.order.Qty
    omega
  · exact ⟨hk, by rw [hq1]; exact hq⟩

theorem OrderBook.oppQ_length (ob : OrderBook) (side : Side) :
    (ob.oppQ side).length = ob.GetSideQueueLen side := by
  unfold OrderBook.oppQ OrderBook.GetSideQueueLen Orders.Len
  split <;> rfl

/-- When `Trade` leaves the incoming order with a quantity other than 0, the price test
rejects every order left in the opposite queue. -/
theorem OrderBook.Trade_rest (ob : OrderBook) (o : Order) (hq : 0 ≤ o.Qty) :
    (o.PriceMode ≠ .Market → (ob.Trade o).2.1.Price = o.Price) ∧
    ((ob.Trade o).2.1.Qty ≠ 0 → ∀ x ∈ (ob.Trade o).2.2.oppQ o.Side,
      o.PriceMode ≠ .Market ∧ x.PriceMode ≠ .Market ∧ cmp o.Side x.Price o.Price = false) := by
  have hK := OrderBook.tradeLoop_invariant
    (fun t => t.order.Side = o.Side ∧ t.order.PriceMode = o.PriceMode ∧
      (o.PriceMode ≠ .Market → t.order.Price = o.Price) ∧ 0 ≤ t.order.Qty ∧
      ∀ x ∈ t.skips, o.PriceMode ≠ .Market ∧ x.PriceMode ≠ .Market ∧
        cmp o.Side x.Price o.Price = false)
    (fun s pop ob1 hI _ _ _ => by
      obtain ⟨i1, i2, i3, i4, i5⟩ := hI
      obtain ⟨-, b2, b3, -, -⟩ := OrderBook.tradeBody_order s pop ob1
      refine ⟨b2.trans i1, b3.trans i2, ?_, ?_, ?_⟩
      · intro hm
        rw [(OrderBook.tradeBody_price s pop ob1 (by rw [i2]; exact hm) i4).1]
        exact i3 hm
      · by_cases hm : s.order.PriceMode = .Market
        · unfold OrderBook.tradeBody
          simp only
          have hq1 := (OrderBook.resolvePrice_fst s.order pop).2.2.2.2.2
          split
          · unfold OrderBook.tradeCross
            simp only
            rw [OrderBook.exchangeQty_min, hq1]
            simp only
            have := min_le_right (resolvePrice s.order pop).2.Qty s.order.Qty
            omega
          · rw [hq1]; exact i4
        · exact (OrderBook.tradeBody_price s pop ob1 hm i4).2
      · unfold OrderBook.tradeBody
        simp only
        split
        · exact i5
        · next hc =>
          have hr : rejects s.order pop := by
            unfold OrderBook.rejects; simpa using hc
          obtain ⟨e1, e2, e3, e4⟩ := OrderBook.rejects_eq _ _ hr
          rw [e1]
          simp only
          intro x hx
          rcases List.mem_append.1 hx with hx | hx
          · exact i5 x hx
          · rw [List.mem_singleton.1 hx]
            have hm : o.PriceMode ≠ .Market := by rw [← i2]; exact e2
            refine ⟨hm, e3, ?_⟩
            rw [← i1, ← i3 hm]; exact e4)
    (ob.GetSideQueueLen o.Side) { ob := ob, order := o, skips := [], completes := [] }
    (And.intro rfl (And.intro rfl (And.intro (fun _ => rfl) (And.intro hq
      (fun x hx => absurd hx (List.not_mem_nil x))))))
  obtain ⟨k1, -, k3, k4, k5⟩ := hK
  have hexit := OrderBook.tradeLoop_exit (ob.GetSideQueueLen o.Side)
    { ob := ob, order := o, skips := [], completes := [] } (Nat.le_refl _)
  rw [OrderBook.Trade_eq]
  simp only
  refine ⟨k3, ?_⟩
  intro hne
  have hpos : (ob.tradeFinal o).order.Qty > 0 := by
    have : 0 ≤ (ob.tradeFinal o).order.Qty := k4
    omega
  have hlen : (ob.tradeFinal o).ob.GetSideQueueLen o.Side = 0 := by
    have h1 : ¬ ((ob.tradeFinal o).ob.GetSideQueueLen (ob.tradeFinal o).order.Side > 0 ∧
      (ob.tradeFinal o).order.Qty > 0) := hexit
    have h2 : (ob.tradeFinal o).order.Side = o.Side := k1
    rw [h2] at h1
    by_contra h0
    exact h1 ⟨Nat.pos_of_ne_zero h0, hpos⟩
  have hnil : (ob.tradeFinal o).ob.oppQ o.Side = [] := by
    rw [← List.length_eq_zero, OrderBook.oppQ_length]; exact hlen
  refine OrderBook.pushAll_oppP
    (fun x => o.PriceMode ≠ .Market ∧ x.PriceMode ≠ .Market ∧ cmp o.Side x.Price o.Price = false)
    ?_ o.Side _ _ k5 ?_
  · intro a b e h
    obtain ⟨-, e2, e3, -, -, -⟩ := Order.strip_ID _ _ e
    rw [← e2, ← e3]; exact h
  · intro x hx
    rw [hnil] at hx
    exact absurd hx (List.not_mem_nil x)

/-- Every order that `Trade` leaves in the opposite queue comes from an order of that
queue with the same price mode and, unless it is a Market order, the same price. -/
theorem OrderBook.Trade_from (ob : OrderBook) (o : Order) :
    ∀ x ∈ (ob.Trade o).2.2.oppQ o.Side, ∃ y ∈ ob.oppQ o.Side,
      y.PriceMode = x.PriceMode ∧ (y.PriceMode ≠ .Market → y.Price = x.Price) := by
  refine OrderBook.Trade_oppP
    (fun x => ∃ y ∈ ob.oppQ o.Side,
      y.PriceMode = x.PriceMode ∧ (y.PriceMode ≠ .Market → y.Price = x.Price))
    ?_ ?_ ob o (fun x hx => ⟨x, hx, rfl, fun _ => rfl⟩)
  · intro a b e h
    obtain ⟨-, e2, e3, -, -, -⟩ := Order.strip_ID _ _ e
    obtain ⟨y, hy, h1, h2⟩ := h
    exact ⟨y, hy, h1.trans e3, fun hm => (h2 hm).trans e2⟩
  · intro o2 p q h
    obtain ⟨y, hy, h1, h2⟩ := h
    refine ⟨y, hy, ?_, ?_⟩
    · exact h1.trans ((OrderBook.resolvePrice_snd o2 p).2.2.1).symm
    · intro hm
      have hp : p.PriceMode ≠ .Market := by rw [← h1]; exact hm
      exact (h2 hm).trans (((OrderBook.resolvePrice_keep o2 p).2 hp).symm)

theorem OrderBook.queues_iff (ob : OrderBook) (side : Side) (P : Order → Prop) :
    (∀ x ∈ ob.Bids ++ ob.Asks, P x) ↔
      (∀ x ∈ ob.ownQ side, P x) ∧ (∀ x ∈ ob.oppQ side, P x) := by
  unfold OrderBook.ownQ OrderBook.oppQ
  by_cases hs : side = Buy
  · simp only [if_pos hs, List.mem_append]
    exact ⟨fun h => ⟨fun x hx => h x (Or.inl hx), fun x hx => h x (Or.inr hx)⟩,
      fun h x hx => hx.elim (h.1 x) (h.2 x)⟩
  · simp only [if_neg hs, List.mem_append]
    exact ⟨fun h => ⟨fun x hx => h x (Or.inr hx), fun x hx => h x (Or.inl hx)⟩,
      fun h x hx => hx.elim (h.2 x) (h.1 x)⟩

theorem OrderBook.uncrossed_iff (ob : OrderBook) (side : Side) :
    ob.uncrossed ↔ ∀ w ∈ ob.ownQ side, ∀ a ∈ ob.oppQ side,
      w.PriceMode = .Limit ∧ a.PriceMode = .Limit ∧ cmp side a.Price w.Price = false := by
  unfold OrderBook.uncrossed OrderBook.ownQ OrderBook.oppQ
  by_cases hs : side = Buy
  · simp only [if_pos hs, OrderBook.cmp_false_iff]
    constructor
    · intro h w hw a ha
      obtain ⟨h1, h2, h3⟩ := h w hw a ha
      exact ⟨h1, h2, fun _ => h3, fun hn => absurd hs hn⟩
    · intro h b hb a ha
      obtain ⟨h1, h2, h3, -⟩ := h b hb a ha
      exact ⟨h1, h2, h3 hs⟩
  · simp only [if_neg hs, OrderBook.cmp_false_iff]
    constructor
    · intro h w hw a ha
      obtain ⟨h1, h2, h3⟩ := h a ha w hw
      exact ⟨h2, h1, fun hb => absurd hb hs, fun _ => h3⟩
    · intro h b hb a ha
      obtain ⟨h1, h2, -, h3⟩ := h a ha b hb
      exact ⟨h2, h1, h3 hs⟩

theorem OrderBook.PushOrderAt_own_mem (ob : OrderBook) (p : Order) (side : Side)
    (h : p.Side = Buy ↔ side = Buy) :
    ∀ z ∈ (ob.PushOrderAt p).1.ownQ side,
      z.strip = p.strip ∨ ∃ w ∈ ob.ownQ side, w.strip = z.strip := by
  obtain ⟨hb, hn⟩ := OrderBook.PushOrderAt_queues ob p
  have key : ∀ (q1 q : Orders), (q1.map Order.strip).Perm (p.strip :: q.map Order.strip) →
      ∀ z ∈ q1, z.strip = p.strip ∨ ∃ w ∈ q, w.strip = z.strip := by
    intro q1 q hperm z hz
    rcases List.mem_cons.1 (hperm.subset (List.mem_map.2 ⟨z, hz, rfl⟩)) with e | hm
    · exact Or.inl e
    · obtain ⟨w, hw, e⟩ := List.mem_map.1 hm
      exact Or.inr ⟨w, hw, e⟩
  unfold OrderBook.ownQ
  by_cases hs : side = Buy
  · simp only [if_pos hs]
    exact key _ _ (hb (h.2 hs)).1
  · simp only [if_neg hs]
    exact key _ _ (hn (fun hp => hs (h.1 hp))).1

theorem Request.order_mode (r : Request) :
    r.order.PriceMode = .Limit ∨ r.order.PriceMode = .Market := by
  cases r with
  | limit id now side price qty => exact Or.inl rfl
  | market id now side qty => exact Or.inr rfl

theorem OrderBook.process_uncrossed (ob : OrderBook) (o : Order) (hs : ob.sidesOk)
    (hh : ob.heapsOk) (hm : ob.modesOk) (hu : ob.uncrossed)
    (ho : o.PriceMode = .Limit ∨ o.PriceMode = .Market) (hq : 0 ≤ o.Qty) :
    (ob.process o).2.modesOk ∧ (ob.process o).2.uncrossed := by
  obtain ⟨-, -, t3, -⟩ := OrderBook.Trade_wf ob o hs hh
  have hfrom := OrderBook.Trade_from ob o
  obtain ⟨hprice, hrest⟩ := OrderBook.Trade_rest ob o hq
  obtain ⟨-, oside, omode, -, -⟩ := OrderBook.Trade_order ob o
  unfold OrderBook.modesOk at hm ⊢
  rw [OrderBook.queues_iff ob o.Side] at hm
  rw [OrderBook.uncrossed_iff ob o.Side] at hu
  rw [OrderBook.queues_iff _ o.Side, OrderBook.uncrossed_iff _ o.Side]
  -- the queues that `Trade` leaves
  have hTm : (∀ x ∈ (ob.Trade o).2.2.ownQ o.Side, x.PriceMode ≠ .Unknown) ∧
      (∀ x ∈ (ob.Trade o).2.2.oppQ o.Side, x.PriceMode ≠ .Unknown) := by
    constructor
    · rw [t3]; exact hm.1
    · intro x hx
      obtain ⟨y, hy, e, -⟩ := hfrom x hx
      rw [← e]; exact hm.2 y hy
  have hTu : ∀ w ∈ (ob.Trade o).2.2.ownQ o.Side, ∀ a ∈ (ob.Trade o).2.2.oppQ o.Side,
      w.PriceMode = .Limit ∧ a.PriceMode = .Limit ∧ cmp o.Side a.Price w.Price = false := by
    intro w hw a ha
    rw [t3] at hw
    obtain ⟨y, hy, e, ep⟩ := hfrom a ha
    obtain ⟨h1, h2, h3⟩ := hu w hw y hy
    have hy2 : y.PriceMode ≠ .Market := by rw [h2]; decide
    refine ⟨h1, e ▸ h2, ?_⟩
    rw [← ep hy2]; exact h3
  rw [OrderBook.process_eq]
  simp only
  split
  · exact ⟨hTm, hTu⟩
  · next hne =>
    have hside : (ob.Trade o).2.1.Side = Buy ↔ o.Side = Buy := by rw [oside]
    have hopp := (OrderBook.PushOrderAt_lengths (ob.Trade o).2.2 (ob.Trade o).2.1 o.Side hside).2
    have hown := OrderBook.PushOrderAt_own_mem (ob.Trade o).2.2 (ob.Trade o).2.1 o.Side hside
    have hr := hrest hne
    unfold OrderBook.PushOrderSync OrderBook.PushOrder
    rw [hopp]
    refine ⟨⟨?_, hTm.2⟩, ?_⟩
    · intro z hz
      rcases hown z hz with e | ⟨w, hw, e⟩
      · rw [(Order.strip_ID _ _ e).2.2.1, omode]
        rcases ho with h | h <;> rw [h] <;> decide
      · rw [← (Order.strip_ID _ _ e).2.2.1]; exact hTm.1 w hw
    · intro z hz a ha
      rcases hown z hz with e | ⟨w, hw, e⟩
      · obtain ⟨r1, r2, r3⟩ := hr a ha
        obtain ⟨-, e2, e3, -, -, -⟩ := Order.strip_ID _ _ e
        have holim : o.PriceMode = .Limit := by
          rcases ho with h | h
          · exact h
          · exact absurd h r1
        have halim : a.PriceMode = .Limit := by
          have := hTm.2 a ha
          cases hpm : a.PriceMode with
          | Limit => rfl
          | Market => exact absurd hpm r2
          | Unknown => exact absurd hpm this
        refine ⟨by rw [e3, omode]; exact holim, halim, ?_⟩
        rw [e2, hprice r1]; exact r3
      · obtain ⟨-, e2, e3, -, -, -⟩ := Order.strip_ID _ _ e
        obtain ⟨h1, h2, h3⟩ := hTu w hw a ha
        exact ⟨e3 ▸ h1, h2, e2 ▸ h3⟩

theorem OrderBook.submitAll_uncrossed (M : Int) (rs : List Request) (ob : OrderBook)
    (hs : ob.sidesOk) (hh : ob.heapsOk) (hm : ob.modesOk) (hu : ob.uncrossed) :
    (ob.submitAll M rs).2.modesOk ∧ (ob.submitAll M rs).2.uncrossed := by
  induction rs generalizing ob with
  | nil => exact ⟨hm, hu⟩
  | cons r rs ih =>
    unfold OrderBook.submitAll
    simp only
    obtain ⟨w1, w2⟩ := OrderBook.submit_wf M ob r hs hh
    refine ih _ w1 w2 ?_ ?_
    · rcases OrderBook.submit_cases M ob r with ⟨-, h2, h3⟩ | ⟨-, h2⟩
      · rw [h2]
        exact (OrderBook.process_uncrossed ob r.order hs hh hm hu r.order_mode (by omega)).1
      · rw [h2]; exact hm
    · rcases OrderBook.submit_cases M ob r with ⟨-, h2, h3⟩ | ⟨-, h2⟩
      · rw [h2]
        exact (OrderBook.process_uncrossed ob r.order hs hh hm hu r.order_mode (by omega)).2
      · rw [h2]; exact hu

/-! ## The variant of Trade that stops at the first rejected counterparty -/

theorem OrderBook.rejects_of (o p : Order) (ho : o.PriceMode ≠ .Market)
    (hp : p.PriceMode ≠ .Market) (h : cmp o.Side p.Price o.Price = false) : rejects o p := by
  unfold OrderBook.rejects OrderBook.resolvePrice
  simp only
  rw [if_neg ho, if_neg hp]
  exact h

theorem OrderBook.rejects_strip (o a b : Order) (e : a.strip = b.strip) (h : rejects o a) :
    rejects o b := by
  obtain ⟨-, h2, h3, h4⟩ := OrderBook.rejects_eq _ _ h
  obtain ⟨-, e2, e3, -, -, -⟩ := Order.strip_ID _ _ e
  exact OrderBook.rejects_of o b h2 (by rw [← e3]; exact h3) (by rw [← e2]; exact h4)

theorem OrderBook.tradeBody_rejected (s : TradeState) (pop : Order) (ob1 : OrderBook)
    (hr : rejects s.order pop) :
    tradeBody s pop ob1 =
      { ob := ob1, order := s.order, skips := s.skips ++ [pop], completes := s.completes } := by
  have he := (OrderBook.rejects_eq _ _ hr).1
  unfold OrderBook.rejects at hr
  unfold OrderBook.tradeBody
  simp only
  rw [if_neg (by rw [hr]; decide), he]

/-- When the price test rejects the root of the opposite queue and this queue holds no
Market order, it rejects every other order of the queue as well. -/
theorem OrderBook.rejected_rest (ob : OrderBook) (o pop : Order) (ob1 : OrderBook)
    (hs : ob.sidesOk) (hh : ob.heapsOk)
    (hp : ob.PopBySide o.Side = some (pop, ob1))
    (hnm : ∀ x ∈ ob.oppQ o.Side, x.PriceMode ≠ .Market) (hr : rejects o pop) :
    ∀ x ∈ ob1.oppQ o.Side, rejects o x := by
  obtain ⟨-, -, -, -, -, r, hr0, hpr⟩ := OrderBook.PopBySide_wf _ _ _ _ hs hh hp
  obtain ⟨-, ho, -, hc⟩ := OrderBook.rejects_eq _ _ hr
  have hprice : pop.Price = r.Price := by rw [hpr]
  have hfrom := (OrderBook.PopBySide_oppP (fun x => ∃ y ∈ ob.oppQ o.Side, y.strip = x.strip)
    (fun a b e h => by
      obtain ⟨y, hy, e2⟩ := h
      exact ⟨y, hy, e2.trans e⟩) ob o.Side pop ob1 hp (fun x hx => ⟨x, hx, rfl⟩)).2
  intro x hx
  obtain ⟨y, hy, e⟩ := hfrom x hx
  refine OrderBook.rejects_strip o y x e ?_
  refine OrderBook.rejects_of o y ho (hnm y hy) ?_
  rw [OrderBook.cmp_false_iff] at hc ⊢
  unfold OrderBook.oppQ at hy hr0
  by_cases hb : o.Side = Buy
  · simp only [if_pos hb] at hy hr0
    have hbest := (Orders.root_best ob.Asks (Orders.uniform_of_not_buy _ hs.2) hh.2 r y hr0 hy).2.1
      (hs.2 y hy)
    refine ⟨fun _ => ?_, fun hn => absurd hb hn⟩
    have := hc.1 hb
    omega
  · simp only [if_neg hb] at hy hr0
    have hbest := (Orders.root_best ob.Bids (Orders.uniform_of_buy _ hs.1) hh.1 r y hr0 hy).1
      (hs.1 y hy)
    refine ⟨fun h => absurd h hb, fun _ => ?_⟩
    have := hc.2 hb
    omega

/-- The loop of `Trade` on a book whose opposite queue holds only orders that the price
test rejects: it moves orders to the skipped list and changes nothing else. -/
theorem OrderBook.tradeLoop_all_rejected (side : Side) (ob0 : OrderBook) (fuel : Nat)
    (t : TradeState)
    (hK : t.order.Side = side ∧ t.ob.sidesOk ∧ t.ob.heapsOk ∧
      (∀ x ∈ t.skips, ¬ (x.Side = Buy ↔ side = Buy)) ∧ t.ob.ownQ side = ob0.ownQ side ∧
      (t.ob.oppQ side).length + t.skips.length ≤ (ob0.oppQ side).length)
    (hrej : ∀ x ∈ t.ob.oppQ side, rejects t.order x) :
    (tradeLoop fuel t).order = t.order ∧ (tradeLoop fuel t).completes = t.completes ∧
    (tradeLoop fuel t).ob.Done = t.ob.Done ∧
    (tradeLoop fuel t).ob.sidesOk ∧ (tradeLoop fuel t).ob.heapsOk ∧
    (∀ x ∈ (tradeLoop fuel t).skips, ¬ (x.Side = Buy ↔ side = Buy)) ∧
    (tradeLoop fuel t).ob.ownQ side = ob0.ownQ side ∧
    ((tradeLoop fuel t).skips.map Order.strip ++ (tradeLoop fuel t).ob.resting).Perm
      (t.skips.map Order.strip ++ t.ob.resting) := by
  have hI := OrderBook.tradeLoop_invariant
    (fun u => u.order = t.order ∧ u.completes = t.completes ∧ u.ob.Done = t.ob.Done ∧
      (u.order.Side = side ∧ u.ob.sidesOk ∧ u.ob.heapsOk ∧
        (∀ x ∈ u.skips, ¬ (x.Side = Buy ↔ side = Buy)) ∧ u.ob.ownQ side = ob0.ownQ side ∧
        (u.ob.oppQ side).length + u.skips.length ≤ (ob0.oppQ side).length) ∧
      (∀ x ∈ u.ob.oppQ side, rejects t.order x) ∧
      (u.skips.map Order.strip ++ u.ob.resting).Perm (t.skips.map Order.strip ++ t.ob.resting))
    (fun u pop ob1 hu _ _ hp => by
      obtain ⟨i1, i2, i3, i4, i5, i6⟩ := hu
      have hp2 := hp
      rw [i4.1] at hp2
      obtain ⟨p1, p2⟩ := OrderBook.PopBySide_oppP (fun x => rejects t.order x)
        (fun a b e h => OrderBook.rejects_strip _ a b e h) _ _ _ _ hp2 i5
      have hr : rejects u.order pop := by rw [i1]; exact p1
      have hw := OrderBook.tradeBody_wf side ob0 u pop ob1 hp i4
      obtain ⟨hperm, hdone, -⟩ := OrderBook.PopBySide_some _ _ _ _ hp
      rw [OrderBook.tradeBody_rejected u pop ob1 hr] at hw ⊢
      refine ⟨i1, i2, hdone.trans i3, hw, p2, ?_⟩
      simp only [List.map_append, List.map_cons, List.map_nil, List.append_assoc,
        List.singleton_append]
      exact (List.Perm.append_left _ hperm).trans i6)
    fuel t
    (And.intro rfl (And.intro rfl (And.intro rfl (And.intro hK
      (And.intro hrej (List.Perm.refl _))))))
  obtain ⟨j1, j2, j3, j4, -, j6⟩ := hI
  exact ⟨j1, j2, j3, j4.2.1, j4.2.2.1, j4.2.2.2.1, j4.2.2.2.2.1, j6⟩

theorem OrderBook.tradeLoop_step (n : Nat) (s : TradeState) (pop : Order) (ob1 : OrderBook)
    (hc : s.ob.GetSideQueueLen s.order.Side > 0 ∧ s.order.Qty > 0)
    (hp : s.ob.PopBySide s.order.Side = some (pop, ob1)) :
    tradeLoop (n + 1) s = tradeLoop n (tradeBody s pop ob1) := by
  conv_lhs => unfold OrderBook.tradeLoop
  rw [if_pos hc, hp]

theorem OrderBook.tradeLoop_halt (n : Nat) (s : TradeState)
    (h : ¬ (s.ob.GetSideQueueLen s.order.Side > 0 ∧ s.order.Qty > 0) ∨
      s.ob.PopBySide s.order.Side = none) : tradeLoop (n + 1) s = s := by
  unfold OrderBook.tradeLoop
  rcases h with h | h
  · rw [if_neg h]
  · rw [h]; simp

theorem OrderBook.tradeLoopShort_halt (n : Nat) (s : TradeState)
    (h : ¬ (s.ob.GetSideQueueLen s.order.Side > 0 ∧ s.order.Qty > 0) ∨
      s.ob.PopBySide s.order.Side = none) : tradeLoopShort (n + 1) s = s := by
  unfold OrderBook.tradeLoopShort
  rcases h with h | h
  · rw [if_neg h]
  · rw [h]; simp

theorem OrderBook.tradeLoopShort_cross (n : Nat) (s : TradeState) (pop : Order)
    (ob1 : OrderBook) (hc : s.ob.GetSideQueueLen s.order.Side > 0 ∧ s.order.Qty > 0)
    (hp : s.ob.PopBySide s.order.Side = some (pop, ob1)) (ha : ¬ rejects s.order pop) :
    tradeLoopShort (n + 1) s = tradeLoopShort n (tradeBody s pop ob1) ∧
    (tradeBody s pop ob1).skips = s.skips := by
  have hacc : cmp (resolvePrice s.order pop).1.Side (resolvePrice s.order pop).2.Price
      (resolvePrice s.order pop).1.Price = true := by
    unfold OrderBook.rejects at ha
    simpa using ha
  have hb : tradeBody s pop ob1 = tradeCross s pop.Qty (resolvePrice s.order pop).1
      (resolvePrice s.order pop).2 ob1 := by
    unfold OrderBook.tradeBody
    simp only
    rw [if_pos hacc]
  constructor
  · rw [hb]
    conv_lhs => unfold OrderBook.tradeLoopShort
    rw [if_pos hc, hp]
    simp only
    rw [if_pos hacc]
  · rw [hb]
    rfl

theorem OrderBook.tradeLoopShort_stop (n : Nat) (s : TradeState) (pop : Order)
    (ob1 : OrderBook) (hc : s.ob.GetSideQueueLen s.order.Side > 0 ∧ s.order.Qty > 0)
    (hp : s.ob.PopBySide s.order.Side = some (pop, ob1)) (hr : rejects s.order pop) :
    tradeLoopShort (n + 1) s =
      { ob := ob1.PushOrder pop, order := s.order, skips := s.skips,
        completes := s.completes } := by
  have he := (OrderBook.rejects_eq _ _ hr).1
  unfold OrderBook.rejects at hr
  conv_lhs => unfold OrderBook.tradeLoopShort
  rw [if_pos hc, hp]
  simp only
  rw [if_neg (by rw [hr]; decide), he]

/-- The two loops, run side by side on a book whose opposite queue holds no Market order:
same incoming order, same completion records, and, once the full loop has pushed its
skipped orders back, the same Done map and the same resting orders. -/
theorem OrderBook.tradeLoop_short (fuel : Nat) (s : TradeState) (hs : s.ob.sidesOk)
    (hh : s.ob.heapsOk) (hsk : s.skips = [])
    (hnm : ∀ x ∈ s.ob.oppQ s.order.Side, x.PriceMode ≠ .Market) :
    (tradeLoop fuel s).order = (tradeLoopShort fuel s).order ∧
    (tradeLoop fuel s).completes = (tradeLoopShort fuel s).completes ∧
    ((tradeLoop fuel s).skips.foldl (fun b skip => b.PushOrder skip)
      (tradeLoop fuel s).ob).Done = (tradeLoopShort fuel s).ob.Done ∧
    ((tradeLoop fuel s).skips.foldl (fun b skip => b.PushOrder skip)
      (tradeLoop fuel s).ob).resting.Perm (tradeLoopShort fuel s).ob.resting ∧
    ((tradeLoop fuel s).skips.foldl (fun b skip => b.PushOrder skip)
      (tradeLoop fuel s).ob).ownQ s.order.Side =
      (tradeLoopShort fuel s).ob.ownQ s.order.Side := by
  induction fuel generalizing s with
  | zero =>
    have e1 : tradeLoop 0 s = s := rfl
    have e2 : tradeLoopShort 0 s = s := rfl
    rw [e1, e2, hsk]
    exact ⟨rfl, rfl, rfl, List.Perm.refl _, rfl⟩
  | succ n ih =>
    have hstay : ∀ (e1 : tradeLoop (n + 1) s = s) (e2 : tradeLoopShort (n + 1) s = s),
        (tradeLoop (n + 1) s).order = (tradeLoopShort (n + 1) s).order ∧
        (tradeLoop (n + 1) s).completes = (tradeLoopShort (n + 1) s).completes ∧
        ((tradeLoop (n + 1) s).skips.foldl (fun b skip => b.PushOrder skip)
          (tradeLoop (n + 1) s).ob).Done = (tradeLoopShort (n + 1) s).ob.Done ∧
        ((tradeLoop (n + 1) s).skips.foldl (fun b skip => b.PushOrder skip)
          (tradeLoop (n + 1) s).ob).resting.Perm (tradeLoopShort (n + 1) s).ob.resting ∧
        ((tradeLoop (n + 1) s).skips.foldl (fun b skip => b.PushOrder skip)
          (tradeLoop (n + 1) s).ob).ownQ s.order.Side =
          (tradeLoopShort (n + 1) s).ob.ownQ s.order.Side := by
      intro e1 e2
      rw [e1, e2, hsk]
      exact ⟨rfl, rfl, rfl, List.Perm.refl _, rfl⟩
    by_cases hc : s.ob.GetSideQueueLen s.order.Side > 0 ∧ s.order.Qty > 0
    · cases hp : s.ob.PopBySide s.order.Side with
      | none =>
        exact hstay (OrderBook.tradeLoop_halt n s (Or.inr hp))
          (OrderBook.tradeLoopShort_halt n s (Or.inr hp))
      | some pr =>
        obtain ⟨pop, ob1⟩ := pr
        have hK : s.order.Side = s.order.Side ∧ s.ob.sidesOk ∧ s.ob.heapsOk ∧
            (∀ x ∈ s.skips, ¬ (x.Side = Buy ↔ s.order.Side = Buy)) ∧
            s.ob.ownQ s.order.Side = s.ob.ownQ s.order.Side ∧
            (s.ob.oppQ s.order.Side).length + s.skips.length ≤
              (s.ob.oppQ s.order.Side).length := by
          refine ⟨rfl, hs, hh, ?_, rfl, ?_⟩
          · rw [hsk]; intro x hx; exact absurd hx (List.not_mem_nil x)
          · rw [hsk]; simp
        have hw := OrderBook.tradeBody_wf s.order.Side s.ob s pop ob1 hp hK
        rw [OrderBook.tradeLoop_step n s pop ob1 hc hp]
        by_cases hr : rejects s.order pop
        · rw [OrderBook.tradeLoopShort_stop n s pop ob1 hc hp hr]
          have hrest := OrderBook.rejected_rest s.ob s.order pop ob1 hs hh hp hnm hr
          have hb := OrderBook.tradeBody_rejected s pop ob1 hr
          rw [hb] at hw ⊢
          obtain ⟨a1, a2, a3, a4, a5, a6, a7, a8⟩ :=
            OrderBook.tradeLoop_all_rejected s.order.Side s.ob n
              (⟨ob1, s.order, s.skips ++ [pop], s.completes⟩ : TradeState) hw hrest
          obtain ⟨q1, q2, q3⟩ := OrderBook.pushAll_spec
            (tradeLoop n (⟨ob1, s.order, s.skips ++ [pop], s.completes⟩ : TradeState)).skips
            (tradeLoop n (⟨ob1, s.order, s.skips ++ [pop], s.completes⟩ : TradeState)).ob
          obtain ⟨-, -, w3, -⟩ := OrderBook.pushAll_wf s.order.Side _ _ a4 a5 a6
          obtain ⟨r1, r2, -⟩ := OrderBook.PushOrderAt_resting ob1 pop
          have hopp : ¬ (pop.Side = Buy ↔ s.order.Side = Buy) :=
            (OrderBook.PopBySide_wf _ _ _ _ hs hh hp).2.2.1
          have hown := (OrderBook.PushOrderAt_opp ob1 pop s.order.Side hopp).2
          obtain ⟨-, -, -, v4, -, -⟩ := OrderBook.PopBySide_wf _ _ _ _ hs hh hp
          refine ⟨a1, a2, ?_, ?_, ?_⟩
          · rw [q2, a3]; exact r2.symm
          · refine q1.trans (a8.trans ?_)
            rw [hsk]
            simp only [List.nil_append, List.map_cons, List.map_nil, List.singleton_append]
            exact r1.symm
          · rw [w3, a7]
            show s.ob.ownQ s.order.Side = (ob1.PushOrderAt pop).1.ownQ s.order.Side
            rw [hown, v4]
        · obtain ⟨c1, c2⟩ := OrderBook.tradeLoopShort_cross n s pop ob1 hc hp hr
          rw [c1]
          have hside := (OrderBook.tradeBody_order s pop ob1).2.1
          have hnm2 : ∀ x ∈ (tradeBody s pop ob1).ob.oppQ (tradeBody s pop ob1).order.Side,
              x.PriceMode ≠ .Market := by
            rw [hside]
            refine (OrderBook.tradeBody_oppP (fun x => x.PriceMode ≠ .Market) ?_ ?_ s pop ob1 hp
              hnm (by rw [hsk]; intro x hx; exact absurd hx (List.not_mem_nil x))).1
            · intro a b e h
              rw [← (Order.strip_ID _ _ e).2.2.1]; exact h
            · intro o2 p q h
              show (resolvePrice o2 p).2.PriceMode ≠ .Market
              rw [(OrderBook.resolvePrice_snd o2 p).2.2.1]; exact h
          have := ih (tradeBody s pop ob1) hw.2.1 hw.2.2.1 (c2.trans hsk) hnm2
          rw [hside] at this
          exact this
    · exact hstay (OrderBook.tradeLoop_halt n s (Or.inl hc))
        (OrderBook.tradeLoopShort_halt n s (Or.inl hc))

theorem OrderBook.TradeShort_eq (ob : OrderBook) (o : Order) :
    ob.TradeShort o = (none,
      (tradeLoopShort (ob.GetSideQueueLen o.Side)
        { ob := ob, order := o, skips := [], completes := [] }).order,
      (tradeLoopShort (ob.GetSideQueueLen o.Side)
        { ob := ob, order := o, skips := [], completes := [] }).ob.save
        (tradeLoopShort (ob.GetSideQueueLen o.Side)
          { ob := ob, order := o, skips := [], completes := [] }).completes) := by
  unfold OrderBook.TradeShort OrderBook.GetSideQueueLenSync
  split
  · next h =>
    rw [h]
    simp [OrderBook.tradeLoopShort, OrderBook.save]
  · rfl

theorem OrderBook.perm_queues (b1 b2 : OrderBook) (side : Side)
    (hown : b1.ownQ side = b2.ownQ side) (hperm : b1.resting.Perm b2.resting) :
    (b1.Bids.map Order.strip).Perm (b2.Bids.map Order.strip) ∧
    (b1.Asks.map Order.strip).Perm (b2.Asks.map Order.strip) := by
  unfold OrderBook.resting at hperm
  unfold OrderBook.ownQ at hown
  simp only [List.map_append] at hperm
  by_cases hs : side = Buy
  · simp only [if_pos hs] at hown
    rw [hown] at hperm ⊢
    exact ⟨List.Perm.refl _, (List.perm_append_left_iff _).1 hperm⟩
  · simp only [if_neg hs] at hown
    rw [hown] at hperm ⊢
    exact ⟨(List.perm_append_right_iff _).1 hperm, List.Perm.refl _⟩

theorem OrderBook.Trade_short (ob : OrderBook) (o : Order) (hs : ob.sidesOk)
    (hh : ob.heapsOk) (hnm : ∀ x ∈ ob.oppQ o.Side, x.PriceMode ≠ .Market) :
    (ob.Trade o).1 = (ob.TradeShort o).1 ∧ (ob.Trade o).2.1 = (ob.TradeShort o).2.1 ∧
    (ob.Trade o).2.2.Done = (ob.TradeShort o).2.2.Done ∧
    ((ob.Trade o).2.2.Bids.map Order.strip).Perm ((ob.TradeShort o).2.2.Bids.map Order.strip) ∧
    ((ob.Trade o).2.2.Asks.map Order.strip).Perm
      ((ob.TradeShort o).2.2.Asks.map Order.strip) := by
  obtain ⟨e1, e2, e3, e4, e5⟩ := OrderBook.tradeLoop_short (ob.GetSideQueueLen o.Side)
    { ob := ob, order := o, skips := [], completes := [] } hs hh rfl hnm
  rw [OrderBook.Trade_eq, OrderBook.TradeShort_eq]
  refine ⟨rfl, e1, ?_, OrderBook.perm_queues _ _ o.Side e5 e4⟩
  have hd : List.foldl saveOne
      ((tradeLoop (ob.GetSideQueueLen o.Side) ⟨ob, o, [], []⟩).skips.foldl
        (fun b skip => b.PushOrder skip)
        (tradeLoop (ob.GetSideQueueLen o.Side) ⟨ob, o, [], []⟩).ob).Done
      (tradeLoop (ob.GetSideQueueLen o.Side) ⟨ob, o, [], []⟩).completes =
      List.foldl saveOne (tradeLoopShort (ob.GetSideQueueLen o.Side) ⟨ob, o, [], []⟩).ob.Done
        (tradeLoopShort (ob.GetSideQueueLen o.Side) ⟨ob, o, [], []⟩).completes := by
    rw [e2, e3]
  exact hd

/-! ## The addition of save on 64-bit integers -/

theorem OrderBook.wrap64_of_fits (x : Int) (h1 : -9223372036854775808 ≤ x)
    (h2 : x < 9223372036854775808) : wrap64 x = x := by
  unfold OrderBook.wrap64
  omega

theorem OrderBook.saveOne64_eq (d : DoneMap) (o : Order)
    (hfit : -9223372036854775808 ≤ DoneMap.qty d o.ID.String + o.Qty ∧
      DoneMap.qty d o.ID.String + o.Qty < 9223372036854775808) :
    saveOne64 d o = saveOne d o := by
  unfold OrderBook.saveOne64 OrderBook.saveOne
  simp only
  unfold DoneMap.qty at hfit
  split
  · next v hv =>
    rw [hv] at hfit
    simp only at hfit
    rw [OrderBook.wrap64_of_fits _ hfit.1 hfit.2]
  · rfl

/-- The machine addition wraps: a record of quantity `2^63 - 1` that receives 1 more
holds `-2^63` afterwards. -/
theorem OrderBook.saveOne64_wraps :
    DoneMap.qty (saveOne64
      [(sampleId1.String, limitOrder sampleId1 1 Buy 100 9223372036854775807)]
      (limitOrder sampleId1 2 Buy 100 1)) sampleId1.String = -9223372036854775808 := by
  decide

/-! ## Claims C1 and C2: validation -/

/-- C1: `NewOrder` fails exactly when `price < 1` or `qty < 1`; the error is
`ErrBadOrderQty` whenever `qty < 1` and `ErrBadOrderPrice` when `qty >= 1` and
`price < 1`; on success the order carries the given identifier, side, price and quantity
and the price mode `Unknown`. -/
theorem NewOrder_contract (id : UUID) (now : Time) (side : Side) (price qty : Int) :
    ((∃ e, NewOrder id now side price qty = .error e) ↔ (price < 1 ∨ qty < 1)) ∧
    (qty < 1 → NewOrder id now side price qty = .error .ErrBadOrderQty) ∧
    (1 ≤ qty → price < 1 → NewOrder id now side price qty = .error .ErrBadOrderPrice) ∧
    (1 ≤ price → 1 ≤ qty → ∃ o, NewOrder id now side price qty = .ok o ∧ o.ID = id ∧
      o.Side = side ∧ o.Price = price ∧ o.Qty = qty ∧ o.PriceMode = .Unknown) := by
  unfold NewOrder
  refine ⟨?_, ?_, ?_, ?_⟩
  · constructor
    · intro ⟨e, he⟩
      by_contra hc
      push_neg at hc
      rw [if_neg (by omega), if_neg (by omega)] at he
      cases he
    · intro h
      by_cases hq : qty < 1
      · exact ⟨_, by rw [if_pos hq]⟩
      · have hp : price < 1 := by omega
        exact ⟨_, by rw [if_neg hq, if_pos hp]⟩
  · intro hq; rw [if_pos hq]
  · intro hq hp; rw [if_neg (by omega), if_pos hp]
  · intro hp hq
    rw [if_neg (by omega), if_neg (by omega)]
    exact ⟨_, rfl, rfl, rfl, rfl, rfl, rfl⟩

/-- C2: for a side in {Buy, Sell}, `ProcessLimitOrder` returns `ErrTooLargeSizeOfQueue`
if the submitter's own queue (Bids for Buy, Asks for Sell) already holds at least
`MaxQueueSize` orders, otherwise `ErrBadOrderQty` if `qty < 1`, otherwise
`ErrBadOrderPrice` if `price < 1`, otherwise no error; and whenever it returns an error
the returned id is empty and the book is the one before the call. -/
theorem ProcessLimitOrder_errors (MaxQueueSize : Int) (ob : OrderBook) (id : UUID) (now : Time)
    (side : Side) (price qty : Int) (hside : side = Buy ∨ side = Sell) :
    (ob.ProcessLimitOrder MaxQueueSize id now side price qty).1.2 =
      (if (((if side = Buy then ob.Bids else ob.Asks).length : Int) ≥ MaxQueueSize) then
        some .ErrTooLargeSizeOfQueue
      else if qty < 1 then some .ErrBadOrderQty
      else if price < 1 then some .ErrBadOrderPrice
      else none) ∧
    ((ob.ProcessLimitOrder MaxQueueSize id now side price qty).1.2 ≠ none →
      (ob.ProcessLimitOrder MaxQueueSize id now side price qty).1.1 = "" ∧
      (ob.ProcessLimitOrder MaxQueueSize id now side price qty).2 = ob) := by
  have hcq : ob.CheckQueueSize MaxQueueSize side =
      if (((if side = Buy then ob.Bids else ob.Asks).length : Int) ≥ MaxQueueSize) then
        some .ErrTooLargeSizeOfQueue else none := by
    unfold OrderBook.CheckQueueSize OrderBook.GetBids OrderBook.GetAsks
    rcases hside with h | h
    · subst h; simp
    · subst h; simp [Buy, Sell]
  by_cases hfull : (((if side = Buy then ob.Bids else ob.Asks).length : Int) ≥ MaxQueueSize)
  · rw [if_pos hfull] at hcq
    have hr : ob.ProcessLimitOrder MaxQueueSize id now side price qty =
        (("", some .ErrTooLargeSizeOfQueue), ob) := by
      unfold OrderBook.ProcessLimitOrder; rw [hcq]
    rw [hr, if_pos hfull]
    exact ⟨rfl, fun _ => ⟨rfl, rfl⟩⟩
  · rw [if_neg hfull] at hcq
    rw [if_neg hfull]
    by_cases hq : qty < 1
    · have hr : ob.ProcessLimitOrder MaxQueueSize id now side price qty =
          (("", some .ErrBadOrderQty), ob) := by
        unfold OrderBook.ProcessLimitOrder NewOrder; rw [hcq]; simp only; rw [if_pos hq]
      rw [hr, if_pos hq]
      exact ⟨rfl, fun _ => ⟨rfl, rfl⟩⟩
    · by_cases hp : price < 1
      · have hr : ob.ProcessLimitOrder MaxQueueSize id now side price qty =
            (("", some .ErrBadOrderPrice), ob) := by
          unfold OrderBook.ProcessLimitOrder NewOrder; rw [hcq]; simp only
          rw [if_neg hq, if_pos hp]
        rw [hr, if_neg hq, if_pos hp]
        exact ⟨rfl, fun _ => ⟨rfl, rfl⟩⟩
      · rw [OrderBook.ProcessLimitOrder_ok _ _ _ _ _ _ _ hcq (by omega) (by omega),
          if_neg hq, if_neg hp]
        exact ⟨rfl, fun h => absurd rfl h⟩

/-- Witness of C2: a Buy with price 0 and quantity 0 on the empty book when
`MaxQueueSize` is 0; the capacity error comes first. -/
theorem ProcessLimitOrder_errors_witness :
    (Buy = Buy ∨ Buy = Sell) ∧
    (emptyBook.ProcessLimitOrder 0 sampleId1 5 Buy 0 0).1.2 =
      (if (((if Buy = Buy then emptyBook.Bids else emptyBook.Asks).length : Int) ≥ 0) then
        some .ErrTooLargeSizeOfQueue
      else if (0 : Int) < 1 then some .ErrBadOrderQty
      else if (0 : Int) < 1 then some .ErrBadOrderPrice
      else none) ∧
    ((emptyBook.ProcessLimitOrder 0 sampleId1 5 Buy 0 0).1.2 ≠ none →
      (emptyBook.ProcessLimitOrder 0 sampleId1 5 Buy 0 0).1.1 = "" ∧
      (emptyBook.ProcessLimitOrder 0 sampleId1 5 Buy 0 0).2 = emptyBook) :=
  ⟨Or.inl rfl, ProcessLimitOrder_errors 0 emptyBook sampleId1 5 Buy 0 0 (Or.inl rfl)⟩

/-! ## Claim C3: a saturated queue -/

theorem OrderBook.submitAll_rest_buy (M : Int) (p q : Int) (hp : 1 ≤ p) (hq : 1 ≤ q)
    (env : List (UUID × Time)) (ob : OrderBook)
    (hA : ob.Asks = []) (hD : ob.Done = []) (hcap : (ob.Bids.length : Int) + env.length ≤ M) :
    (∀ r ∈ (ob.submitAll M (env.map (fun e => Request.limit e.1 e.2 Buy p q))).1, r.2 = none) ∧
    (ob.submitAll M (env.map (fun e => Request.limit e.1 e.2 Buy p q))).2.Bids.length
      = ob.Bids.length + env.length ∧
    (ob.submitAll M (env.map (fun e => Request.limit e.1 e.2 Buy p q))).2.Asks = [] ∧
    (ob.submitAll M (env.map (fun e => Request.limit e.1 e.2 Buy p q))).2.Done = [] := by
  induction env generalizing ob with
  | nil => simp [OrderBook.submitAll, hA, hD]
  | cons e env ih =>
    simp only [List.map_cons, OrderBook.submitAll, OrderBook.submit]
    simp only [List.length_cons, Nat.cast_add, Nat.cast_one] at hcap
    have hc : ob.CheckQueueSize M Buy = none := by
      unfold OrderBook.CheckQueueSize OrderBook.GetBids
      rw [if_pos rfl, if_neg (by omega)]
    have hempty : ob.GetSideQueueLen Buy = 0 := by
      simp [OrderBook.GetSideQueueLen, hA, Orders.Len]
    rw [OrderBook.ProcessLimitOrder_ok M ob e.1 e.2 Buy p q hc hq hp]
    rw [OrderBook.process_rest _ _ hempty (by simp only [limitOrder]; omega)]
    simp only
    obtain ⟨h1, h2, h3⟩ := (OrderBook.PushOrderAt_queues ob (limitOrder e.1 e.2 Buy p q)).1 rfl
    have hD2 := (OrderBook.PushOrderAt_resting ob (limitOrder e.1 e.2 Buy p q)).2.1
    have := ih (ob.PushOrder (limitOrder e.1 e.2 Buy p q)) (h3.trans hA) (hD2.trans hD)
        (by unfold OrderBook.PushOrder; rw [h2]; push_cast; omega)
    obtain ⟨i1, i2, i3, i4⟩ := this
    refine ⟨?_, ?_, i3, i4⟩
    · intro r hr
      rcases List.mem_cons.1 hr with h | h
      · subst h; rfl
      · exact i1 r h
    · rw [i2]; unfold OrderBook.PushOrder; rw [h2]; simp only [List.length_cons]; omega

theorem OrderBook.submitAll_rest_sell (M : Int) (p q : Int) (hp : 1 ≤ p) (hq : 1 ≤ q)
    (env : List (UUID × Time)) (ob : OrderBook)
    (hB : ob.Bids = []) (hD : ob.Done = []) (hcap : (ob.Asks.length : Int) + env.length ≤ M) :
    (∀ r ∈ (ob.submitAll M (env.map (fun e => Request.limit e.1 e.2 Sell p q))).1, r.2 = none) ∧
    (ob.submitAll M (env.map (fun e => Request.limit e.1 e.2 Sell p q))).2.Asks.length
      = ob.Asks.length + env.length ∧
    (ob.submitAll M (env.map (fun e => Request.limit e.1 e.2 Sell p q))).2.Bids = [] ∧
    (ob.submitAll M (env.map (fun e => Request.limit e.1 e.2 Sell p q))).2.Done = [] := by
  have hsb : Sell ≠ Buy := by decide
  induction env generalizing ob with
  | nil => simp [OrderBook.submitAll, hB, hD]
  | cons e env ih =>
    simp only [List.map_cons, OrderBook.submitAll, OrderBook.submit]
    simp only [List.length_cons, Nat.cast_add, Nat.cast_one] at hcap
    have hc : ob.CheckQueueSize M Sell = none := by
      unfold OrderBook.CheckQueueSize OrderBook.GetAsks
      rw [if_neg hsb, if_pos rfl, if_neg (by omega)]
    have hempty : ob.GetSideQueueLen Sell = 0 := by
      simp [OrderBook.GetSideQueueLen, hB, Orders.Len, hsb]
    rw [OrderBook.ProcessLimitOrder_ok M ob e.1 e.2 Sell p q hc hq hp]
    rw [OrderBook.process_rest _ _ hempty (by simp only [limitOrder]; omega)]
    simp only
    obtain ⟨h1, h2, h3⟩ := (OrderBook.PushOrderAt_queues ob (limitOrder e.1 e.2 Sell p q)).2 hsb
    have hD2 := (OrderBook.PushOrderAt_resting ob (limitOrder e.1 e.2 Sell p q)).2.1
    have := ih (ob.PushOrder (limitOrder e.1 e.2 Sell p q)) (h3.trans hB) (hD2.trans hD)
        (by unfold OrderBook.PushOrder; rw [h2]; push_cast; omega)
    obtain ⟨i1, i2, i3, i4⟩ := this
    refine ⟨?_, ?_, i3, i4⟩
    · intro r hr
      rcases List.mem_cons.1 hr with h | h
      · subst h; rfl
      · exact i1 r h
    · rw [i2]; unfold OrderBook.PushOrder; rw [h2]; simp only [List.length_cons]; omega

/-- C3: with `MaxQueueSize = N`, a side in {Buy, Sell}, a price and a quantity of at least
1, `N` consecutive calls `ProcessLimitOrder(side, p, q)` on the empty book all succeed and
leave the queue of that side with exactly `N` orders, the other queue and Done empty; one
more such call fails with `ErrTooLargeSizeOfQueue`. -/
theorem saturated_queue (N : Nat) (side : Side) (p q : Int) (env : List (UUID × Time))
    (hside : side = Buy ∨ side = Sell) (hp : 1 ≤ p) (hq : 1 ≤ q) (hlen : env.length = N) :
    (∀ r ∈ (emptyBook.submitAll N (env.map (fun e => Request.limit e.1 e.2 side p q))).1,
      r.2 = none) ∧
    (emptyBook.submitAll N (env.map (fun e => Request.limit e.1 e.2 side p q))).1.length = N ∧
    (if side = Buy then
        (emptyBook.submitAll N (env.map (fun e => Request.limit e.1 e.2 side p q))).2.Bids
      else
        (emptyBook.submitAll N (env.map (fun e => Request.limit e.1 e.2 side p q))).2.Asks).length
      = N ∧
    (if side = Buy then
        (emptyBook.submitAll N (env.map (fun e => Request.limit e.1 e.2 side p q))).2.Asks
      else
        (emptyBook.submitAll N (env.map (fun e => Request.limit e.1 e.2 side p q))).2.Bids)
      = [] ∧
    (emptyBook.submitAll N (env.map (fun e => Request.limit e.1 e.2 side p q))).2.Done = [] ∧
    ∀ id now,
      ((emptyBook.submitAll N (env.map (fun e => Request.limit e.1 e.2 side p q))).2.ProcessLimitOrder
        N id now side p q).1 = ("", some .ErrTooLargeSizeOfQueue) := by
  have hlenres : ∀ (M : Int) (ob : OrderBook) (rs : List Request),
      (ob.submitAll M rs).1.length = rs.length := by
    intro M ob rs
    induction rs generalizing ob with
    | nil => rfl
    | cons r rs ih => simp [OrderBook.submitAll, ih]
  rcases hside with h | h
  · subst h
    obtain ⟨h1, h2, h3, h4⟩ := OrderBook.submitAll_rest_buy N p q hp hq env emptyBook rfl rfl
      (by simp [emptyBook, hlen])
    simp only [if_pos]
    refine ⟨h1, by rw [hlenres]; simpa using hlen, ?_, h3, h4, ?_⟩
    · rw [h2]; simp [emptyBook, hlen]
    · intro id now
      rw [OrderBook.ProcessLimitOrder_full N _ id now Buy p q (Or.inl rfl)
        (by rw [if_pos rfl, h2]; simp [emptyBook, hlen])]
  · subst h
    have hsb : Sell ≠ Buy := by decide
    obtain ⟨h1, h2, h3, h4⟩ := OrderBook.submitAll_rest_sell N p q hp hq env emptyBook rfl rfl
      (by simp [emptyBook, hlen])
    simp only [if_neg hsb]
    refine ⟨h1, by rw [hlenres]; simpa using hlen, ?_, h3, h4, ?_⟩
    · rw [h2]; simp [emptyBook, hlen]
    · intro id now
      rw [OrderBook.ProcessLimitOrder_full N _ id now Sell p q (Or.inr rfl)
        (by rw [if_neg hsb, h2]; simp [emptyBook, hlen])]

/-- Witness of C3: two Buy orders of price 100 and quantity 10 with `MaxQueueSize = 2`. -/
theorem saturated_queue_witness :
    (Buy = Buy ∨ Buy = Sell) ∧ (1 : Int) ≤ 100 ∧ (1 : Int) ≤ 10 ∧
    [(sampleId1, (1 : Time)), (sampleId2, (2 : Time))].length = 2 ∧
    (emptyBook.submitAll (2 : Nat) ([(sampleId1, (1 : Time)), (sampleId2, (2 : Time))].map
      (fun e => Request.limit e.1 e.2 Buy 100 10))).2.Done = [] ∧
    ∀ id now,
      ((emptyBook.submitAll (2 : Nat) ([(sampleId1, (1 : Time)), (sampleId2, (2 : Time))].map
        (fun e => Request.limit e.1 e.2 Buy 100 10))).2.ProcessLimitOrder
        (2 : Nat) id now Buy 100 10).1 = ("", some .ErrTooLargeSizeOfQueue) :=
  ⟨Or.inl rfl, by decide, by decide, rfl,
    (saturated_queue 2 Buy 100 10 [(sampleId1, 1), (sampleId2, 2)] (Or.inl rfl)
      (by decide) (by decide) rfl).2.2.2.2.1,
    (saturated_queue 2 Buy 100 10 [(sampleId1, 1), (sampleId2, 2)] (Or.inl rfl)
      (by decide) (by decide) rfl).2.2.2.2.2⟩

/-! ## Claim C4: the returned identifier -/

/-- C4: whenever `ProcessLimitOrder` or `ProcessMarketOrder` returns a nil error, the
returned id is the identifier of the new order and is not empty, and `GetOrder` on that id
right afterwards returns Pending or Completed; `Trade` never returns an error, so the
pair of an empty id and a nil error is never returned. -/
theorem submission_returns_id (MaxQueueSize : Int) (ob : OrderBook) (id : UUID) (now : Time)
    (side : Side) (price qty : Int) (out : Order) :
    ((ob.ProcessLimitOrder MaxQueueSize id now side price qty).1.2 = none →
      (ob.ProcessLimitOrder MaxQueueSize id now side price qty).1.1 = id.String ∧
      (ob.ProcessLimitOrder MaxQueueSize id now side price qty).1.1 ≠ "" ∧
      (((ob.ProcessLimitOrder MaxQueueSize id now side price qty).2.GetOrder
          (ob.ProcessLimitOrder MaxQueueSize id now side price qty).1.1 (some out)).1
            = .StatusPending ∨
        ((ob.ProcessLimitOrder MaxQueueSize id now side price qty).2.GetOrder
          (ob.ProcessLimitOrder MaxQueueSize id now side price qty).1.1 (some out)).1
            = .StatusCompleted)) ∧
    ((ob.ProcessMarketOrder MaxQueueSize id now side qty).1.2 = none →
      (ob.ProcessMarketOrder MaxQueueSize id now side qty).1.1 = id.String ∧
      (ob.ProcessMarketOrder MaxQueueSize id now side qty).1.1 ≠ "" ∧
      (((ob.ProcessMarketOrder MaxQueueSize id now side qty).2.GetOrder
          (ob.ProcessMarketOrder MaxQueueSize id now side qty).1.1 (some out)).1
            = .StatusPending ∨
        ((ob.ProcessMarketOrder MaxQueueSize id now side qty).2.GetOrder
          (ob.ProcessMarketOrder MaxQueueSize id now side qty).1.1 (some out)).1
            = .StatusCompleted)) ∧
    (∀ o : Order, (ob.Trade o).1 = none) ∧
    (ob.ProcessLimitOrder MaxQueueSize id now side price qty).1 ≠ ("", none) ∧
    (ob.ProcessMarketOrder MaxQueueSize id now side qty).1 ≠ ("", none) := by
  have hL : (ob.ProcessLimitOrder MaxQueueSize id now side price qty).1.2 = none →
      ob.CheckQueueSize MaxQueueSize side = none ∧ 1 ≤ qty ∧ 1 ≤ price := by
    intro h
    unfold OrderBook.ProcessLimitOrder NewOrder at h
    split at h
    · cases h
    · next hc =>
      by_cases hq : qty < 1
      · rw [if_pos hq] at h; cases h
      · by_cases hp : price < 1
        · rw [if_neg hq, if_pos hp] at h; cases h
        · exact ⟨hc, by omega, by omega⟩
  have hM : (ob.ProcessMarketOrder MaxQueueSize id now side qty).1.2 = none →
      ob.CheckQueueSize MaxQueueSize side = none ∧ 1 ≤ qty := by
    intro h
    unfold OrderBook.ProcessMarketOrder NewOrder at h
    split at h
    · cases h
    · next hc =>
      by_cases hq : qty < 1
      · rw [if_pos hq] at h; cases h
      · exact ⟨hc, by omega⟩
  have hL2 : (ob.ProcessLimitOrder MaxQueueSize id now side price qty).1.2 = none →
      (ob.ProcessLimitOrder MaxQueueSize id now side price qty).1.1 = id.String ∧
      (ob.ProcessLimitOrder MaxQueueSize id now side price qty).1.1 ≠ "" ∧
      (((ob.ProcessLimitOrder MaxQueueSize id now side price qty).2.GetOrder
          (ob.ProcessLimitOrder MaxQueueSize id now side price qty).1.1 (some out)).1
            = .StatusPending ∨
        ((ob.ProcessLimitOrder MaxQueueSize id now side price qty).2.GetOrder
          (ob.ProcessLimitOrder MaxQueueSize id now side price qty).1.1 (some out)).1
            = .StatusCompleted) := by
    intro h
    obtain ⟨hc, hq, hp⟩ := hL h
    rw [OrderBook.ProcessLimitOrder_ok _ _ _ _ _ _ _ hc hq hp]
    exact ⟨rfl, UUID.String_ne_empty id, OrderBook.process_found ob _ out⟩
  have hM2 : (ob.ProcessMarketOrder MaxQueueSize id now side qty).1.2 = none →
      (ob.ProcessMarketOrder MaxQueueSize id now side qty).1.1 = id.String ∧
      (ob.ProcessMarketOrder MaxQueueSize id now side qty).1.1 ≠ "" ∧
      (((ob.ProcessMarketOrder MaxQueueSize id now side qty).2.GetOrder
          (ob.ProcessMarketOrder MaxQueueSize id now side qty).1.1 (some out)).1
            = .StatusPending ∨
        ((ob.ProcessMarketOrder MaxQueueSize id now side qty).2.GetOrder
          (ob.ProcessMarketOrder MaxQueueSize id now side qty).1.1 (some out)).1
            = .StatusCompleted) := by
    intro h
    obtain ⟨hc, hq⟩ := hM h
    rw [OrderBook.ProcessMarketOrder_ok _ _ _ _ _ _ hc hq]
    exact ⟨rfl, UUID.String_ne_empty id, OrderBook.process_found ob _ out⟩
  refine ⟨hL2, hM2, fun o => OrderBook.Trade_err ob o, ?_, ?_⟩
  · intro h
    have h2 : (ob.ProcessLimitOrder MaxQueueSize id now side price qty).1.2 = none := by rw [h]
    exact (hL2 h2).2.1 (by rw [h])
  · intro h
    have h2 : (ob.ProcessMarketOrder MaxQueueSize id now side qty).1.2 = none := by rw [h]
    exact (hM2 h2).2.1 (by rw [h])

/-! ## Claim C5: completed or resting -/

/-- C5: a successful submission of a new order of quantity `qty` (its identifier occurs
nowhere in the book yet) ends in one of two ways.  If matching leaves the incoming order
with residual 0, the order is in neither queue and Done holds a record under its id whose
quantity is the submitted `qty`.  Otherwise the order rests in the queue of its own side
(Bids for Buy, Asks otherwise) with quantity `qty` minus the total quantity that was
filled, it is not in the other queue, and Done holds no record under its id.  The
statement is made for `ProcessLimitOrder` and for `ProcessMarketOrder`. -/
theorem submission_outcome (MaxQueueSize : Int) (ob : OrderBook) (id : UUID) (now : Time)
    (side : Side) (price qty : Int)
    (hQ : ∀ x ∈ ob.Bids ++ ob.Asks, x.ID ≠ id) (hD : ob.Done.get? id.String = none) :
    ((ob.ProcessLimitOrder MaxQueueSize id now side price qty).1.2 = none →
      ((ob.Trade (limitOrder id now side price qty)).2.1.Qty = 0 →
        (∀ x ∈ (ob.ProcessLimitOrder MaxQueueSize id now side price qty).2.Bids ++
            (ob.ProcessLimitOrder MaxQueueSize id now side price qty).2.Asks, x.ID ≠ id) ∧
        ∃ r, (ob.ProcessLimitOrder MaxQueueSize id now side price qty).2.Done.get? id.String
            = some r ∧ r.ID = id ∧ r.Qty = qty) ∧
      ((ob.Trade (limitOrder id now side price qty)).2.1.Qty ≠ 0 →
        (∃ x ∈ (if side = Buy then
              (ob.ProcessLimitOrder MaxQueueSize id now side price qty).2.Bids
            else (ob.ProcessLimitOrder MaxQueueSize id now side price qty).2.Asks),
          x.ID = id ∧
          x.Qty = qty - sumQty (ob.tradeCompletes (limitOrder id now side price qty))) ∧
        (∀ x ∈ (if side = Buy then
              (ob.ProcessLimitOrder MaxQueueSize id now side price qty).2.Asks
            else (ob.ProcessLimitOrder MaxQueueSize id now side price qty).2.Bids),
          x.ID ≠ id) ∧
        (ob.ProcessLimitOrder MaxQueueSize id now side price qty).2.Done.get? id.String
          = none)) ∧
    ((ob.ProcessMarketOrder MaxQueueSize id now side qty).1.2 = none →
      ((ob.Trade (marketOrder id now side qty)).2.1.Qty = 0 →
        (∀ x ∈ (ob.ProcessMarketOrder MaxQueueSize id now side qty).2.Bids ++
            (ob.ProcessMarketOrder MaxQueueSize id now side qty).2.Asks, x.ID ≠ id) ∧
        ∃ r, (ob.ProcessMarketOrder MaxQueueSize id now side qty).2.Done.get? id.String
            = some r ∧ r.ID = id ∧ r.Qty = qty) ∧
      ((ob.Trade (marketOrder id now side qty)).2.1.Qty ≠ 0 →
        (∃ x ∈ (if side = Buy then
              (ob.ProcessMarketOrder MaxQueueSize id now side qty).2.Bids
            else (ob.ProcessMarketOrder MaxQueueSize id now side qty).2.Asks),
          x.ID = id ∧
          x.Qty = qty - sumQty (ob.tradeCompletes (marketOrder id now side qty))) ∧
        (∀ x ∈ (if side = Buy then
              (ob.ProcessMarketOrder MaxQueueSize id now side qty).2.Asks
            else (ob.ProcessMarketOrder MaxQueueSize id now side qty).2.Bids),
          x.ID ≠ id) ∧
        (ob.ProcessMarketOrder MaxQueueSize id now side qty).2.Done.get? id.String
          = none)) := by
  constructor
  · intro herr
    obtain ⟨-, -, -, heq⟩ := OrderBook.ProcessLimitOrder_ok2 _ _ _ _ _ _ _ herr
    rw [heq]
    exact OrderBook.process_outcome ob (limitOrder id now side price qty) hQ hD
  · intro herr
    obtain ⟨-, -, heq⟩ := OrderBook.ProcessMarketOrder_ok2 _ _ _ _ _ _ herr
    rw [heq]
    exact OrderBook.process_outcome ob (marketOrder id now side qty) hQ hD

/-- Witness of C5: a Buy of 4 at price 100 meets a book whose only order is a Sell of 10
at price 100 and is filled completely. -/
theorem submission_outcome_witness :
    (∀ x ∈ sampleBookAsk.Bids ++ sampleBookAsk.Asks, x.ID ≠ sampleId1) ∧
    sampleBookAsk.Done.get? sampleId1.String = none ∧
    (sampleBookAsk.ProcessLimitOrder 100 sampleId1 2 Buy 100 4).1.2 = none ∧
    (sampleBookAsk.Trade (limitOrder sampleId1 2 Buy 100 4)).2.1.Qty = 0 ∧
    (∀ x ∈ (sampleBookAsk.ProcessLimitOrder 100 sampleId1 2 Buy 100 4).2.Bids ++
        (sampleBookAsk.ProcessLimitOrder 100 sampleId1 2 Buy 100 4).2.Asks,
      x.ID ≠ sampleId1) ∧
    ∃ r, (sampleBookAsk.ProcessLimitOrder 100 sampleId1 2 Buy 100 4).2.Done.get?
        sampleId1.String = some r ∧ r.ID = sampleId1 ∧ r.Qty = 4 :=
  ⟨by decide, by decide, by decide, by decide,
    ((submission_outcome 100 sampleBookAsk sampleId1 2 Buy 100 4 (by decide) (by decide)).1
      (by decide)).1 (by decide)⟩

/-! ## Claim C6: Done accumulates across matches -/

theorem OrderBook.sell_takes_bid (M : Int) (ob : OrderBook) (id : UUID) (now : Time) (p q : Int)
    (hM : 1 ≤ M) (hp : 1 ≤ p) (hq : 1 ≤ q)
    (hA : ob.Asks = []) (hB : ob.Bids ≠ [])
    (hU : ∀ x ∈ ob.Bids, x.Price = p ∧ x.Qty = q ∧ x.PriceMode = .Limit)
    (hD1 : ob.Done.get? id.String = none)
    (hD2 : ∀ x ∈ ob.Bids, ob.Done.get? x.ID.String = none ∧ x.ID ≠ id) :
    (ob.ProcessLimitOrder M id now Sell p q).1 = (id.String, none) ∧
    (ob.ProcessLimitOrder M id now Sell p q).2.Asks = [] ∧
    ∃ pop, (pop.strip :: (ob.ProcessLimitOrder M id now Sell p q).2.Bids.map Order.strip).Perm
        (ob.Bids.map Order.strip) ∧
      (ob.ProcessLimitOrder M id now Sell p q).2.Done =
        ob.Done ++ [(pop.ID.String, pop), (id.String, limitOrder id now Sell p q)] := by
  have hsb : Sell ≠ Buy := by decide
  have hc : ob.CheckQueueSize M Sell = none := by
    unfold OrderBook.CheckQueueSize OrderBook.GetAsks
    rw [if_neg hsb, if_pos rfl, hA, if_neg (by simp; omega)]
  rw [OrderBook.ProcessLimitOrder_ok _ _ _ _ _ _ _ hc hq hp]
  have hlen : ob.GetSideQueueLen Sell > 0 := by
    unfold OrderBook.GetSideQueueLen Orders.Len
    rw [if_neg hsb]
    exact List.length_pos.2 hB
  obtain ⟨pop, ob1, hpop⟩ := OrderBook.PopBySide_isSome ob Sell hlen
  obtain ⟨-, hdone, -, -, -, -, hs2⟩ := OrderBook.PopBySide_some _ _ _ _ hpop
  obtain ⟨hasks, hperm⟩ := hs2 hsb
  have hmem : pop.strip ∈ ob.Bids.map Order.strip := hperm.subset (List.mem_cons_self _ _)
  obtain ⟨y, hy, hys⟩ := List.mem_map.1 hmem
  obtain ⟨e1, e2, e3, e4, -, -⟩ := Order.strip_ID _ _ hys
  obtain ⟨u1, u2, u3⟩ := hU y hy
  obtain ⟨d1, d2⟩ := hD2 y hy
  have hfin : ob.tradeFinal (limitOrder id now Sell p q) =
      { ob := ob1, order := { limitOrder id now Sell p q with Qty := 0 }, skips := [],
        completes := [pop] } := by
    unfold OrderBook.tradeFinal
    obtain ⟨n, hn⟩ : ∃ n, ob.GetSideQueueLen (limitOrder id now Sell p q).Side = n + 1 :=
      ⟨ob.GetSideQueueLen Sell - 1, by
        show ob.GetSideQueueLen Sell = _
        omega⟩
    rw [hn]
    have hb := OrderBook.tradeBody_equal
      { ob := ob, order := limitOrder id now Sell p q, skips := [], completes := [] } pop ob1
      rfl (by rw [← e3]; exact u3) (by rw [← e2]; exact u1) (by rw [← e4]; exact u2)
      (by show q ≠ 0; omega)
    rw [OrderBook.tradeLoop_one n _ pop ob1 hlen (by show q > 0; omega) hpop
      (by rw [hb]; simp)]
    rw [hb]
    rfl
  have hpd : ob.Done.get? pop.ID.String = none := by rw [← e1]; exact d1
  have hT : ob.Trade (limitOrder id now Sell p q) =
      (none, { limitOrder id now Sell p q with Qty := 0 },
        { ob1 with Done := ob.Done ++ [(pop.ID.String, pop)] }) := by
    rw [OrderBook.Trade_eq]
    unfold OrderBook.tradeCompletes
    rw [hfin]
    simp only [List.foldl_nil, OrderBook.save, List.foldl_cons]
    rw [hdone, OrderBook.saveOne_fresh _ _ hpd]
  rw [OrderBook.process_eq, hT]
  simp only [if_true]
  have hid : (ob.Done ++ [(pop.ID.String, pop)]).get? id.String = none := by
    rw [DoneMap.get?_eq_none_iff] at hD1 ⊢
    simp only [List.map_append, List.map_cons, List.map_nil, List.mem_append,
      List.mem_singleton, not_or]
    refine ⟨hD1, fun h => d2 ?_⟩
    rw [e1]
    exact (UUID.String_inj _ _ h).symm
  refine ⟨trivial, hasks.trans hA, pop, hperm, ?_⟩
  simp only [OrderBook.save, List.foldl_cons, List.foldl_nil]
  have := OrderBook.saveOne_fresh (ob.Done ++ [(pop.ID.String, pop)])
    (limitOrder id now Sell p q) hid
  simp only [limitOrder] at this ⊢
  rw [this]
  simp

theorem OrderBook.submitAll_append (M : Int) (ob : OrderBook) (rs1 rs2 : List Request) :
    ob.submitAll M (rs1 ++ rs2) =
      ((ob.submitAll M rs1).1 ++ ((ob.submitAll M rs1).2.submitAll M rs2).1,
        ((ob.submitAll M rs1).2.submitAll M rs2).2) := by
  induction rs1 generalizing ob with
  | nil => rfl
  | cons r rs ih =>
    show ((ob.submit M r).1 :: ((ob.submit M r).2.submitAll M (rs ++ rs2)).1,
      ((ob.submit M r).2.submitAll M (rs ++ rs2)).2) = _
    rw [ih]
    rfl

theorem OrderBook.submitAll_rest_buy_perm (M : Int) (p q : Int) (hp : 1 ≤ p) (hq : 1 ≤ q)
    (env : List (UUID × Time)) (ob : OrderBook)
    (hA : ob.Asks = []) (hcap : (ob.Bids.length : Int) + env.length ≤ M) :
    ((ob.submitAll M (env.map (fun e => Request.limit e.1 e.2 Buy p q))).2.Bids.map
      Order.strip).Perm
        (ob.Bids.map Order.strip ++ env.map (fun e => limitOrder e.1 e.2 Buy p q)) := by
  induction env generalizing ob with
  | nil => simp [OrderBook.submitAll]
  | cons e env ih =>
    simp only [List.map_cons, OrderBook.submitAll, OrderBook.submit]
    simp only [List.length_cons, Nat.cast_add, Nat.cast_one] at hcap
    have hc : ob.CheckQueueSize M Buy = none := by
      unfold OrderBook.CheckQueueSize OrderBook.GetBids
      rw [if_pos rfl, if_neg (by omega)]
    have hempty : ob.GetSideQueueLen Buy = 0 := by
      simp [OrderBook.GetSideQueueLen, hA, Orders.Len]
    rw [OrderBook.ProcessLimitOrder_ok M ob e.1 e.2 Buy p q hc hq hp]
    rw [OrderBook.process_rest _ _ hempty (by simp only [limitOrder]; omega)]
    simp only
    obtain ⟨h1, h2, h3⟩ := (OrderBook.PushOrderAt_queues ob (limitOrder e.1 e.2 Buy p q)).1 rfl
    have := ih (ob.PushOrder (limitOrder e.1 e.2 Buy p q)) (h3.trans hA)
        (by unfold OrderBook.PushOrder; rw [h2]; push_cast; omega)
    refine this.trans ?_
    unfold OrderBook.PushOrder
    refine (List.Perm.append_right _ h1).trans ?_
    have hs : (limitOrder e.1 e.2 Buy p q).strip = limitOrder e.1 e.2 Buy p q := rfl
    rw [hs]
    simp only [List.cons_append]
    exact List.perm_middle.symm

theorem list_perm_shuffle {α : Type} [DecidableEq α] (A B C : List α) (x y : α) :
    ((A ++ [x, y]) ++ B ++ C).Perm (A ++ (x :: B) ++ (y :: C)) := by
  rw [List.perm_iff_count]
  intro a
  simp only [List.count_append, List.count_cons, List.count_nil]
  omega

theorem OrderBook.submitAll_sells (M : Int) (p q : Int) (hM : 1 ≤ M) (hp : 1 ≤ p) (hq : 1 ≤ q)
    (env : List (UUID × Time)) (ob : OrderBook)
    (hA : ob.Asks = []) (hlen : env.length ≤ ob.Bids.length)
    (hU : ∀ x ∈ ob.Bids, x.Price = p ∧ x.Qty = q ∧ x.PriceMode = .Limit)
    (hN : (ob.Done.map Prod.fst ++ ob.Bids.map (fun x => x.ID.String) ++
      env.map (fun e => e.1.String)).Nodup)
    (hQ : ∀ kv ∈ ob.Done, kv.2.Qty = q) :
    (∀ r ∈ (ob.submitAll M (env.map (fun e => Request.limit e.1 e.2 Sell p q))).1, r.2 = none) ∧
    (ob.submitAll M (env.map (fun e => Request.limit e.1 e.2 Sell p q))).2.Asks = [] ∧
    (ob.submitAll M (env.map (fun e => Request.limit e.1 e.2 Sell p q))).2.Bids.length
      + env.length = ob.Bids.length ∧
    ((ob.submitAll M (env.map (fun e => Request.limit e.1 e.2 Sell p q))).2.Done.map Prod.fst ++
      (ob.submitAll M (env.map (fun e => Request.limit e.1 e.2 Sell p q))).2.Bids.map
        (fun x => x.ID.String)).Perm
      (ob.Done.map Prod.fst ++ ob.Bids.map (fun x => x.ID.String) ++
        env.map (fun e => e.1.String)) ∧
    (∀ kv ∈ (ob.submitAll M (env.map (fun e => Request.limit e.1 e.2 Sell p q))).2.Done,
      kv.2.Qty = q) := by
  induction env generalizing ob with
  | nil => exact ⟨by simp [OrderBook.submitAll], hA, rfl, by simp [OrderBook.submitAll], hQ⟩
  | cons e env ih =>
    simp only [List.map_cons, OrderBook.submitAll, OrderBook.submit]
    simp only [List.length_cons] at hlen
    have hB : ob.Bids ≠ [] := by
      intro h0; rw [h0] at hlen; simp at hlen
    simp only [List.map_cons] at hN
    have hN1 := hN
    rw [List.nodup_append] at hN1
    obtain ⟨hN2, hN3, hN4⟩ := hN1
    rw [List.nodup_append] at hN2
    obtain ⟨hN5, hN6, hN7⟩ := hN2
    have hD1 : ob.Done.get? e.1.String = none := by
      rw [DoneMap.get?_eq_none_iff]
      intro hmem
      exact hN4 (List.mem_append_left _ hmem) (List.mem_cons_self _ _)
    have hD2 : ∀ x ∈ ob.Bids, ob.Done.get? x.ID.String = none ∧ x.ID ≠ e.1 := by
      intro x hx
      have hxm : x.ID.String ∈ ob.Bids.map (fun x => x.ID.String) :=
        List.mem_map.2 ⟨x, hx, rfl⟩
      constructor
      · rw [DoneMap.get?_eq_none_iff]
        intro hmem
        exact hN7 hmem hxm
      · intro heq
        exact hN4 (List.mem_append_right _ hxm) (by rw [heq]; exact List.mem_cons_self _ _)
    obtain ⟨s1, s2, pop, s3, s4⟩ :=
      OrderBook.sell_takes_bid M ob e.1 e.2 p q hM hp hq hA hB hU hD1 hD2
    have hidperm : (pop.ID.String ::
        (ob.ProcessLimitOrder M e.1 e.2 Sell p q).2.Bids.map (fun x => x.ID.String)).Perm
        (ob.Bids.map (fun x => x.ID.String)) := by
      have := s3.map (fun x => x.ID.String)
      simpa [Order.strip, Function.comp_def] using this
    have hlen2 : (ob.ProcessLimitOrder M e.1 e.2 Sell p q).2.Bids.length + 1 =
        ob.Bids.length := by
      have := s3.length_eq
      simpa using this
    have hU2 : ∀ x ∈ (ob.ProcessLimitOrder M e.1 e.2 Sell p q).2.Bids,
        x.Price = p ∧ x.Qty = q ∧ x.PriceMode = .Limit := by
      intro x hx
      have : x.strip ∈ ob.Bids.map Order.strip :=
        s3.subset (List.mem_cons_of_mem _ (List.mem_map.2 ⟨x, hx, rfl⟩))
      obtain ⟨y, hy, hys⟩ := List.mem_map.1 this
      obtain ⟨-, e2, e3, e4, -, -⟩ := Order.strip_ID _ _ hys
      obtain ⟨u1, u2, u3⟩ := hU y hy
      exact ⟨e2 ▸ u1, e4 ▸ u2, e3 ▸ u3⟩
    have hpopq : pop.Qty = q := by
      have : pop.strip ∈ ob.Bids.map Order.strip := s3.subset (List.mem_cons_self _ _)
      obtain ⟨y, hy, hys⟩ := List.mem_map.1 this
      obtain ⟨-, -, -, e4, -, -⟩ := Order.strip_ID _ _ hys
      exact e4 ▸ (hU y hy).2.1
    have hkeys : (ob.ProcessLimitOrder M e.1 e.2 Sell p q).2.Done.map Prod.fst =
        ob.Done.map Prod.fst ++ [pop.ID.String, e.1.String] := by
      rw [s4]; simp
    have hbig : ((ob.ProcessLimitOrder M e.1 e.2 Sell p q).2.Done.map Prod.fst ++
        (ob.ProcessLimitOrder M e.1 e.2 Sell p q).2.Bids.map (fun x => x.ID.String) ++
        env.map (fun e => e.1.String)).Perm
        (ob.Done.map Prod.fst ++ ob.Bids.map (fun x => x.ID.String) ++
          (e.1.String :: env.map (fun e => e.1.String))) := by
      rw [hkeys]
      refine (list_perm_shuffle _ _ _ _ _).trans ?_
      exact List.Perm.append_right _ (List.Perm.append_left _ hidperm)
    have hQ2 : ∀ kv ∈ (ob.ProcessLimitOrder M e.1 e.2 Sell p q).2.Done, kv.2.Qty = q := by
      intro kv hkv
      rw [s4] at hkv
      rcases List.mem_append.1 hkv with h | h
      · exact hQ kv h
      · simp only [List.mem_cons, List.mem_singleton, List.not_mem_nil, or_false] at h
        rcases h with h | h
        · rw [h]; exact hpopq
        · rw [h]; rfl
    obtain ⟨i1, i2, i3, i4, i5⟩ := ih (ob.ProcessLimitOrder M e.1 e.2 Sell p q).2 s2
      (by omega) hU2 (hbig.nodup_iff.2 hN) hQ2
    refine ⟨?_, i2, by simp only [List.length_cons]; omega, i4.trans hbig, i5⟩
    intro r hr
    rcases List.mem_cons.1 hr with h | h
    · rw [h, s1]
    · exact i1 r h


/-- C6: for `1 <= n <= MaxQueueSize`, a price and a quantity of at least 1 and `2n` distinct
identifiers, `n` calls `ProcessLimitOrder(Buy, p, q)` followed by `n` calls
`ProcessLimitOrder(Sell, p, q)` on the empty book all succeed, leave Bids and Asks empty
and leave Done with exactly `2n` entries, one under each submitted identifier, each with
quantity `q`. -/
theorem done_accumulates (MaxQueueSize : Int) (n : Nat) (p q : Int)
    (envB envS : List (UUID × Time)) (h1 : 1 ≤ n) (hn : (n : Int) ≤ MaxQueueSize)
    (hp : 1 ≤ p) (hq : 1 ≤ q) (hB : envB.length = n) (hS : envS.length = n)
    (hids : ((envB ++ envS).map (fun e => e.1)).Nodup) :
    (∀ r ∈ (emptyBook.submitAll MaxQueueSize
        (envB.map (fun e => Request.limit e.1 e.2 Buy p q) ++
          envS.map (fun e => Request.limit e.1 e.2 Sell p q))).1, r.2 = none) ∧
    (emptyBook.submitAll MaxQueueSize
        (envB.map (fun e => Request.limit e.1 e.2 Buy p q) ++
          envS.map (fun e => Request.limit e.1 e.2 Sell p q))).2.Bids = [] ∧
    (emptyBook.submitAll MaxQueueSize
        (envB.map (fun e => Request.limit e.1 e.2 Buy p q) ++
          envS.map (fun e => Request.limit e.1 e.2 Sell p q))).2.Asks = [] ∧
    (emptyBook.submitAll MaxQueueSize
        (envB.map (fun e => Request.limit e.1 e.2 Buy p q) ++
          envS.map (fun e => Request.limit e.1 e.2 Sell p q))).2.Done.length = 2 * n ∧
    ((emptyBook.submitAll MaxQueueSize
        (envB.map (fun e => Request.limit e.1 e.2 Buy p q) ++
          envS.map (fun e => Request.limit e.1 e.2 Sell p q))).2.Done.map Prod.fst).Perm
      ((envB ++ envS).map (fun e => e.1.String)) ∧
    (∀ kv ∈ (emptyBook.submitAll MaxQueueSize
        (envB.map (fun e => Request.limit e.1 e.2 Buy p q) ++
          envS.map (fun e => Request.limit e.1 e.2 Sell p q))).2.Done, kv.2.Qty = q) := by
  rw [OrderBook.submitAll_append]
  simp only
  obtain ⟨b1, b2, b3, b4⟩ := OrderBook.submitAll_rest_buy MaxQueueSize p q hp hq envB emptyBook
    rfl rfl (by simp [emptyBook, hB, hn])
  have b5 := OrderBook.submitAll_rest_buy_perm MaxQueueSize p q hp hq envB emptyBook
    rfl (by simp [emptyBook, hB, hn])
  have hE : emptyBook.Bids = [] := rfl
  rw [hE] at b2 b5
  simp only [List.map_nil, List.nil_append, List.length_nil, Nat.zero_add] at b2 b5
  have hU : ∀ x ∈ (emptyBook.submitAll MaxQueueSize
      (envB.map (fun e => Request.limit e.1 e.2 Buy p q))).2.Bids,
      x.Price = p ∧ x.Qty = q ∧ x.PriceMode = .Limit := by
    intro x hx
    have : x.strip ∈ envB.map (fun e => limitOrder e.1 e.2 Buy p q) :=
      b5.subset (List.mem_map.2 ⟨x, hx, rfl⟩)
    obtain ⟨e, -, he⟩ := List.mem_map.1 this
    obtain ⟨-, e2, e3, e4, -, -⟩ := Order.strip_ID x (limitOrder e.1 e.2 Buy p q) he.symm
    exact ⟨e2, e4, e3⟩
  have hidB : ((emptyBook.submitAll MaxQueueSize
      (envB.map (fun e => Request.limit e.1 e.2 Buy p q))).2.Bids.map
        (fun x => x.ID.String)).Perm (envB.map (fun e => e.1.String)) := by
    have := b5.map (fun x => x.ID.String)
    simpa [Order.strip, Function.comp_def, limitOrder] using this
  have hidsS : ((envB ++ envS).map (fun e => e.1.String)).Nodup := by
    have := List.Nodup.map (f := fun u : UUID => u.String)
      (fun u v h => UUID.String_inj u v h) hids
    simpa [Function.comp_def] using this
  have hN : ((emptyBook.submitAll MaxQueueSize
      (envB.map (fun e => Request.limit e.1 e.2 Buy p q))).2.Done.map Prod.fst ++
      (emptyBook.submitAll MaxQueueSize
        (envB.map (fun e => Request.limit e.1 e.2 Buy p q))).2.Bids.map (fun x => x.ID.String) ++
      envS.map (fun e => e.1.String)).Nodup := by
    rw [b4]
    simp only [List.map_nil, List.nil_append]
    refine (List.Perm.nodup_iff (List.Perm.append_right _ hidB)).2 ?_
    simpa using hidsS
  obtain ⟨s1, s2, s3, s4, s5⟩ := OrderBook.submitAll_sells MaxQueueSize p q (by omega) hp hq envS
    (emptyBook.submitAll MaxQueueSize (envB.map (fun e => Request.limit e.1 e.2 Buy p q))).2
    b3 (by rw [b2, hB, hS]) hU hN (by rw [b4]; simp)
  have hnil : ((emptyBook.submitAll MaxQueueSize
      (envB.map (fun e => Request.limit e.1 e.2 Buy p q))).2.submitAll MaxQueueSize
      (envS.map (fun e => Request.limit e.1 e.2 Sell p q))).2.Bids = [] := by
    apply List.length_eq_zero.1
    omega
  have hkeys : (((emptyBook.submitAll MaxQueueSize
      (envB.map (fun e => Request.limit e.1 e.2 Buy p q))).2.submitAll MaxQueueSize
      (envS.map (fun e => Request.limit e.1 e.2 Sell p q))).2.Done.map Prod.fst).Perm
      ((envB ++ envS).map (fun e => e.1.String)) := by
    rw [hnil, b4] at s4
    simp only [List.map_nil, List.append_nil, List.nil_append] at s4
    refine s4.trans ?_
    rw [List.map_append]
    exact List.Perm.append_right _ hidB
  refine ⟨?_, hnil, s2, ?_, hkeys, s5⟩
  · intro r hr
    rcases List.mem_append.1 hr with h | h
    · exact b1 r h
    · exact s1 r h
  · have := hkeys.length_eq
    simp only [List.length_map, List.length_append, hB, hS] at this
    omega

/-- Witness of C6: one Buy and one Sell of 10 at price 100. -/
theorem done_accumulates_witness :
    1 ≤ 1 ∧ ((1 : Nat) : Int) ≤ 100 ∧ (1 : Int) ≤ 100 ∧ (1 : Int) ≤ 10 ∧
    [(sampleId1, (1 : Time))].length = 1 ∧ [(sampleId2, (2 : Time))].length = 1 ∧
    (([(sampleId1, (1 : Time))] ++ [(sampleId2, (2 : Time))]).map (fun e => e.1)).Nodup ∧
    (emptyBook.submitAll 100
        ([(sampleId1, (1 : Time))].map (fun e => Request.limit e.1 e.2 Buy 100 10) ++
          [(sampleId2, (2 : Time))].map (fun e => Request.limit e.1 e.2 Sell 100 10))).2.Bids
      = [] ∧
    (emptyBook.submitAll 100
        ([(sampleId1, (1 : Time))].map (fun e => Request.limit e.1 e.2 Buy 100 10) ++
          [(sampleId2, (2 : Time))].map (fun e => Request.limit e.1 e.2 Sell 100 10))).2.Asks
      = [] ∧
    (emptyBook.submitAll 100
        ([(sampleId1, (1 : Time))].map (fun e => Request.limit e.1 e.2 Buy 100 10) ++
          [(sampleId2, (2 : Time))].map
            (fun e => Request.limit e.1 e.2 Sell 100 10))).2.Done.length = 2 * 1 :=
  ⟨by decide, by decide, by decide, by decide, rfl, rfl, by decide,
    (done_accumulates 100 1 100 10 [(sampleId1, 1)] [(sampleId2, 2)] (by decide) (by decide)
      (by decide) (by decide) rfl rfl (by decide)).2.1,
    (done_accumulates 100 1 100 10 [(sampleId1, 1)] [(sampleId2, 2)] (by decide) (by decide)
      (by decide) (by decide) rfl rfl (by decide)).2.2.1,
    (done_accumulates 100 1 100 10 [(sampleId1, 1)] [(sampleId2, 2)] (by decide) (by decide)
      (by decide) (by decide) rfl rfl (by decide)).2.2.2.1⟩

/-! ## Claim C7: the Done record of a resting order -/

/-- C7: let a new order (its identifier occurs nowhere in the book yet) be submitted
successfully and come to rest with its full quantity, and let any calls creating other
identifiers follow, without a sweep of the cleaner.  If the order has been crossed at least
once as the popped counterparty, then `GetCompleteOrder` on its id succeeds and the
quantity of the record is the sum, over those crossings, of the quantity filled in the
crossing, the minimum of its quantity and the quantity of the incoming order at that
moment. -/
theorem resting_order_fills (MaxQueueSize : Int) (ob : OrderBook) (r0 : Request)
    (rs : List Request) (out : Order)
    (hQ : ∀ y ∈ ob.Bids ++ ob.Asks, y.ID ≠ r0.order.ID)
    (hD : ob.Done.get? r0.order.ID.String = none)
    (hok : (ob.submit MaxQueueSize r0).1.2 = none)
    (hrest : (ob.Trade r0.order).2.1.Qty = r0.order.Qty)
    (hlater : ∀ r ∈ rs, r.order.ID ≠ r0.order.ID)
    (hcross : (OrderBook.crossingsAll MaxQueueSize (ob.submit MaxQueueSize r0).2 rs).filter
      (fun c => decide (c.popID = r0.order.ID)) ≠ []) :
    ∃ v, ((ob.submit MaxQueueSize r0).2.submitAll MaxQueueSize rs).2.GetCompleteOrder
        r0.order.ID.String out = (none, v) ∧
      v.Qty = (((OrderBook.crossingsAll MaxQueueSize (ob.submit MaxQueueSize r0).2 rs).filter
        (fun c => decide (c.popID = r0.order.ID))).map Crossing.filled).sum := by
  rcases OrderBook.submit_cases MaxQueueSize ob r0 with ⟨-, h2, hq⟩ | ⟨h1, -⟩
  swap
  · exact absurd hok h1
  have hne : (ob.Trade r0.order).2.1.Qty ≠ 0 := by rw [hrest]; omega
  have hD1 : (ob.submit MaxQueueSize r0).2.Done.get? r0.order.ID.String = none := by
    rw [h2]
    exact ((OrderBook.process_outcome ob r0.order hQ hD).2 hne).2.2
  have hInv : ∀ y ∈ (ob.submit MaxQueueSize r0).2.resting, y.ID = r0.order.ID → 1 ≤ y.Qty := by
    rw [h2, OrderBook.process_eq]
    simp only
    rw [if_neg hne]
    have hres : ∀ y ∈ ob.resting, y.ID ≠ r0.order.ID :=
      (OrderBook.resting_ids ob (fun u => u ≠ r0.order.ID)).2 hQ
    obtain ⟨t1, -, -⟩ := OrderBook.Trade_ids (fun u => u ≠ r0.order.ID) ob r0.order hres
    intro y hy hyx
    unfold OrderBook.PushOrderSync OrderBook.PushOrder at hy
    rcases List.mem_cons.1 ((OrderBook.PushOrderAt_resting _ _).1.subset hy) with e | e
    · rw [e]
      show 1 ≤ (ob.Trade r0.order).2.1.Qty
      rw [hrest]; exact hq
    · exact absurd hyx (t1 y e)
  obtain ⟨f1, f2⟩ := OrderBook.submitAll_fills r0.order.ID MaxQueueSize rs
    (ob.submit MaxQueueSize r0).2 hlater hInv
  have hsome := f2 (Or.inr hcross)
  unfold OrderBook.GetCompleteOrder
  unfold DoneMap.qty at f1
  rw [hD1] at f1
  cases hg : ((ob.submit MaxQueueSize r0).2.submitAll MaxQueueSize rs).2.Done.get?
      r0.order.ID.String with
  | none => exact absurd hg hsome
  | some v =>
    rw [hg] at f1
    simp only at f1
    exact ⟨v, rfl, by rw [f1]; omega⟩

/-- Witness of C7: the first case of the test `TestOrderBookQTY`, a Buy of 10 at price 100
followed by a Sell of 1 at 100, which crosses it, and a Sell of 1 at 101, which does not. -/
theorem resting_order_fills_witness :
    (∀ y ∈ emptyBook.Bids ++ emptyBook.Asks,
      y.ID ≠ (Request.limit sampleId1 1 Buy 100 10).order.ID) ∧
    emptyBook.Done.get? (Request.limit sampleId1 1 Buy 100 10).order.ID.String = none ∧
    (emptyBook.submit 100 (Request.limit sampleId1 1 Buy 100 10)).1.2 = none ∧
    (emptyBook.Trade (Request.limit sampleId1 1 Buy 100 10).order).2.1.Qty =
      (Request.limit sampleId1 1 Buy 100 10).order.Qty ∧
    (∀ r ∈ [Request.limit sampleId2 2 Sell 100 1, Request.limit sampleId3 3 Sell 101 1],
      r.order.ID ≠ (Request.limit sampleId1 1 Buy 100 10).order.ID) ∧
    (OrderBook.crossingsAll 100 (emptyBook.submit 100 (Request.limit sampleId1 1 Buy 100 10)).2
        [Request.limit sampleId2 2 Sell 100 1, Request.limit sampleId3 3 Sell 101 1]).filter
      (fun c => decide (c.popID = (Request.limit sampleId1 1 Buy 100 10).order.ID)) ≠ [] ∧
    ∃ v, ((emptyBook.submit 100 (Request.limit sampleId1 1 Buy 100 10)).2.submitAll 100
        [Request.limit sampleId2 2 Sell 100 1,
          Request.limit sampleId3 3 Sell 101 1]).2.GetCompleteOrder
        (Request.limit sampleId1 1 Buy 100 10).order.ID.String
        (limitOrder sampleId4 0 Buy 1 1) = (none, v) ∧
      v.Qty = (((OrderBook.crossingsAll 100 (emptyBook.submit 100
          (Request.limit sampleId1 1 Buy 100 10)).2
          [Request.limit sampleId2 2 Sell 100 1, Request.limit sampleId3 3 Sell 101 1]).filter
        (fun c => decide (c.popID = (Request.limit sampleId1 1 Buy 100 10).order.ID))).map
          Crossing.filled).sum :=
  ⟨by decide, by decide, by decide, by decide, by decide, by decide,
    resting_order_fills 100 emptyBook (Request.limit sampleId1 1 Buy 100 10)
      [Request.limit sampleId2 2 Sell 100 1, Request.limit sampleId3 3 Sell 101 1]
      (limitOrder sampleId4 0 Buy 1 1) (by decide) (by decide) (by decide) (by decide)
      (by decide) (by decide)⟩

/-! ## Claim C8: price inheritance of market orders -/

theorem OrderBook.market_sell_rests (M : Int) (hM : 1 ≤ M) (u1 : UUID) (t1 : Time) (q : Int) (hq : 1 ≤ q) :
    (emptyBook.ProcessMarketOrder M u1 t1 Sell q).2 =
      { emptyBook with Asks := [marketOrder u1 t1 Sell q] } := by
  have hc : emptyBook.CheckQueueSize M Sell = none := by
    simp [OrderBook.CheckQueueSize, emptyBook, Buy, Sell, OrderBook.GetAsks]; omega
  rw [OrderBook.ProcessMarketOrder_ok _ _ _ _ _ _ hc hq]
  rw [OrderBook.process_rest _ _ (by simp [OrderBook.GetSideQueueLen, emptyBook, Orders.Len, Sell, Buy])
    (by simp only [limitOrder, marketOrder]; omega)]
  simp [OrderBook.PushOrder, OrderBook.PushOrderAt, Sell, Buy, heap.PushAt_nil, emptyBook, marketOrder]

theorem OrderBook.market_buy_crosses (M : Int) (hM : 1 ≤ M) (u1 u2 : UUID) (t1 t2 : Time) (q a : Int)
    (ha : 1 ≤ a) (hqa : 2 ≤ q - a) (hne : u1 ≠ u2) :
    (({ emptyBook with Asks := [marketOrder u1 t1 Sell q] } : OrderBook).ProcessMarketOrder
      M u2 t2 Buy a).2 =
      { emptyBook with
        Asks := [{ marketOrder u1 t1 Sell q with Qty := q - a }],
        Done := [(u1.String, { marketOrder u1 t1 Sell q with Qty := a }),
                 (u2.String, marketOrder u2 t2 Buy a)] } := by
  have hc : ({ emptyBook with Asks := [marketOrder u1 t1 Sell q] } : OrderBook).CheckQueueSize
      M Buy = none := by
    simp [OrderBook.CheckQueueSize, emptyBook, Buy, OrderBook.GetBids]; omega
  rw [OrderBook.ProcessMarketOrder_ok _ _ _ _ _ _ hc ha]
  rw [OrderBook.process_eq, OrderBook.Trade_eq]
  simp only [OrderBook.tradeCompletes]
  rw [OrderBook.Trade_single_buy _ _ (marketOrder u1 t1 Sell q) rfl rfl (by simp only [limitOrder, marketOrder]; omega)]
  have hs : u1.String ≠ u2.String := fun h => hne (UUID.String_inj _ _ h)
  have e1 : ¬ (q = a) := by omega
  have e2 : q > a := by omega
  have e3 : q - a > 1 := by omega
  have e4 : ¬ (q = q - a) := by omega
  simp [OrderBook.tradeBody, OrderBook.resolvePrice, marketOrder, limitOrder, OrderBook.cmp,
    OrderBook.tradeCross, OrderBook.exchangeQty, e1, e2, e3, e4, OrderBook.pushBack,
    OrderBook.PushOrderAt, Sell, Buy, heap.PushAt_nil, OrderBook.collect, OrderBook.save,
    OrderBook.saveOne, DoneMap.get?, DoneMap.put, emptyBook, hs]


theorem OrderBook.limit_buy_crosses (M : Int) (hM : 1 ≤ M) (u1 u2 u3 : UUID) (t1 t2 t3 : Time) (q a b p : Int)
    (hb : 1 ≤ b) (hp : 1 ≤ p) (hqa : 2 ≤ q - a) (hne : u1 ≠ u3) :
    ∃ r, (({ emptyBook with
        Asks := [{ marketOrder u1 t1 Sell q with Qty := q - a }],
        Done := [(u1.String, { marketOrder u1 t1 Sell q with Qty := a }),
                 (u2.String, marketOrder u2 t2 Buy a)] } : OrderBook).ProcessLimitOrder
          M u3 t3 Buy p b).2.Done.get? u1.String = some r ∧
      r.Price = p ∧ r.Qty = a + min b (q - a) := by
  have hc : ({ emptyBook with
        Asks := [{ marketOrder u1 t1 Sell q with Qty := q - a }],
        Done := [(u1.String, { marketOrder u1 t1 Sell q with Qty := a }),
                 (u2.String, marketOrder u2 t2 Buy a)] } : OrderBook).CheckQueueSize
      M Buy = none := by
    simp [OrderBook.CheckQueueSize, emptyBook, Buy, OrderBook.GetBids]; omega
  rw [OrderBook.ProcessLimitOrder_ok _ _ _ _ _ _ _ hc hb hp]
  have hs : u3.String ≠ u1.String := fun h => hne (UUID.String_inj _ _ h).symm
  rw [OrderBook.process_Done_other _ _ _ hs]
  simp only [OrderBook.tradeCompletes]
  rw [OrderBook.Trade_single_buy _ _ { marketOrder u1 t1 Sell q with Qty := q - a } rfl rfl
    (by simp only [limitOrder, marketOrder]; omega)]
  have e6 : ¬ (q - a = 0) := by omega
  have e7 : ¬ (b = 0) := by omega
  rcases lt_trichotomy (q - a) b with h | h | h
  · have e1 : ¬ (q - a = b) := by omega
    have e2 : ¬ (q - a > b) := by omega
    have e3 : ¬ (b < q - a) := by omega
    rw [min_eq_right (by omega)]
    simp [OrderBook.tradeBody, OrderBook.resolvePrice, marketOrder, limitOrder, OrderBook.cmp,
      OrderBook.tradeCross, OrderBook.exchangeQty, e1, e2, e3, e6, OrderBook.pushBack,
      OrderBook.collect, OrderBook.saveOne, DoneMap.get?, DoneMap.put]
  · rw [min_eq_right (by omega)]
    simp [OrderBook.tradeBody, OrderBook.resolvePrice, marketOrder, limitOrder, OrderBook.cmp,
      OrderBook.tradeCross, OrderBook.exchangeQty, h, e6, e7, OrderBook.pushBack,
      OrderBook.collect, OrderBook.saveOne, DoneMap.get?, DoneMap.put]
  · have e1 : ¬ (q - a = b) := by omega
    rw [min_eq_left (by omega)]
    have e8 : ¬ (q - a = q - a - b) := by omega
    by_cases hh : 1 < q - a - b
    · simp [OrderBook.tradeBody, OrderBook.resolvePrice, marketOrder, limitOrder, OrderBook.cmp,
        OrderBook.tradeCross, OrderBook.exchangeQty, e1, h, e6, e7, e8, hh, OrderBook.pushBack,
        OrderBook.collect, OrderBook.saveOne, DoneMap.get?, DoneMap.put]
    · simp [OrderBook.tradeBody, OrderBook.resolvePrice, marketOrder, limitOrder, OrderBook.cmp,
        OrderBook.tradeCross, OrderBook.exchangeQty, e1, h, e6, e7, e8, hh, OrderBook.pushBack,
        OrderBook.collect, OrderBook.saveOne, DoneMap.get?, DoneMap.put]


/-- C8: with `MaxQueueSize >= 1` and quantities `a >= 1`, `b >= 1`, a price `p >= 1` and
`q - a >= 2`: on the empty book `ProcessMarketOrder(Sell, q)` rests in Asks with price 1
and mode Market; after `ProcessMarketOrder(Buy, a)` the Done record of the Sell order has
price 1 and quantity `a`; after a further `ProcessLimitOrder(Buy, p, b)` the same record
has price `p` and quantity `a + min(b, q - a)`. -/
theorem market_price_inheritance (MaxQueueSize : Int) (u1 u2 u3 : UUID) (t1 t2 t3 : Time)
    (q a b p : Int) (hM : 1 ≤ MaxQueueSize) (ha : 1 ≤ a) (hb : 1 ≤ b) (hp : 1 ≤ p)
    (hqa : 2 ≤ q - a) (h12 : u1 ≠ u2) (h13 : u1 ≠ u3) :
    (∃ x, (emptyBook.ProcessMarketOrder MaxQueueSize u1 t1 Sell q).2.Asks = [x] ∧
      x.ID = u1 ∧ x.Qty = q ∧ x.Price = 1 ∧ x.PriceMode = .Market) ∧
    (∃ r, (((emptyBook.ProcessMarketOrder MaxQueueSize u1 t1 Sell q).2.ProcessMarketOrder
        MaxQueueSize u2 t2 Buy a).2.Done.get? u1.String = some r) ∧
      r.Price = 1 ∧ r.Qty = a) ∧
    (∃ r, ((((emptyBook.ProcessMarketOrder MaxQueueSize u1 t1 Sell q).2.ProcessMarketOrder
        MaxQueueSize u2 t2 Buy a).2.ProcessLimitOrder MaxQueueSize u3 t3 Buy p b).2.Done.get?
          u1.String = some r) ∧
      r.Price = p ∧ r.Qty = a + min b (q - a)) := by
  have h1 := OrderBook.market_sell_rests MaxQueueSize hM u1 t1 q (by omega)
  have h2 := OrderBook.market_buy_crosses MaxQueueSize hM u1 u2 t1 t2 q a ha hqa h12
  rw [h1, h2]
  refine ⟨⟨_, rfl, rfl, rfl, rfl, rfl⟩,
    ⟨{ marketOrder u1 t1 Sell q with Qty := a }, ?_, rfl, rfl⟩, ?_⟩
  · simp [DoneMap.get?]
  · exact OrderBook.limit_buy_crosses MaxQueueSize hM u1 u2 u3 t1 t2 t3 q a b p hb hp hqa h13

/-- Witness of C8: the quantities 10, 5, 5 and the price 100 of the test `TestTradePrice`. -/
theorem market_price_inheritance_witness :
    (1 : Int) ≤ 100 ∧ (1 : Int) ≤ 5 ∧ (1 : Int) ≤ 100 ∧ (2 : Int) ≤ 10 - 5 ∧
    sampleId1 ≠ sampleId2 ∧ sampleId1 ≠ sampleId3 ∧
    ∃ r, ((((emptyBook.ProcessMarketOrder 100 sampleId1 1 Sell 10).2.ProcessMarketOrder
        100 sampleId2 2 Buy 5).2.ProcessLimitOrder 100 sampleId3 3 Buy 100 5).2.Done.get?
          sampleId1.String = some r) ∧
      r.Price = 100 ∧ r.Qty = 5 + min 5 (10 - 5) :=
  ⟨by decide, by decide, by decide, by decide, by decide, by decide,
    (market_price_inheritance 100 sampleId1 sampleId2 sampleId3 1 2 3 10 5 5 100
      (by decide) (by decide) (by decide) (by decide) (by decide) (by decide) (by decide)).2.2⟩

/-! ## Claim C9: the query path -/

/-- C9: `GetOrder` with a non-nil `out` returns no error; it returns Pending with `out`
set to a resting order of that id if some order in Bids or Asks has the id (whatever
Done holds), otherwise Completed with `out` set to the Done record if Done has the id,
otherwise Canceled with `out` untouched.  With a nil `out` it returns StatusUnknown and
an error. -/
theorem GetOrder_contract (ob : OrderBook) (id : String) (out : Order) :
    (ob.GetOrder id (some out)).2.1 = none ∧
    ((∃ o ∈ ob.Bids ++ ob.Asks, o.ID.String = id) →
      (ob.GetOrder id (some out)).1 = .StatusPending ∧
      ∃ o ∈ ob.Bids ++ ob.Asks, o.ID.String = id ∧ (ob.GetOrder id (some out)).2.2 = some o) ∧
    ((¬ ∃ o ∈ ob.Bids ++ ob.Asks, o.ID.String = id) → ∀ v, ob.Done.get? id = some v →
      (ob.GetOrder id (some out)).1 = .StatusCompleted ∧
      (ob.GetOrder id (some out)).2.2 = some v) ∧
    ((¬ ∃ o ∈ ob.Bids ++ ob.Asks, o.ID.String = id) → ob.Done.get? id = none →
      (ob.GetOrder id (some out)).1 = .StatusCanceled ∧
      (ob.GetOrder id (some out)).2.2 = some out) ∧
    (ob.GetOrder id none).1 = .StatusUnknown ∧ (ob.GetOrder id none).2.1 ≠ none := by
  rw [OrderBook.GetOrder_some]
  refine ⟨?_, ?_, ?_, ?_, rfl, by simp [OrderBook.GetOrder]⟩
  · split
    · rfl
    · split
      · rfl
      · split <;> rfl
  · rintro ⟨o, hmem, hid⟩
    split
    · next bid hb =>
      refine ⟨rfl, bid, List.mem_append_left _ (List.mem_of_find?_eq_some hb), ?_, rfl⟩
      simpa using List.find?_some hb
    · next hb =>
      split
      · next bid ha =>
        refine ⟨rfl, bid, List.mem_append_right _ (List.mem_of_find?_eq_some ha), ?_, rfl⟩
        simpa using List.find?_some ha
      · next ha =>
        exfalso
        rw [List.find?_eq_none] at hb ha
        rcases List.mem_append.1 hmem with h | h
        · exact hb o h (by simpa using hid)
        · exact ha o h (by simpa using hid)
  · intro hno v hv
    have hb : ob.Bids.find? (fun bid => decide (bid.ID.String = id)) = none := by
      rw [List.find?_eq_none]
      intro x hx hx2
      exact hno ⟨x, List.mem_append_left _ hx, by simpa using hx2⟩
    have ha : ob.Asks.find? (fun bid => decide (bid.ID.String = id)) = none := by
      rw [List.find?_eq_none]
      intro x hx hx2
      exact hno ⟨x, List.mem_append_right _ hx, by simpa using hx2⟩
    rw [hb, ha, hv]
    exact ⟨rfl, rfl⟩
  · intro hno hv
    have hb : ob.Bids.find? (fun bid => decide (bid.ID.String = id)) = none := by
      rw [List.find?_eq_none]
      intro x hx hx2
      exact hno ⟨x, List.mem_append_left _ hx, by simpa using hx2⟩
    have ha : ob.Asks.find? (fun bid => decide (bid.ID.String = id)) = none := by
      rw [List.find?_eq_none]
      intro x hx hx2
      exact hno ⟨x, List.mem_append_right _ hx, by simpa using hx2⟩
    rw [hb, ha, hv]
    exact ⟨rfl, rfl⟩

/-! ## Claim C10: the best price comes first -/

/-- C10: for a non-empty list of orders of one side, appended with `Orders.Push` in the
given order, `heap.Init` followed by `heap.Pop` returns an order of the list whose price
is the maximum of the list when the side is Buy and the minimum otherwise (in particular
when the side is Sell), and the queue is left with exactly the other orders. -/
theorem init_pop_best (l : List Order) (side : Side) (hne : l ≠ [])
    (hside : ∀ x ∈ l, x.Side = side) :
    ∃ x rest, heap.Pop (heap.Init (l.foldl Orders.Push [])) = some (x, rest) ∧
      x.strip ∈ l.map Order.strip ∧
      (side = Buy → ∀ y ∈ l, y.Price ≤ x.Price) ∧
      (side ≠ Buy → ∀ y ∈ l, x.Price ≤ y.Price) ∧
      (x.strip :: rest.map Order.strip).Perm (l.map Order.strip) := by
  have hcontent : ((heap.Init (l.foldl Orders.Push [])).map Order.strip).Perm
      (l.map Order.strip) := by
    refine (heap.Init_perm _).trans ?_
    rw [Orders.foldl_Push_strip]
    simp
  have hmemside : ∀ y ∈ heap.Init (l.foldl Orders.Push []), y.Side = side := by
    intro y hy
    have : y.strip ∈ l.map Order.strip := hcontent.subset (List.mem_map.2 ⟨y, hy, rfl⟩)
    obtain ⟨z, hz, hzs⟩ := List.mem_map.1 this
    rw [← hside z hz]
    exact ((Order.strip_ID _ _ hzs).2.2.2.2.1).symm
  have hu0 : (l.foldl Orders.Push []).uniform := by
    intro a ha b hb
    have key : ∀ y ∈ l.foldl Orders.Push [], y.Side = side := by
      intro y hy
      have : y.strip ∈ (l.foldl Orders.Push []).map Order.strip :=
        List.mem_map.2 ⟨y, hy, rfl⟩
      rw [Orders.foldl_Push_strip] at this
      simp only [List.map_nil, List.nil_append] at this
      obtain ⟨z, hz, hzs⟩ := List.mem_map.1 this
      rw [← hside z hz]
      exact ((Order.strip_ID _ _ hzs).2.2.2.2.1).symm
    rw [key a ha, key b hb]
  have hu : (heap.Init (l.foldl Orders.Push [])).uniform :=
    Orders.uniform_of_perm _ _ (heap.Init_perm _) hu0
  have hheap := heap.Init_isHeap _ hu0
  have hne2 : heap.Init (l.foldl Orders.Push []) ≠ [] := by
    intro h0
    rw [h0] at hcontent
    have := hcontent.length_eq
    simp only [List.map_nil, List.length_nil, List.length_map] at this
    exact hne (List.length_eq_zero.1 this.symm)
  obtain ⟨x, rest, hpop⟩ := heap.Pop_isSome _ hne2
  obtain ⟨-, -, hperm⟩ := heap.Pop_eq_some _ _ _ hpop
  obtain ⟨r, hr, hxr⟩ := heap.Pop_root _ _ _ hpop
  have hroot := Orders.heapFrom_root _ hu _ (Nat.le_refl _) hheap
  have hbest : ∀ y ∈ l, (y.Side = Buy → y.Price ≤ x.Price) ∧
      (y.Side ≠ Buy → x.Price ≤ y.Price) := by
    intro y hy
    have : y.strip ∈ (heap.Init (l.foldl Orders.Push [])).map Order.strip :=
      hcontent.symm.subset (List.mem_map.2 ⟨y, hy, rfl⟩)
    obtain ⟨z, hz, hzs⟩ := List.mem_map.1 this
    obtain ⟨c, hc⟩ := List.mem_iff_getElem?.1 hz
    have hcl : c < (heap.Init (l.foldl Orders.Push [])).length :=
      (List.getElem?_eq_some.1 hc).1
    have := Orders.Less_false_price _ c z r hc hr (hroot c hcl)
    obtain ⟨-, e2, -, -, e5, -⟩ := Order.strip_ID _ _ hzs
    rw [hxr]
    simp only
    rw [← e2, ← e5]
    exact this
  refine ⟨x, rest, hpop, (hperm.trans hcontent).subset (List.mem_cons_self _ _),
    ?_, ?_, hperm.trans hcontent⟩
  · intro hs y hy
    exact (hbest y hy).1 (by rw [hside y hy]; exact hs)
  · intro hs y hy
    exact (hbest y hy).2 (by rw [hside y hy]; exact hs)

/-- Witness of C10: three bids of prices 10, 200 and 100. -/
theorem init_pop_best_witness :
    [limitOrder sampleId1 1 Buy 10 10, limitOrder sampleId2 2 Buy 200 10,
      limitOrder sampleId3 3 Buy 100 10] ≠ [] ∧
    (∀ x ∈ [limitOrder sampleId1 1 Buy 10 10, limitOrder sampleId2 2 Buy 200 10,
      limitOrder sampleId3 3 Buy 100 10], x.Side = Buy) ∧
    ∃ x rest, heap.Pop (heap.Init ([limitOrder sampleId1 1 Buy 10 10,
        limitOrder sampleId2 2 Buy 200 10, limitOrder sampleId3 3 Buy 100 10].foldl
          Orders.Push [])) = some (x, rest) ∧
      x.strip ∈ [limitOrder sampleId1 1 Buy 10 10, limitOrder sampleId2 2 Buy 200 10,
        limitOrder sampleId3 3 Buy 100 10].map Order.strip ∧
      (Buy = Buy → ∀ y ∈ [limitOrder sampleId1 1 Buy 10 10, limitOrder sampleId2 2 Buy 200 10,
        limitOrder sampleId3 3 Buy 100 10], y.Price ≤ x.Price) ∧
      (Buy ≠ Buy → ∀ y ∈ [limitOrder sampleId1 1 Buy 10 10, limitOrder sampleId2 2 Buy 200 10,
        limitOrder sampleId3 3 Buy 100 10], x.Price ≤ y.Price) ∧
      (x.strip :: rest.map Order.strip).Perm
        ([limitOrder sampleId1 1 Buy 10 10, limitOrder sampleId2 2 Buy 200 10,
          limitOrder sampleId3 3 Buy 100 10].map Order.strip) :=
  ⟨by decide, by decide,
    init_pop_best [limitOrder sampleId1 1 Buy 10 10, limitOrder sampleId2 2 Buy 200 10,
      limitOrder sampleId3 3 Buy 100 10] Buy (by decide) (by decide)⟩

/-! ## Claim C11: two successive pops -/

/-- C11: in a queue of at least two orders of one side that satisfies the heap order
under `Less`, two successive calls of `heap.Pop` return `o1` then `o2` with
`o1.Price >= o2.Price` for Buy, `o1.Price <= o2.Price` for any other side (Sell), and
`o1.Time <= o2.Time` when the two prices are equal. -/
theorem pop_twice_priority (h : Orders) (side : Side) (hside : ∀ x ∈ h, x.Side = side)
    (hlen : 2 ≤ h.length) (hheap : h.isHeap) :
    ∃ o1 q1 o2 q2, heap.Pop h = some (o1, q1) ∧ heap.Pop q1 = some (o2, q2) ∧
      (side = Buy → o2.Price ≤ o1.Price) ∧
      (side ≠ Buy → o1.Price ≤ o2.Price) ∧
      (o1.Price = o2.Price → o1.Time ≤ o2.Time) := by
  have hu : h.uniform := by
    intro a ha b hb
    rw [hside a ha, hside b hb]
  have hne : h ≠ [] := by
    intro h0; rw [h0] at hlen; simp at hlen
  obtain ⟨o1, q1, hp1⟩ := heap.Pop_isSome h hne
  obtain ⟨hl1, -, hperm1⟩ := heap.Pop_eq_some _ _ _ hp1
  have hne1 : q1 ≠ [] := by
    intro h0; rw [h0] at hl1; simp at hl1; omega
  obtain ⟨o2, q2, hp2⟩ := heap.Pop_isSome q1 hne1
  obtain ⟨-, -, hperm2⟩ := heap.Pop_eq_some _ _ _ hp2
  obtain ⟨r, hr, hor⟩ := heap.Pop_root _ _ _ hp1
  have hroot := Orders.heapFrom_root h hu _ (Nat.le_refl _) hheap
  have hm2 : o2.strip ∈ h.map Order.strip :=
    hperm1.subset (List.mem_cons_of_mem _ (hperm2.subset (List.mem_cons_self _ _)))
  obtain ⟨z, hz, hzs⟩ := List.mem_map.1 hm2
  obtain ⟨c, hc⟩ := List.mem_iff_getElem?.1 hz
  have hcl : c < h.length := (List.getElem?_eq_some.1 hc).1
  have hless := hroot c hcl
  obtain ⟨-, e2, -, -, e5, e6⟩ := Order.strip_ID _ _ hzs
  have hzside : z.Side = side := hside z hz
  unfold Orders.Less at hless
  rw [hc, hr] at hless
  simp only [Order.less] at hless
  have hp : o1.Price = r.Price := by rw [hor]
  have ht : o1.Time = r.Time := by rw [hor]
  refine ⟨o1, q1, o2, q2, hp1, hp2, ?_, ?_, ?_⟩
  · intro hs
    rw [hzside, if_pos hs] at hless
    split_ifs at hless with e
    · omega
    · simp only [decide_eq_false_iff_not] at hless; omega
  · intro hs
    rw [hzside, if_neg hs] at hless
    split_ifs at hless with e
    · omega
    · simp only [decide_eq_false_iff_not] at hless; omega
  · intro he
    rw [if_pos (by omega)] at hless
    simp only [decide_eq_false_iff_not] at hless
    omega

/-- Witness of C11: a heap of three bids, two of them at the best price. -/
theorem pop_twice_priority_witness :
    (∀ x ∈ sampleBids, x.Side = Buy) ∧ 2 ≤ sampleBids.length ∧ sampleBids.isHeap ∧
    ∃ o1 q1 o2 q2, heap.Pop sampleBids = some (o1, q1) ∧ heap.Pop q1 = some (o2, q2) ∧
      (Buy = Buy → o2.Price ≤ o1.Price) ∧
      (Buy ≠ Buy → o1.Price ≤ o2.Price) ∧
      (o1.Price = o2.Price → o1.Time ≤ o2.Time) :=
  ⟨by decide, by decide, by decide,
    pop_twice_priority sampleBids Buy (by decide) (by decide) (by decide)⟩


/-! ## Claim C12: the tops of the two queues -/

/-- C12: after any sequence of ProcessLimitOrder / ProcessMarketOrder calls on the empty
book, whatever the sides, the limit and the outcomes of the calls: if Bids is not empty
then `Bids[0]` has the maximum price among the bids and the minimum time among the bids
of that price, and if Asks is not empty then `Asks[0]` has the minimum price among the
asks and the minimum time among the asks of that price. -/
theorem tops_are_best (MaxQueueSize : Int) (rs : List Request) :
    (∀ top, (emptyBook.submitAll MaxQueueSize rs).2.Bids[0]? = some top →
      ∀ b ∈ (emptyBook.submitAll MaxQueueSize rs).2.Bids,
        b.Price ≤ top.Price ∧ (b.Price = top.Price → top.Time ≤ b.Time)) ∧
    (∀ top, (emptyBook.submitAll MaxQueueSize rs).2.Asks[0]? = some top →
      ∀ a ∈ (emptyBook.submitAll MaxQueueSize rs).2.Asks,
        top.Price ≤ a.Price ∧ (a.Price = top.Price → top.Time ≤ a.Time)) := by
  obtain ⟨hs, hh⟩ := OrderBook.submitAll_wf MaxQueueSize rs emptyBook emptyBook_wf.1 emptyBook_wf.2
  constructor
  · intro top ht b hb
    obtain ⟨p1, -, p3⟩ := Orders.root_best _ (Orders.uniform_of_buy _ hs.1) hh.1 top b ht hb
    exact ⟨p1 (hs.1 b hb), p3⟩
  · intro top ht a ha
    obtain ⟨-, p2, p3⟩ := Orders.root_best _ (Orders.uniform_of_not_buy _ hs.2) hh.2 top a ht ha
    exact ⟨p2 (hs.2 a ha), p3⟩

/-! ## Claim C14: the queue an incoming order is matched against -/

/-- Counterexample to C14 as stated: on the book with one bid at 90 and one ask at 100,
an incoming Buy of 5 at price 100 has a crossing, and its counterparty is not an order
of Bids. -/
theorem counterparties_counterexample :
    ¬ (∀ c ∈ sampleBookBoth.crossings (limitOrder sampleId3 3 Buy 100 5),
        ((limitOrder sampleId3 3 Buy 100 5).Side = Buy →
          ∃ x ∈ sampleBookBoth.Bids, x.ID = c.popID) ∧
        ((limitOrder sampleId3 3 Buy 100 5).Side = Sell →
          ∃ x ∈ sampleBookBoth.Asks, x.ID = c.popID)) := by
  decide

/-- C14, amended: in `Trade` an incoming order is matched against the queue opposite to
the one it will itself rest in.  For an incoming Buy the loop runs on the length of Asks
and the counterparty of every crossing is an order of Asks; for an incoming order of any
other side (Sell) the loop runs on the length of Bids and the counterparty of every
crossing is an order of Bids. -/
theorem counterparties_from_opposite (ob : OrderBook) (o : Order) :
    (o.Side = Buy → ob.GetSideQueueLen o.Side = ob.Asks.length) ∧
    (o.Side ≠ Buy → ob.GetSideQueueLen o.Side = ob.Bids.length) ∧
    ∀ c ∈ ob.crossings o,
      (o.Side = Buy → ∃ x ∈ ob.Asks, x.ID = c.popID) ∧
      (o.Side ≠ Buy → ∃ x ∈ ob.Bids, x.ID = c.popID) := by
  refine ⟨?_, ?_, ?_⟩
  · intro hs; unfold OrderBook.GetSideQueueLen; rw [if_pos hs]; rfl
  · intro hs; unfold OrderBook.GetSideQueueLen; rw [if_neg hs]; rfl
  · intro c hc
    have key := OrderBook.crossingLog_opp (fun u => ∃ x ∈ ob.oppQ o.Side, x.ID = u)
      (ob.GetSideQueueLen o.Side) { ob := ob, order := o, skips := [], completes := [] }
      (fun x hx => ⟨x, hx, rfl⟩) c hc
    unfold OrderBook.oppQ at key
    constructor
    · intro hs; simpa only [if_pos hs] using key
    · intro hs; simpa only [if_neg hs] using key

/-! ## Claim C13: conservation of the quantities -/

/-- Counterexample to C13 as stated: a Sell of 4 and then a Buy of 10 at the same price
are submitted to the empty book and both calls succeed.  The Buy comes to rest with the
quantity 6 and Done records 4 for the Sell only: the quantities in the book sum to 10,
the submitted ones to 14. -/
theorem conservation_counterexample :
    (emptyBook.submitAll 100 [Request.limit sampleId1 1 Sell 100 4,
      Request.limit sampleId2 2 Buy 100 10]).1.map Prod.snd = [none, none] ∧
    ¬ ((emptyBook.submitAll 100 [Request.limit sampleId1 1 Sell 100 4,
        Request.limit sampleId2 2 Buy 100 10]).2.totalQty =
      OrderBook.submitted 100 emptyBook [Request.limit sampleId1 1 Sell 100 4,
        Request.limit sampleId2 2 Buy 100 10]) := by
  decide

/-- C13, amended: after any sequence of submissions on the empty book in which no
crossing leaves its counterparty with the remaining quantity 1, the sum of the
quantities of the orders resting in Bids and Asks plus the sum of the quantities of the
Done records equals the sum of the quantities of the orders submitted by the successful
calls, minus, for every order that came to rest after it was filled in part at its
submission, the part filled then. -/
theorem quantity_conservation (MaxQueueSize : Int) (rs : List Request)
    (h1 : ∀ c ∈ OrderBook.crossingsAll MaxQueueSize emptyBook rs, c.popQty - c.filled ≠ 1) :
    (emptyBook.submitAll MaxQueueSize rs).2.totalQty =
      OrderBook.submitted MaxQueueSize emptyBook rs -
        OrderBook.unrecorded MaxQueueSize emptyBook rs := by
  have h := OrderBook.submitAll_total MaxQueueSize rs emptyBook h1
  have h0 : emptyBook.totalQty = 0 := by decide
  rw [h, h0]
  omega

/-- Witness of C13 amended: a Sell of 4, then a Buy of 10 that fills it and rests with 6;
the book holds 10 = 14 - 4. -/
theorem quantity_conservation_witness :
    (∀ c ∈ OrderBook.crossingsAll 100 emptyBook [Request.limit sampleId1 1 Sell 100 4,
      Request.limit sampleId2 2 Buy 100 10], c.popQty - c.filled ≠ 1) ∧
    (emptyBook.submitAll 100 [Request.limit sampleId1 1 Sell 100 4,
      Request.limit sampleId2 2 Buy 100 10]).2.totalQty =
      OrderBook.submitted 100 emptyBook [Request.limit sampleId1 1 Sell 100 4,
        Request.limit sampleId2 2 Buy 100 10] -
      OrderBook.unrecorded 100 emptyBook [Request.limit sampleId1 1 Sell 100 4,
        Request.limit sampleId2 2 Buy 100 10] :=
  ⟨by decide, quantity_conservation 100 [Request.limit sampleId1 1 Sell 100 4,
    Request.limit sampleId2 2 Buy 100 10] (by decide)⟩

/-! ## Claim C15: the collections an identifier is present in -/

/-- Counterexample to C15 as stated: a Buy of 10 and then a Sell of 4 at the same price
are submitted to the empty book.  The Buy stays in Bids with the quantity 6 and Done has
a record of 4 under its identifier, so this identifier is present in two collections. -/
theorem collections_counterexample :
    ¬ ((∀ x ∈ (emptyBook.submitAll 100 [Request.limit sampleId1 1 Buy 100 10,
          Request.limit sampleId2 2 Sell 100 4]).2.Bids,
        ∀ y ∈ (emptyBook.submitAll 100 [Request.limit sampleId1 1 Buy 100 10,
          Request.limit sampleId2 2 Sell 100 4]).2.Asks, x.ID ≠ y.ID) ∧
      (∀ x ∈ (emptyBook.submitAll 100 [Request.limit sampleId1 1 Buy 100 10,
          Request.limit sampleId2 2 Sell 100 4]).2.Bids ++
          (emptyBook.submitAll 100 [Request.limit sampleId1 1 Buy 100 10,
          Request.limit sampleId2 2 Sell 100 4]).2.Asks,
        (emptyBook.submitAll 100 [Request.limit sampleId1 1 Buy 100 10,
          Request.limit sampleId2 2 Sell 100 4]).2.Done.get? x.ID.String = none)) := by
  decide

/-- C15, amended: after any sequence of submissions on the empty book whose orders get
pairwise distinct identifiers, no identifier is present twice in Bids and Asks taken
together (so none is in both queues), and an identifier is present both in a queue and
in Done only if it is the one of the counterparty of a crossing, an order that was
filled in part while it was resting. -/
theorem collections_overlap (MaxQueueSize : Int) (rs : List Request)
    (hnd : (rs.map (fun r => r.order.ID)).Nodup) :
    (((emptyBook.submitAll MaxQueueSize rs).2.Bids ++
      (emptyBook.submitAll MaxQueueSize rs).2.Asks).map Order.ID).Nodup ∧
    ∀ x ∈ (emptyBook.submitAll MaxQueueSize rs).2.Bids ++
        (emptyBook.submitAll MaxQueueSize rs).2.Asks,
      (emptyBook.submitAll MaxQueueSize rs).2.Done.get? x.ID.String ≠ none →
      ∃ c ∈ OrderBook.crossingsAll MaxQueueSize emptyBook rs, c.popID = x.ID := by
  constructor
  · have hsub := OrderBook.submitAll_subperm MaxQueueSize rs emptyBook
    rw [OrderBook.resting_map_ID] at hsub
    have he : emptyBook.resting.map Order.ID = [] := rfl
    rw [he, List.append_nil] at hsub
    obtain ⟨l, hl, hs⟩ := hsub
    exact hl.nodup_iff.1 (hnd.sublist hs)
  · intro x hx hd
    have hx2 : x.strip ∈ (emptyBook.submitAll MaxQueueSize rs).2.resting :=
      OrderBook.mem_resting _ x hx
    rcases OrderBook.submitAll_overlap MaxQueueSize rs emptyBook hnd
      (fun r _ hm => by cases hm) x.strip hx2 hd with h | h
    · exact absurd rfl h
    · exact h

/-- Witness of C15 amended: a Buy of 10, then a Sell of 4 that is filled against it. -/
theorem collections_overlap_witness :
    ([Request.limit sampleId1 1 Buy 100 10, Request.limit sampleId2 2 Sell 100 4].map
      (fun r => r.order.ID)).Nodup ∧
    (((emptyBook.submitAll 100 [Request.limit sampleId1 1 Buy 100 10,
        Request.limit sampleId2 2 Sell 100 4]).2.Bids ++
      (emptyBook.submitAll 100 [Request.limit sampleId1 1 Buy 100 10,
        Request.limit sampleId2 2 Sell 100 4]).2.Asks).map Order.ID).Nodup :=
  ⟨by decide, (collections_overlap 100 [Request.limit sampleId1 1 Buy 100 10,
    Request.limit sampleId2 2 Sell 100 4] (by decide)).1⟩

/-! ## Claim C16: the remainder of a crossed counterparty -/

/-- C16, evaluation of the code at the failing input: a Buy of 9 at price 100 is
submitted to the book whose only resting order is a Sell of 10 at price 100.  The one
crossing of the call leaves the counterparty with the remaining quantity 1, and when the
call returns both queues are empty: the statement `if pop.Qty > 1` has not pushed the
counterparty back.  Done holds 9 for each of the two orders. -/
theorem remainder_of_one_dropped :
    sampleBookAsk.crossings (limitOrder sampleId1 2 Buy 100 9) =
      [{ popID := sampleId2, popQty := 10, orderQty := 9 }] ∧
    (sampleBookAsk.Trade (limitOrder sampleId1 2 Buy 100 9)).2.2.Asks = [] ∧
    (sampleBookAsk.Trade (limitOrder sampleId1 2 Buy 100 9)).2.2.Bids = [] ∧
    (sampleBookAsk.ProcessLimitOrder 100 sampleId1 2 Buy 100 9).2.Asks = [] ∧
    (sampleBookAsk.ProcessLimitOrder 100 sampleId1 2 Buy 100 9).2.Bids = [] ∧
    DoneMap.qty (sampleBookAsk.ProcessLimitOrder 100 sampleId1 2 Buy 100 9).2.Done
      sampleId2.String = 9 ∧
    DoneMap.qty (sampleBookAsk.ProcessLimitOrder 100 sampleId1 2 Buy 100 9).2.Done
      sampleId1.String = 9 := by
  decide

/-! ## Claim C17: one sweep of the cleaner -/

/-- C17, evaluation of the code at the failing input: three bids of 10 at price 100
submitted at the instants 0, 1 and 100 rest in this order; the sweep runs at the instant
100 with `OrderExpiration = 50`, so the first two are expired.  The sweep returns
without a panic and leaves in Bids the second bid, which is expired, before the third:
after the first bid is removed the second takes its place and the loop goes on with the
next position. -/
theorem sweep_keeps_expired :
    sampleBookStale.Bids.map (fun x => (x.ID, OrderBook.expired 100 50 x)) =
      [(sampleId1, true), (sampleId2, true), (sampleId3, false)] ∧
    (OrderBook.cleanOldOrder 100 50 sampleBookStale).map
      (fun ob => ob.Bids.map (fun x => (x.ID, OrderBook.expired 100 50 x))) =
      some [(sampleId2, true), (sampleId3, false)] := by
  decide

/-! ## Claim C18: the queues stay within the limit -/

/-- C18: with a limit `MaxQueueSize` that is not negative (on a negative one `New` panics
in `make(Orders, 0, MaxQueueSize)`), after any sequence of submissions with side Buy or
Sell on the empty book, hence after every submission of such a sequence,
`len(Bids) <= MaxQueueSize` and `len(Asks) <= MaxQueueSize`. -/
theorem queues_within_limit (MaxQueueSize : Int) (rs : List Request)
    (hM : 0 ≤ MaxQueueSize) (hsides : ∀ r ∈ rs, r.order.Side = Buy ∨ r.order.Side = Sell) :
    ((emptyBook.submitAll MaxQueueSize rs).2.Bids.length : Int) ≤ MaxQueueSize ∧
    ((emptyBook.submitAll MaxQueueSize rs).2.Asks.length : Int) ≤ MaxQueueSize := by
  have key : ∀ (rs : List Request) (ob : OrderBook),
      (∀ r ∈ rs, r.order.Side = Buy ∨ r.order.Side = Sell) → ob.sidesOk → ob.heapsOk →
      ((ob.Bids.length : Int) ≤ MaxQueueSize ∧ (ob.Asks.length : Int) ≤ MaxQueueSize) →
      ((ob.submitAll MaxQueueSize rs).2.Bids.length : Int) ≤ MaxQueueSize ∧
      ((ob.submitAll MaxQueueSize rs).2.Asks.length : Int) ≤ MaxQueueSize := by
    intro rs
    induction rs with
    | nil => intro ob _ _ _ hl; exact hl
    | cons r rs ih =>
      intro ob hsd hs hh hl
      unfold OrderBook.submitAll
      simp only
      exact ih _ (fun x hx => hsd x (List.mem_cons_of_mem _ hx))
        (OrderBook.submit_wf MaxQueueSize ob r hs hh).1
        (OrderBook.submit_wf MaxQueueSize ob r hs hh).2
        (OrderBook.submit_lengths MaxQueueSize ob r (hsd r (List.mem_cons_self _ _)) hs hh hl)
  exact key rs emptyBook hsides emptyBook_wf.1 emptyBook_wf.2 ⟨hM, hM⟩

/-- Witness of C18: with the limit 1, a first bid rests and a second one is refused. -/
theorem queues_within_limit_witness :
    (0 : Int) ≤ 1 ∧
    (∀ r ∈ [Request.limit sampleId1 1 Buy 100 10, Request.limit sampleId2 2 Buy 100 10],
      r.order.Side = Buy ∨ r.order.Side = Sell) ∧
    ((emptyBook.submitAll 1 [Request.limit sampleId1 1 Buy 100 10,
      Request.limit sampleId2 2 Buy 100 10]).2.Bids.length : Int) ≤ 1 ∧
    ((emptyBook.submitAll 1 [Request.limit sampleId1 1 Buy 100 10,
      Request.limit sampleId2 2 Buy 100 10]).2.Asks.length : Int) ≤ 1 :=
  ⟨by decide, by decide, queues_within_limit 1 [Request.limit sampleId1 1 Buy 100 10,
    Request.limit sampleId2 2 Buy 100 10] (by decide) (by decide)⟩

/-! ## Claim C20: the price test -/

/-- C20: `cmp(Buy, i, j)` is true iff `i <= j` and `cmp(Sell, i, j)` is true iff
`i >= j`.  In one iteration of the loop of `Trade`, with `P` the popped counterparty and
`O` the incoming order after the market-price resolution: when `cmp(O.Side, P.Price,
O.Price)` holds the two are crossed (the incoming order loses `min(P.Qty, O.Qty)` and the
skipped list is left alone), and otherwise `P` is appended to the skipped list and neither
the incoming quantity, the completion records nor the rest of the book change. -/
theorem cmp_contract (i j : Int) (s : OrderBook.TradeState) (pop : Order) (ob1 : OrderBook) :
    (OrderBook.cmp Buy i j = true ↔ i ≤ j) ∧
    (OrderBook.cmp Sell i j = true ↔ i ≥ j) ∧
    (OrderBook.cmp s.order.Side (OrderBook.resolvePrice s.order pop).2.Price
        (OrderBook.resolvePrice s.order pop).1.Price = true →
      OrderBook.tradeBody s pop ob1 =
        OrderBook.tradeCross s pop.Qty (OrderBook.resolvePrice s.order pop).1
          (OrderBook.resolvePrice s.order pop).2 ob1 ∧
      (OrderBook.tradeBody s pop ob1).skips = s.skips ∧
      (OrderBook.tradeBody s pop ob1).order.Qty = s.order.Qty - min pop.Qty s.order.Qty) ∧
    (OrderBook.cmp s.order.Side (OrderBook.resolvePrice s.order pop).2.Price
        (OrderBook.resolvePrice s.order pop).1.Price = false →
      (OrderBook.tradeBody s pop ob1).skips = s.skips ++ [(OrderBook.resolvePrice s.order pop).2] ∧
      (OrderBook.tradeBody s pop ob1).ob = ob1 ∧
      (OrderBook.tradeBody s pop ob1).completes = s.completes ∧
      (OrderBook.tradeBody s pop ob1).order = (OrderBook.resolvePrice s.order pop).1 ∧
      (OrderBook.tradeBody s pop ob1).order.Qty = s.order.Qty) := by
  obtain ⟨-, f2, -, -, -, f6⟩ := OrderBook.resolvePrice_fst s.order pop
  obtain ⟨-, -, -, -, -, g6⟩ := OrderBook.resolvePrice_snd s.order pop
  refine ⟨?_, ?_, ?_, ?_⟩
  · unfold OrderBook.cmp
    by_cases h : i = j
    · simp [h]
    · simp [h]; omega
  · unfold OrderBook.cmp
    have hsb : ¬ Sell = Buy := by decide
    by_cases h : i = j
    · simp [h]
    · simp [h, hsb]; omega
  · intro hc
    rw [← f2] at hc
    have hb : OrderBook.tradeBody s pop ob1 =
        OrderBook.tradeCross s pop.Qty (OrderBook.resolvePrice s.order pop).1
          (OrderBook.resolvePrice s.order pop).2 ob1 := by
      unfold OrderBook.tradeBody
      simp only
      rw [if_pos hc]
    refine ⟨hb, ?_, ?_⟩
    · rw [hb]; rfl
    · rw [hb]
      show (OrderBook.exchangeQty (OrderBook.resolvePrice s.order pop).2.Qty
        (OrderBook.resolvePrice s.order pop).1.Qty).2 = _
      rw [OrderBook.exchangeQty_snd, f6, g6]
  · intro hc
    rw [← f2] at hc
    have hb : OrderBook.tradeBody s pop ob1 =
        { ob := ob1, order := (OrderBook.resolvePrice s.order pop).1,
          skips := s.skips ++ [(OrderBook.resolvePrice s.order pop).2],
          completes := s.completes } := by
      unfold OrderBook.tradeBody
      simp only
      rw [if_neg (by rw [hc]; decide)]
    rw [hb]
    exact ⟨rfl, rfl, rfl, rfl, f6⟩

/-! ## Claim C21: the quantities of an accepted crossing -/

/-- C21: when the price test accepts a popped counterparty of quantity `a >= 1` for an
incoming order of quantity `b >= 1`, the exchange leaves `a - min a b` to the
counterparty and `b - min a b` to the incoming order, neither is negative and one of
them is 0, and the loop body appends to `completes` one record with the identifier of
the counterparty and the quantity `min a b`. -/
theorem crossing_by_min (s : OrderBook.TradeState) (pop : Order) (ob1 : OrderBook)
    (ha : 1 ≤ pop.Qty) (hb : 1 ≤ s.order.Qty)
    (hacc : OrderBook.cmp (OrderBook.resolvePrice s.order pop).1.Side
      (OrderBook.resolvePrice s.order pop).2.Price
      (OrderBook.resolvePrice s.order pop).1.Price = true) :
    OrderBook.exchangeQty pop.Qty s.order.Qty =
      (pop.Qty - min pop.Qty s.order.Qty, s.order.Qty - min pop.Qty s.order.Qty) ∧
    0 ≤ pop.Qty - min pop.Qty s.order.Qty ∧ 0 ≤ s.order.Qty - min pop.Qty s.order.Qty ∧
    (pop.Qty - min pop.Qty s.order.Qty = 0 ∨ s.order.Qty - min pop.Qty s.order.Qty = 0) ∧
    (OrderBook.tradeBody s pop ob1).order.Qty = s.order.Qty - min pop.Qty s.order.Qty ∧
    (OrderBook.pushBack ob1 { (OrderBook.resolvePrice s.order pop).2 with
        Qty := (OrderBook.exchangeQty pop.Qty s.order.Qty).1 }).2.Qty =
      pop.Qty - min pop.Qty s.order.Qty ∧
    ∃ co, (OrderBook.tradeBody s pop ob1).completes = s.completes ++ [co] ∧
      co.ID = pop.ID ∧ co.Qty = min pop.Qty s.order.Qty := by
  have hq2 := (OrderBook.resolvePrice_snd s.order pop).2.2.2.2.2
  have hq1 := (OrderBook.resolvePrice_fst s.order pop).2.2.2.2.2
  have hid := (OrderBook.resolvePrice_snd s.order pop).1
  have hmin := OrderBook.exchangeQty_min pop.Qty s.order.Qty
  have hsnd := OrderBook.pushBack_snd ob1 { (OrderBook.resolvePrice s.order pop).2 with
    Qty := (OrderBook.exchangeQty pop.Qty s.order.Qty).1 }
  obtain ⟨e1, -, -, e4, -, -⟩ := Order.strip_ID _ _ hsnd
  have e4b : (OrderBook.pushBack ob1 { (OrderBook.resolvePrice s.order pop).2 with
      Qty := (OrderBook.exchangeQty pop.Qty s.order.Qty).1 }).2.Qty =
      pop.Qty - min pop.Qty s.order.Qty := by
    rw [e4]; simp only; rw [hmin]
  have hle1 : min pop.Qty s.order.Qty ≤ pop.Qty := min_le_left _ _
  have hle2 : min pop.Qty s.order.Qty ≤ s.order.Qty := min_le_right _ _
  have hpos : 1 ≤ min pop.Qty s.order.Qty := le_min ha hb
  refine ⟨hmin, by omega, by omega, ?_, ?_, e4b, ?_⟩
  · rcases le_total pop.Qty s.order.Qty with h | h
    · left; rw [min_eq_left h]; omega
    · right; rw [min_eq_right h]; omega
  · unfold OrderBook.tradeBody
    simp only
    rw [if_pos hacc]
    unfold OrderBook.tradeCross
    simp only
    rw [hq1, hq2, hmin]
  · unfold OrderBook.tradeBody
    simp only
    rw [if_pos hacc]
    unfold OrderBook.tradeCross OrderBook.collect
    simp only
    rw [hq1, hq2, if_pos (by rw [e4b]; omega)]
    refine ⟨_, rfl, ?_, ?_⟩
    · simp only; rw [e1]; exact hid
    · simp only; rw [e4b]; omega

/-- Witness of C21: a Sell of 10 is crossed with an incoming Buy of 9 at the same price. -/
theorem crossing_by_min_witness :
    (1 : Int) ≤ (limitOrder sampleId2 1 Sell 100 10).Qty ∧
    (OrderBook.tradeBody ⟨sampleBookAsk, limitOrder sampleId1 2 Buy 100 9, [], []⟩
        (limitOrder sampleId2 1 Sell 100 10) emptyBook).order.Qty =
      (9 : Int) - min (limitOrder sampleId2 1 Sell 100 10).Qty 9 :=
  ⟨by decide, (crossing_by_min ⟨sampleBookAsk, limitOrder sampleId1 2 Buy 100 9, [], []⟩
    (limitOrder sampleId2 1 Sell 100 10) emptyBook
    (by decide) (by decide) (by decide)).2.2.2.2.1⟩

/-! ## Claim C22: one call of save -/

/-- C22: `save(o)`, with its addition computed on 64-bit integers as Go does, on any
book in which the quantity recorded under the identifier of `o` plus the quantity of `o`
fits in 64 bits: if Done has a record under the identifier of `o`, the new record is the
old one with the price of `o` and with the quantity of `o` added; if it has none, the new
record is `o`; the records under all other keys, Bids and Asks are unchanged.  On such a
book the exact sum of `save` gives the same result. -/
theorem save_contract (ob : OrderBook) (o : Order)
    (hfit : -9223372036854775808 ≤ DoneMap.qty ob.Done o.ID.String + o.Qty ∧
      DoneMap.qty ob.Done o.ID.String + o.Qty < 9223372036854775808) :
    (∀ v, ob.Done.get? o.ID.String = some v →
      (ob.save64 [o]).Done.get? o.ID.String =
        some { v with Price := o.Price, Qty := v.Qty + o.Qty }) ∧
    (ob.Done.get? o.ID.String = none → (ob.save64 [o]).Done.get? o.ID.String = some o) ∧
    (∀ k, k ≠ o.ID.String → (ob.save64 [o]).Done.get? k = ob.Done.get? k) ∧
    (ob.save64 [o]).Bids = ob.Bids ∧ (ob.save64 [o]).Asks = ob.Asks ∧
    ob.save64 [o] = ob.save [o] := by
  have he : OrderBook.saveOne64 ob.Done o = OrderBook.saveOne ob.Done o :=
    OrderBook.saveOne64_eq ob.Done o hfit
  have hs : (ob.save64 [o]).Done = OrderBook.saveOne ob.Done o := he
  have hsave : ob.save64 [o] = ob.save [o] := by
    unfold OrderBook.save64 OrderBook.save
    simp only [List.foldl_cons, List.foldl_nil]
    rw [he]
  refine ⟨?_, ?_, ?_, rfl, rfl, hsave⟩
  · intro v hv
    rw [hs, OrderBook.saveOne_get?_self, hv]
  · intro hn
    rw [hs, OrderBook.saveOne_get?_self, hn]
  · intro k hk
    rw [hs, OrderBook.saveOne_get?_ne _ _ _ (fun h => hk h.symm)]

/-- Witness of C22: Done holds 9 under the identifier of a Sell; `save` of a record of 1
at price 120 under the same identifier leaves 10 at price 120. -/
theorem save_contract_witness :
    ((-9223372036854775808 : Int) ≤
        DoneMap.qty (sampleBookAsk.ProcessLimitOrder 100 sampleId1 2 Buy 100 9).2.Done
          (limitOrder sampleId2 3 Sell 120 1).ID.String + (limitOrder sampleId2 3 Sell 120 1).Qty ∧
      DoneMap.qty (sampleBookAsk.ProcessLimitOrder 100 sampleId1 2 Buy 100 9).2.Done
          (limitOrder sampleId2 3 Sell 120 1).ID.String + (limitOrder sampleId2 3 Sell 120 1).Qty <
        9223372036854775808) ∧
    DoneMap.qty (((sampleBookAsk.ProcessLimitOrder 100 sampleId1 2 Buy 100 9).2.save64
      [limitOrder sampleId2 3 Sell 120 1]).Done) sampleId2.String = 10 ∧
    (sampleBookAsk.ProcessLimitOrder 100 sampleId1 2 Buy 100 9).2.save64
        [limitOrder sampleId2 3 Sell 120 1] =
      (sampleBookAsk.ProcessLimitOrder 100 sampleId1 2 Buy 100 9).2.save
        [limitOrder sampleId2 3 Sell 120 1] :=
  ⟨by decide, by decide,
    (save_contract (sampleBookAsk.ProcessLimitOrder 100 sampleId1 2 Buy 100 9).2
      (limitOrder sampleId2 3 Sell 120 1) (by decide)).2.2.2.2.2⟩

/-! ## Claim C23: the rejected counterparties -/

/-- C23: an iteration whose price test rejects the popped counterparty appends it, as it
was popped, to the skipped list and writes no completion record.  For every call of
`Trade` on a book whose resting orders have pairwise distinct identifiers: the
identifiers of all the counterparties that the call pops, crossed or rejected, are
pairwise distinct, and the rejected ones make up a part of the orders that rested before
the call, so each is popped at most once; when `Trade` returns every rejected
counterparty rests in the queue of its own side and agrees with an order that rested
before the call on every field but `idx` (identifier, price, quantity, time, price mode);
and the Done record under its identifier is the one from before the call. -/
theorem rejected_counterparties (ob : OrderBook) (o : Order)
    (hnd : ((ob.Bids ++ ob.Asks).map Order.ID).Nodup) :
    (∀ (s : OrderBook.TradeState) (pop : Order) (ob1 : OrderBook),
      OrderBook.rejects s.order pop →
      (OrderBook.tradeBody s pop ob1).skips = s.skips ++ [pop] ∧
      (OrderBook.tradeBody s pop ob1).ob = ob1 ∧
      (OrderBook.tradeBody s pop ob1).completes = s.completes) ∧
    ((ob.crossings o).map Crossing.popID ++ (ob.tradeFinal o).skips.map Order.ID).Nodup ∧
    ((ob.tradeFinal o).skips.map Order.strip).Subperm ob.resting ∧
    ∀ x ∈ (ob.tradeFinal o).skips,
      (∃ y0 ∈ ob.Bids ++ ob.Asks, y0.strip = x.strip) ∧
      (∃ y ∈ (if x.Side = Buy then (ob.Trade o).2.2.Bids else (ob.Trade o).2.2.Asks),
        y.strip = x.strip) ∧
      (ob.Trade o).2.2.Done.get? x.ID.String = ob.Done.get? x.ID.String := by
  have hpops := OrderBook.tradeLoop_pops (ob.GetSideQueueLen o.Side)
    { ob := ob, order := o, skips := [], completes := [] }
  simp only [List.map_nil, List.nil_append] at hpops
  rw [OrderBook.resting_map_ID] at hpops
  have hnd2 : ((ob.crossings o).map Crossing.popID ++
      (ob.tradeFinal o).skips.map Order.ID).Nodup := by
    obtain ⟨l, hl, hs⟩ := hpops
    exact hl.nodup_iff.1 (hnd.sublist hs)
  have hsk := OrderBook.tradeLoop_skips (ob.GetSideQueueLen o.Side)
    { ob := ob, order := o, skips := [], completes := [] }
  simp only [List.map_nil, List.nil_append] at hsk
  refine ⟨?_, hnd2, hsk, ?_⟩
  · intro s pop ob1 hr
    have he := (OrderBook.rejects_eq _ _ hr).1
    unfold OrderBook.rejects at hr
    unfold OrderBook.tradeBody
    simp only
    rw [if_neg (by rw [hr]; decide), he]
    exact ⟨rfl, rfl, rfl⟩
  · intro x hx
    refine ⟨?_, ?_, ?_⟩
    · obtain ⟨y0, hy0, e⟩ := List.mem_map.1 (hsk.subset (List.mem_map.2 ⟨x, hx, rfl⟩))
      exact ⟨y0, hy0, e⟩
    · rw [OrderBook.Trade_eq]
      exact (OrderBook.pushAll_mem (ob.tradeFinal o).skips (ob.tradeFinal o).ob).2.2 x hx
    · rw [OrderBook.Trade_Done]
      refine OrderBook.foldl_saveOne_get?_ne _ _ _ ?_
      intro c hc hce
      rcases OrderBook.tradeLoop_completes _ _ c hc with h0 | ⟨cr, hcr, e⟩
      · exact absurd h0 (List.not_mem_nil c)
      · have hid : cr.popID = x.ID := e.trans (UUID.String_inj _ _ hce)
        have hdis := (List.nodup_append.1 hnd2).2.2
        exact hdis (List.mem_map.2 ⟨cr, hcr, hid⟩) (List.mem_map.2 ⟨x, hx, rfl⟩)

/-- Witness of C23: on the book with a bid at 90 and an ask at 100, an incoming Buy at 95
pops the ask and rejects it; the ask is back in Asks when `Trade` returns. -/
theorem rejected_counterparties_witness :
    ((sampleBookBoth.Bids ++ sampleBookBoth.Asks).map Order.ID).Nodup ∧
    (sampleBookBoth.tradeFinal (limitOrder sampleId3 3 Buy 95 5)).skips.map Order.ID =
      [sampleId2] ∧
    ((sampleBookBoth.tradeFinal (limitOrder sampleId3 3 Buy 95 5)).skips.map
      Order.strip).Subperm sampleBookBoth.resting :=
  ⟨by decide, by decide,
    (rejected_counterparties sampleBookBoth (limitOrder sampleId3 3 Buy 95 5)
      (by decide)).2.2.1⟩

/-! ## Claim C24: stopping at the first rejected counterparty -/

/-- Counterexample to C24 as stated: the book reached by a market Sell of 10, a limit Buy
of 3 at 100 and a limit Sell of 5 at 50 holds in Asks the limit Sell and, behind it, the
remaining 7 of the market Sell.  For an incoming limit Buy of 10 at 40, `Trade` rejects
the limit Sell, goes on and fills 7 against the market Sell, leaving the quantity 3; the
variant stops at the rejection and leaves the quantity 10. -/
theorem short_circuit_counterexample :
    (sampleBookMixed.Trade (limitOrder sampleId4 4 Buy 40 10)).2.1.Qty = 3 ∧
    (sampleBookMixed.TradeShort (limitOrder sampleId4 4 Buy 40 10)).2.1.Qty = 10 ∧
    ¬ ((sampleBookMixed.Trade (limitOrder sampleId4 4 Buy 40 10)).2.1 =
        (sampleBookMixed.TradeShort (limitOrder sampleId4 4 Buy 40 10)).2.1 ∧
      (sampleBookMixed.Trade (limitOrder sampleId4 4 Buy 40 10)).2.2.Done =
        (sampleBookMixed.TradeShort (limitOrder sampleId4 4 Buy 40 10)).2.2.Done ∧
      (sampleBookMixed.Trade (limitOrder sampleId4 4 Buy 40 10)).2.2.Asks.length =
        (sampleBookMixed.TradeShort (limitOrder sampleId4 4 Buy 40 10)).2.2.Asks.length) := by
  decide

/-- C24, amended: for every book reached by submissions from the empty book and every
incoming order such that the queue the order is matched against holds no Market order,
`Trade` and the variant that stops its loop at the first counterparty rejected by the
price test and pushes it back produce the same outcome: the same incoming order (so the
same remaining quantity and price), the same Done map, and in Bids and in Asks the same
resting orders up to their order in the array and their `idx`. -/
theorem short_circuit_equivalent (MaxQueueSize : Int) (rs : List Request) (o : Order)
    (hnm : ∀ x ∈ (if o.Side = Buy then (emptyBook.submitAll MaxQueueSize rs).2.Asks
      else (emptyBook.submitAll MaxQueueSize rs).2.Bids), x.PriceMode ≠ .Market) :
    ((emptyBook.submitAll MaxQueueSize rs).2.Trade o).1 =
      ((emptyBook.submitAll MaxQueueSize rs).2.TradeShort o).1 ∧
    ((emptyBook.submitAll MaxQueueSize rs).2.Trade o).2.1 =
      ((emptyBook.submitAll MaxQueueSize rs).2.TradeShort o).2.1 ∧
    ((emptyBook.submitAll MaxQueueSize rs).2.Trade o).2.2.Done =
      ((emptyBook.submitAll MaxQueueSize rs).2.TradeShort o).2.2.Done ∧
    (((emptyBook.submitAll MaxQueueSize rs).2.Trade o).2.2.Bids.map Order.strip).Perm
      (((emptyBook.submitAll MaxQueueSize rs).2.TradeShort o).2.2.Bids.map Order.strip) ∧
    (((emptyBook.submitAll MaxQueueSize rs).2.Trade o).2.2.Asks.map Order.strip).Perm
      (((emptyBook.submitAll MaxQueueSize rs).2.TradeShort o).2.2.Asks.map Order.strip) := by
  obtain ⟨hs, hh⟩ := OrderBook.submitAll_wf MaxQueueSize rs emptyBook emptyBook_wf.1 emptyBook_wf.2
  exact OrderBook.Trade_short _ o hs hh hnm

/-- Witness of C24 amended: on the book with a bid at 90 and an ask at 100, an incoming
Buy at 95 is rejected by the ask in both variants. -/
theorem short_circuit_equivalent_witness :
    (∀ x ∈ (if (limitOrder sampleId3 3 Buy 95 5).Side = Buy then
        (emptyBook.submitAll 100 [Request.limit sampleId1 1 Buy 90 10,
          Request.limit sampleId2 2 Sell 100 10]).2.Asks
      else (emptyBook.submitAll 100 [Request.limit sampleId1 1 Buy 90 10,
          Request.limit sampleId2 2 Sell 100 10]).2.Bids), x.PriceMode ≠ .Market) ∧
    ((emptyBook.submitAll 100 [Request.limit sampleId1 1 Buy 90 10,
        Request.limit sampleId2 2 Sell 100 10]).2.Trade (limitOrder sampleId3 3 Buy 95 5)).2.1 =
      ((emptyBook.submitAll 100 [Request.limit sampleId1 1 Buy 90 10,
        Request.limit sampleId2 2 Sell 100 10]).2.TradeShort
          (limitOrder sampleId3 3 Buy 95 5)).2.1 :=
  ⟨by decide, (short_circuit_equivalent 100 [Request.limit sampleId1 1 Buy 90 10,
    Request.limit sampleId2 2 Sell 100 10] (limitOrder sampleId3 3 Buy 95 5) (by decide)).2.1⟩

/-! ## Claim C25: idx equals the array position -/

/-- C25: in a queue in which every order has its array position in `idx`, the same
holds after `heap.Push`, in the queue that `heap.Pop` leaves, after `Fix(i)` and after
`Swap(i, j)`; the queue after `heap.Push` contains the pushed order with `idx` set to
its position, and the order that `heap.Pop` returns has `idx = -1`. -/
theorem idx_follows_position (h : Orders) (hidx : h.idxOk) :
    (∀ x, (heap.Push h x).idxOk ∧
      ∃ p : Nat, (heap.Push h x)[p]? = some { x with idx := (p : Int) }) ∧
    (∀ x q, heap.Pop h = some (x, q) → q.idxOk ∧ x.idx = -1) ∧
    (∀ i, (h.Fix i).idxOk) ∧
    (∀ i j, (h.Swap i j).idxOk) :=
  ⟨fun x => ⟨heap.PushAt_idxOk h x hidx, heap.Push_contains h x hidx⟩,
    fun x q hp => heap.Pop_idxOk h x q hidx hp,
    fun i => heap.Fix_idxOk h i hidx,
    fun i j => Orders.Swap_idxOk h i j hidx⟩

/-- Witness of C25: the heap of three bids, and the exchange of its first two orders. -/
theorem idx_follows_position_witness :
    sampleBids.idxOk ∧ (sampleBids.Swap 0 1).idxOk :=
  ⟨by decide, (idx_follows_position sampleBids (by decide)).2.2.2 0 1⟩

/-! ## Claim C26: the book is never left crossed -/

/-- C26: after any sequence of submissions on the empty book, whatever the sides, the
limit and the outcomes of the calls, every resting bid `b` and every resting ask `a` are
two Limit orders with `b.Price < a.Price`; in particular, when a Market order rests in
one queue the other queue is empty. -/
theorem book_never_crossed (MaxQueueSize : Int) (rs : List Request) :
    (∀ b ∈ (emptyBook.submitAll MaxQueueSize rs).2.Bids,
      ∀ a ∈ (emptyBook.submitAll MaxQueueSize rs).2.Asks,
        b.PriceMode = .Limit ∧ a.PriceMode = .Limit ∧ b.Price < a.Price) ∧
    (∀ x ∈ (emptyBook.submitAll MaxQueueSize rs).2.Bids, x.PriceMode = .Market →
      (emptyBook.submitAll MaxQueueSize rs).2.Asks = []) ∧
    (∀ x ∈ (emptyBook.submitAll MaxQueueSize rs).2.Asks, x.PriceMode = .Market →
      (emptyBook.submitAll MaxQueueSize rs).2.Bids = []) := by
  have hu : (emptyBook.submitAll MaxQueueSize rs).2.uncrossed :=
    (OrderBook.submitAll_uncrossed MaxQueueSize rs emptyBook emptyBook_wf.1 emptyBook_wf.2
      (fun x hx => absurd hx (List.not_mem_nil x))
      (fun b hb => absurd hb (List.not_mem_nil b))).2
  refine ⟨hu, ?_, ?_⟩
  · intro x hx hm
    cases hA : (emptyBook.submitAll MaxQueueSize rs).2.Asks with
    | nil => rfl
    | cons a as =>
      have h1 := (hu x hx a (by rw [hA]; exact List.mem_cons_self _ _)).1
      rw [hm] at h1
      cases h1
  · intro x hx hm
    cases hB : (emptyBook.submitAll MaxQueueSize rs).2.Bids with
    | nil => rfl
    | cons b bs =>
      have h1 := (hu b (by rw [hB]; exact List.mem_cons_self _ _) x hx).2.1
      rw [hm] at h1
      cases h1

/-! ## Claim C27: the length of the matching loop -/

/-- C27: for every book and incoming order, with `n` the length of the counterparty
queue when `Trade` is entered: the loop performs at most `n` iterations whatever the
bound put on it, after `n` iterations its condition is false, and no larger bound
changes its result.  Every iteration pops one counterparty, and an iteration that leaves
the incoming order with a quantity other than 0 pushes nothing back: the book is then
the one that the pop has left. -/
theorem trade_loop_bound (ob : OrderBook) (o : Order) (fuel : Nat) :
    OrderBook.tradeIters fuel { ob := ob, order := o, skips := [], completes := [] } ≤
      ob.GetSideQueueLen o.Side ∧
    OrderBook.tradeLoop (ob.GetSideQueueLen o.Side + fuel)
        { ob := ob, order := o, skips := [], completes := [] } =
      OrderBook.tradeLoop (ob.GetSideQueueLen o.Side)
        { ob := ob, order := o, skips := [], completes := [] } ∧
    ¬ ((ob.tradeFinal o).ob.GetSideQueueLen (ob.tradeFinal o).order.Side > 0 ∧
      (ob.tradeFinal o).order.Qty > 0) ∧
    ∀ (s : OrderBook.TradeState) (pop : Order) (ob1 : OrderBook),
      s.ob.PopBySide s.order.Side = some (pop, ob1) →
      ob1.GetSideQueueLen s.order.Side + 1 = s.ob.GetSideQueueLen s.order.Side ∧
      ((OrderBook.tradeBody s pop ob1).order.Qty ≠ 0 →
        (OrderBook.tradeBody s pop ob1).ob = ob1) := by
  refine ⟨OrderBook.tradeIters_le fuel _, OrderBook.tradeLoop_fuel _ _ _ (Nat.le_refl _),
    OrderBook.tradeLoop_exit _ _ (Nat.le_refl _), ?_⟩
  intro s pop ob1 hp
  exact ⟨(OrderBook.PopBySide_some _ _ _ _ hp).2.2.2.2.1, OrderBook.tradeBody_keep s pop ob1⟩

/-! ## Claim C28: the cleaner runs to completion -/

/-- C28, evaluation of the code at the failing input: two bids of 10 at price 100
submitted at the instants 0 and 1 rest in this order and both are expired at the instant
100 with `OrderExpiration = 50`.  The loop removes the first bid, which shortens Bids to
the length 1, then visits the position 1, reads the second bid from the backing array
and evaluates `o.Bids[2:]`: the sweep panics. -/
theorem sweep_panics :
    (emptyBook.submitAll 100 [Request.limit sampleId1 0 Buy 100 10,
      Request.limit sampleId2 1 Buy 100 10]).2.Bids.map
        (fun x => (x.ID, OrderBook.expired 100 50 x)) =
      [(sampleId1, true), (sampleId2, true)] ∧
    OrderBook.cleanOldOrder 100 50 (emptyBook.submitAll 100
      [Request.limit sampleId1 0 Buy 100 10, Request.limit sampleId2 1 Buy 100 10]).2 = none := by
  decide

end orderbook
